import Mathlib

/-!
# Enrichment cascade functions of `mbmore` (`src/enrich_functions.cc`)

A shallow embedding of the stage-assay functions, of the stage-counting loops of
`FindNStages` and of the flow system assembled by `CalcFeedFlows`, with the
properties of the cascade design proved about them.

Conventions of the embedding:

* in the stage-assay functions and in `CalcFeedFlows` a C++ `double` is an exact
  rational number (`ℚ`): the theorems about them are about the arithmetic the code
  writes down, not about IEEE rounding. Division by zero is `0` in `ℚ` and `inf`/`NaN`
  in the code; the claims are stated on inputs where no denominator of the code
  vanishes, or where the result does not depend on the quotient (`CalcDelU` at the
  pressure ratio `1`, where the factor `(1 - r_12 ^ 2) ^ 2` is `0`);
* `FindNStages` loops until a computed assay passes a target, so what it returns depends
  on the arithmetic of `double`. It is written over an arbitrary arithmetic (`Arith`),
  of which the exact rationals (`rational`) and the IEEE 754 binary64 doubles
  (`binary64`, round to nearest, ties to even) are instances; its theorems hold for
  every arithmetic, and the inputs on which doubles behave otherwise than exact numbers
  are evaluated in `binary64`;
* the stage counters of `FindNStages` are `int`s of 32 bits: a counter that would pass
  `INT_MAX` gives the outcome `overflow`, where the code has no defined behaviour. The
  stage counts of `CalcFeedFlows` are unbounded integers;
* a `while` loop is a recursive function with fuel: the outcome `running` means that
  the loop is still running when the fuel is used up, `done s` is the state at loop
  exit;
* the stack arrays of `CalcFeedFlows` are functions on indices together with the
  bound `max_stages`; an access outside the bound has no defined behaviour and is
  the outcome `none`;
* the LAPACK routine `dgesv_` is only declared in the repository, so it is a
  parameter of `CalcFeedFlows`;
* the functions that call `<cmath>` (`CalcDelU`, `CalcV`, `AlphaBySwu`,
  `ProductAssayFromNStages`) are written over an arbitrary field, with `std::sqrt`,
  `log`, `exp` and `M_PI` as parameters, so that they can be evaluated with any
  stand-ins; the theorems about them take the real numbers with `Real.sqrt`,
  `Real.log`, `Real.exp` and `Real.pi`. Where the code would produce NaN (square root of
  a negative number) the real functions give `0`; the theorems say so where it matters.
-/

namespace mbmore

/-! ## Stage assays -/

/-- Product assay of one machine, `ProductAssayByAlpha` (enrich_functions.cc:86-92). -/
def ProductAssayByAlpha (alpha feed_assay : ℚ) : ℚ :=
  let ratio := alpha * feed_assay / (1 - feed_assay)
  ratio / (1 + ratio)

/-- Waste assay of one machine, `WasteAssayByAlpha` (enrich_functions.cc:94-97). -/
def WasteAssayByAlpha (alpha feed_assay : ℚ) : ℚ :=
  let A := (feed_assay / (1 - feed_assay)) / alpha
  A / (1 + A)

/-! ## Stage counts: `FindNStages`

The two loops of `FindNStages` compare assays that the code has computed, so the counts
they return, and whether they return at all, depend on the arithmetic of `double`.
`FindNStages` is therefore written over an arbitrary arithmetic `Arith D`, with the
stage functions spelt out operation by operation; `rational` is the exact arithmetic of
the stage-assay theorems and `binary64` the arithmetic of IEEE 754 doubles. -/

/-- The operations on `double` that the stage functions and `FindNStages` use. -/
structure Arith (D : Type) where
  one : D
  add : D → D → D
  sub : D → D → D
  mul : D → D → D
  div : D → D → D
  lt : D → D → Bool

/-- The function `ProductAssayByAlpha` (enrich_functions.cc:86-92), operation by operation
in the arithmetic `A`. -/
def ProductAssayByAlphaIn {D : Type} (A : Arith D) (alpha feed_assay : D) : D :=
  let ratio := A.div (A.mul alpha feed_assay) (A.sub A.one feed_assay)
  A.div ratio (A.add A.one ratio)

/-- The function `WasteAssayByAlpha` (enrich_functions.cc:94-97), operation by operation in
the arithmetic `A`. -/
def WasteAssayByAlphaIn {D : Type} (A : Arith D) (alpha feed_assay : D) : D :=
  let a := A.div (A.div feed_assay (A.sub A.one feed_assay)) alpha
  A.div a (A.add A.one a)

/-- Exact arithmetic on the rational numbers. -/
def rational : Arith ℚ :=
  { one := 1
    add := fun x y => x + y
    sub := fun x y => x - y
    mul := fun x y => x * y
    div := fun x y => x / y
    lt := fun x y => decide (x < y) }

/-- A value of the IEEE 754 binary64 format, the format of a `double`: `finite s m e` is
the number `(-1)^s * m * 2^e` with `m < 2^53` and `-1074 <= e <= 971`, where `m >= 2^52`
(a normal number) or `e = -1074` (zero or a subnormal number). -/
inductive Dbl where
  | finite (sign : Bool) (m : Nat) (e : Int)
  | inf (sign : Bool)
  | nan
deriving DecidableEq

/-- Number of binary digits of `a`, for `a < 2 ^ 2 ^ k`. -/
def bitLenBelow : Nat → Nat → Nat
  | 0, a => if a = 0 then 0 else 1
  | k + 1, a => if a < 2 ^ 2 ^ k then bitLenBelow k a else 2 ^ k + bitLenBelow k (a / 2 ^ 2 ^ k)

/-- Least `k`, from `k` on, with `a < 2 ^ 2 ^ k`. -/
def bitLenLevel : Nat → Nat → Nat → Nat
  | 0, k, _ => k
  | fuel + 1, k, a => if a < 2 ^ 2 ^ k then k else bitLenLevel fuel (k + 1) a

/-- Number of binary digits of `a`. -/
def bitLen (a : Nat) : Nat := bitLenBelow (bitLenLevel a 0 a) a

/-- A finite value, or infinity when the exponent is above the range of the format. -/
def Dbl.pack (sign : Bool) (m : Nat) (e : Int) : Dbl :=
  if 971 < e then Dbl.inf sign else Dbl.finite sign m e

/-- Rounding of the number `(-1)^sign * M * 2^E` to the format, to nearest with ties to
even (the default rounding mode). -/
def Dbl.round (sign : Bool) (M : Nat) (E : Int) : Dbl :=
  if M = 0 then Dbl.finite sign 0 (-1074)
  else
    let e := max (E + (bitLen M : Int) - 53) (-1074)
    if e ≤ E then Dbl.pack sign (M * 2 ^ (E - e).toNat) e
    else
      let k := (e - E).toNat
      let q := M / 2 ^ k
      let r := M % 2 ^ k
      let half := 2 ^ (k - 1)
      let q1 := if half < r ∨ (r = half ∧ q % 2 = 1) then q + 1 else q
      if q1 = 2 ^ 53 then Dbl.pack sign (2 ^ 52) (e + 1) else Dbl.pack sign q1 e

/-- The integer `(-1)^sign * m`. -/
def Dbl.signed (sign : Bool) (m : Nat) : Int := if sign then -(m : Int) else (m : Int)

/-- Unary minus of doubles. -/
def Dbl.neg : Dbl → Dbl
  | Dbl.finite s m e => Dbl.finite (!s) m e
  | Dbl.inf s => Dbl.inf (!s)
  | Dbl.nan => Dbl.nan

/-- Addition of doubles: the exact sum, rounded. -/
def Dbl.add : Dbl → Dbl → Dbl
  | Dbl.nan, _ => Dbl.nan
  | _, Dbl.nan => Dbl.nan
  | Dbl.inf s, Dbl.inf t => if s = t then Dbl.inf s else Dbl.nan
  | Dbl.inf s, Dbl.finite _ _ _ => Dbl.inf s
  | Dbl.finite _ _ _, Dbl.inf t => Dbl.inf t
  | Dbl.finite s m e, Dbl.finite t n f =>
    let g := min e f
    let x := Dbl.signed s m * 2 ^ (e - g).toNat + Dbl.signed t n * 2 ^ (f - g).toNat
    if x = 0 then Dbl.finite (s && t) 0 (-1074)
    else Dbl.round (decide (x < 0)) x.natAbs g

/-- Subtraction of doubles. -/
def Dbl.sub (a b : Dbl) : Dbl := Dbl.add a (Dbl.neg b)

/-- Multiplication of doubles: the exact product, rounded. -/
def Dbl.mul : Dbl → Dbl → Dbl
  | Dbl.nan, _ => Dbl.nan
  | _, Dbl.nan => Dbl.nan
  | Dbl.inf s, Dbl.inf t => Dbl.inf (xor s t)
  | Dbl.inf s, Dbl.finite t n _ => if n = 0 then Dbl.nan else Dbl.inf (xor s t)
  | Dbl.finite s m _, Dbl.inf t => if m = 0 then Dbl.nan else Dbl.inf (xor s t)
  | Dbl.finite s m e, Dbl.finite t n f => Dbl.round (xor s t) (m * n) (e + f)

/-- Division of doubles: the quotient is computed to at least 64 binary digits, with
one more digit that records whether the division left a remainder, and rounded. -/
def Dbl.div : Dbl → Dbl → Dbl
  | Dbl.nan, _ => Dbl.nan
  | _, Dbl.nan => Dbl.nan
  | Dbl.inf _, Dbl.inf _ => Dbl.nan
  | Dbl.inf s, Dbl.finite t _ _ => Dbl.inf (xor s t)
  | Dbl.finite s _ _, Dbl.inf t => Dbl.finite (xor s t) 0 (-1074)
  | Dbl.finite s m e, Dbl.finite t n f =>
    if n = 0 then (if m = 0 then Dbl.nan else Dbl.inf (xor s t))
    else
      let k := 64 + bitLen n
      let q := m * 2 ^ k / n
      let sticky := if m * 2 ^ k % n = 0 then 0 else 1
      Dbl.round (xor s t) (2 * q + sticky) (e - f - (k : Int) - 1)

/-- Comparison `<` of doubles: false when an operand is NaN. -/
def Dbl.lt : Dbl → Dbl → Bool
  | Dbl.nan, _ => false
  | _, Dbl.nan => false
  | Dbl.inf s, Dbl.inf t => s && !t
  | Dbl.inf s, Dbl.finite _ _ _ => s
  | Dbl.finite _ _ _, Dbl.inf t => !t
  | Dbl.finite s m e, Dbl.finite t n f =>
    let g := min e f
    decide (Dbl.signed s m * 2 ^ (e - g).toNat < Dbl.signed t n * 2 ^ (f - g).toNat)

/-- Conversion of an integer to `double`. -/
def Dbl.ofInt (n : Int) : Dbl := Dbl.round (decide (n < 0)) n.natAbs 0

/-- The double nearest to the fraction `n / d` of two integers that are doubles
themselves: the value of a decimal literal such as `0.0071 = 71 / 10000`. -/
def Dbl.ofRatio (n d : Int) : Dbl := Dbl.div (Dbl.ofInt n) (Dbl.ofInt d)

/-- Arithmetic of IEEE 754 binary64 doubles. -/
def binary64 : Arith Dbl :=
  { one := Dbl.ofInt 1
    add := Dbl.add
    sub := Dbl.sub
    mul := Dbl.mul
    div := Dbl.div
    lt := Dbl.lt }

/-- Largest value of an `int` of 32 bits. -/
def INT_MAX : Int := 2147483647

/-- Outcome of a loop, and of `FindNStages`, run with a given fuel: `done s` when it has
exited with `s`, `running` when the fuel is used up before, `overflow` when a counter of
type `int` would pass `INT_MAX`, where the behaviour of the code is not defined. -/
inductive Outcome (σ : Type) where
  | done (s : σ)
  | running
  | overflow
deriving DecidableEq

/-- Local variables of `FindNStages` (enrich_functions.cc:133-137). -/
structure StageVars (D : Type) where
  ideal_enrich_stage : Int
  ideal_strip_stage : Int
  stage_feed_assay : D
  stage_product_assay : D
  stage_waste_assay : D
deriving DecidableEq

/-- First `while` loop of `FindNStages` (enrich_functions.cc:140-147): the enriching
stages. One unit of fuel is used by each evaluation of the loop condition. -/
def enrichLoop {D : Type} (A : Arith D) (alpha product_assay : D) :
    Nat → StageVars D → Outcome (StageVars D)
  | 0, _ => Outcome.running
  | fuel + 1, s =>
    if A.lt s.stage_product_assay product_assay then
      let stage_product_assay := ProductAssayByAlphaIn A alpha s.stage_feed_assay
      let stage_waste_assay :=
        if s.ideal_enrich_stage = 0 then WasteAssayByAlphaIn A alpha s.stage_feed_assay
        else s.stage_waste_assay
      if s.ideal_enrich_stage = INT_MAX then Outcome.overflow
      else
        enrichLoop A alpha product_assay fuel
          { ideal_enrich_stage := s.ideal_enrich_stage + 1
            ideal_strip_stage := s.ideal_strip_stage
            stage_feed_assay := stage_product_assay
            stage_product_assay := stage_product_assay
            stage_waste_assay := stage_waste_assay }
    else Outcome.done s

/-- Second `while` loop of `FindNStages` (enrich_functions.cc:150-154): the stripping
stages. -/
def stripLoop {D : Type} (A : Arith D) (alpha waste_assay : D) :
    Nat → StageVars D → Outcome (StageVars D)
  | 0, _ => Outcome.running
  | fuel + 1, s =>
    if A.lt waste_assay s.stage_waste_assay then
      let stage_waste_assay := WasteAssayByAlphaIn A alpha s.stage_feed_assay
      if s.ideal_strip_stage = INT_MAX then Outcome.overflow
      else
        stripLoop A alpha waste_assay fuel
          { ideal_enrich_stage := s.ideal_enrich_stage
            ideal_strip_stage := s.ideal_strip_stage + 1
            stage_feed_assay := stage_waste_assay
            stage_product_assay := s.stage_product_assay
            stage_waste_assay := stage_waste_assay }
    else Outcome.done s

/-- The function `FindNStages` (enrich_functions.cc:128-160). Each of the two loops may
evaluate its condition `fuel` times; the result is `done` with the pair (enriching count,
stripping count) when both have exited. -/
def FindNStages {D : Type} (A : Arith D) (fuel : Nat)
    (alpha feed_assay product_assay waste_assay : D) : Outcome (Int × Int) :=
  let s0 : StageVars D :=
    { ideal_enrich_stage := 0
      ideal_strip_stage := 0
      stage_feed_assay := feed_assay
      stage_product_assay := feed_assay
      stage_waste_assay := feed_assay }
  match enrichLoop A alpha product_assay fuel s0 with
  | Outcome.running => Outcome.running
  | Outcome.overflow => Outcome.overflow
  | Outcome.done s1 =>
    match stripLoop A alpha waste_assay fuel
        { s1 with stage_feed_assay := s1.stage_waste_assay } with
    | Outcome.running => Outcome.running
    | Outcome.overflow => Outcome.overflow
    | Outcome.done s2 => Outcome.done (s2.ideal_enrich_stage, s2.ideal_strip_stage)

/-- The loop test `t`, evaluated for the first time at index `0`, fails for the first
time at index `n`. -/
def FirstFalse (t : Nat → Bool) (n : Nat) : Prop := t n = false ∧ ∀ j, j < n → t j = true

/-! ## Stage flows: `CalcFeedFlows` -/

/-- The hardcoded bound `max_stages` (enrich_functions.cc:236). -/
def max_stages : Nat := 100

/-- Conversion of a `double` to `int` (enrich_functions.cc:238-240): the fractional
part is dropped. -/
def toInt (x : ℚ) : Int := if 0 ≤ x then ⌊x⌋ else ⌈x⌉

/-- Local variables of `CalcFeedFlows` (enrich_functions.cc:238-250). The two stack
arrays are kept as they lie in memory: `flow_eqns` has `max_stages * max_stages`
cells, `flow_eqns[j][i]` being cell `j * max_stages + i`, and `flows` has `max_stages`
cells, `flows[0][i]` being cell `i`. -/
structure FlowVars where
  n_enrich : Int
  n_strip : Int
  n_stages : Int
  flow_eqns : List ℚ
  flows : List ℚ

/-- The array element `flow_eqns[j][i]`. The solver, called with leading dimension
`max_stages`, reads it as the coefficient of unknown `j` in equation `i`. -/
def eqnAt (s : FlowVars) (j i : Nat) : ℚ := s.flow_eqns.getD (j * max_stages + i) 0

/-- The array element `flows[0][i]`. -/
def flowAt (s : FlowVars) (i : Nat) : ℚ := s.flows.getD i 0

/-- Both arrays have the size of their declaration. -/
def ArraysSized (s : FlowVars) : Prop :=
  s.flow_eqns.length = max_stages * max_stages ∧ s.flows.length = max_stages

/-- Assignment `flows[0][i] = v` for a loop index `i` below `max_stages`. -/
def setFlow (s : FlowVars) (i : Nat) (v : ℚ) : FlowVars :=
  { s with flows := s.flows.set i v }

/-- Assignment `flow_eqns[j][i] = v` for loop indices `j`, `i` below `max_stages`. -/
def setEqn (s : FlowVars) (j i : Nat) (v : ℚ) : FlowVars :=
  { s with flow_eqns := s.flow_eqns.set (j * max_stages + i) v }

/-- Assignment `flow_eqns[j][i] = v` for a computed column index `j`: outside the
array there is no defined behaviour (`none`). -/
def writeEqn (s : FlowVars) (j : Int) (i : Nat) (v : ℚ) : Option FlowVars :=
  if 0 ≤ j ∧ j < max_stages ∧ i < max_stages then some (setEqn s j.toNat i v) else none

/-- Body of the loop over `row_idx` (enrich_functions.cc:291-319), without the writes
to `std::cout`. -/
def assembleRow (cascade_feed cut : ℚ) (s : FlowVars) (row_idx : Nat) : Option FlowVars :=
  let s1 := setFlow s row_idx 0
  let s2 := (List.range max_stages).foldl (fun t fill_idx => setEqn t fill_idx row_idx 0) s1
  if (row_idx : Int) < s2.n_stages then
    let i : Int := row_idx - s2.n_strip
    let col_idx : Int := s2.n_strip + i
    match writeEqn s2 col_idx row_idx (-1) with
    | none => none
    | some s3 =>
      match (if col_idx ≠ 0 then writeEqn s3 (col_idx - 1) row_idx cut else some s3) with
      | none => none
      | some s4 =>
        match (if col_idx ≠ s4.n_stages - 1 then writeEqn s4 (col_idx + 1) row_idx (1 - cut)
               else some s4) with
        | none => none
        | some s5 => some (if i = 0 then setFlow s5 row_idx (-1 * cascade_feed) else s5)
  else some s2

/-- The linear system that `CalcFeedFlows` hands to the solver
(enrich_functions.cc:238-320): the stage counts read from `n_st` and the arrays after
the loop over `row_idx`. The declarations do not initialise the arrays: `eqns0 k` and
`flows0 k` are the values found in cell `k` of each before the loop. -/
def assembleSystem (eqns0 flows0 : Nat → ℚ) (n_st : ℚ × ℚ) (cascade_feed cut : ℚ) :
    Option FlowVars :=
  (List.range max_stages).foldlM (assembleRow cascade_feed cut)
    { n_enrich := toInt n_st.1
      n_strip := toInt n_st.2
      n_stages := toInt (n_st.1 + n_st.2)
      flow_eqns := (List.range (max_stages * max_stages)).map eqns0
      flows := (List.range max_stages).map flows0 }

/-- What `CalcFeedFlows` leaves behind: the value of `info`, the number written to
`std::cerr` (in the message "dgesv returned error ..."), if any, and the returned
vector `final_flows`. -/
structure FlowOutcome where
  info : Int
  cerr : Option Int
  final_flows : List ℚ

/-- The function `CalcFeedFlows` (enrich_functions.cc:230-366). The solver `dgesv` is
called with `n`, `nrhs`, the matrix, `lda`, the right-hand side and `ldb`, and gives
back `info` and the content of the right-hand-side array on exit. -/
def CalcFeedFlows (dgesv : Int → Int → List ℚ → Int → List ℚ → Int → Int × List ℚ)
    (eqns0 flows0 : Nat → ℚ) (n_st : ℚ × ℚ) (cascade_feed cut : ℚ) :
    Option FlowOutcome :=
  match assembleSystem eqns0 flows0 n_st cascade_feed cut with
  | none => none
  | some s =>
    let nrhs : Int := 1
    let lda : Int := max_stages
    let ldb : Int := max_stages
    let out := dgesv s.n_stages nrhs s.flow_eqns lda s.flows ldb
    let info := out.1
    let cerr := if info = 0 then none else some info
    if s.n_stages ≤ max_stages then
      some
        { info := info
          cerr := cerr
          final_flows := (List.range s.n_stages.toNat).map (fun i => out.2.getD i 0) }
    else none

/-- A vector `F` solves the system `A X = B` of size `s.n_stages` held in the arrays:
equation `i` reads `sum over j of flow_eqns[j][i] * F j = flows[0][i]`. -/
def Solves (s : FlowVars) (F : Nat → ℚ) : Prop :=
  ∀ i ∈ Finset.range s.n_stages.toNat,
    ∑ j in Finset.range s.n_stages.toNat, eqnAt s j i * F j = flowAt s i

/-! ## Centrifuge model: the functions that call `<cmath>` -/

/-- Global `D_rho = 2.2e-5` (enrich_functions.cc:12), in kg/m/s. -/
def D_rho {K : Type} [Field K] : K := 22 / 1000000

/-- Global `gas_const = 8.314` (enrich_functions.cc:13), in J/K/mol. -/
def gas_const {K : Type} [Field K] : K := 8314 / 1000

/-- Global `M_238 = 0.238` (enrich_functions.cc:14), in kg/mol. -/
def M_238 {K : Type} [Field K] : K := 238 / 1000

/-- The function `CalcCTherm` (enrich_functions.cc:71-74). -/
def CalcCTherm {K : Type} [Field K] (v_a temp dM : K) : K :=
  let c_therm := (dM * (v_a ^ 2)) / (2 * gas_const * temp)
  c_therm

/-- The argument of `std::sqrt` in `CalcDelU` (enrich_functions.cc:35-36): the quantity
under the square root that defines the withdrawal-radius ratio `r_12`. -/
def r_12_radicand {K : Type} [Field K] (log : K → K) (v_a temp M_mol x : K) : K :=
  1 - (2 * gas_const * temp * (log x) / M_mol / (v_a ^ 2))

/-- The function `CalcDelU` (enrich_functions.cc:21-69). `pow` with the exponents 2 and
4 is the power of the field. -/
def CalcDelU {K : Type} [Field K] (sqrt log exp : K → K) (pi : K)
    (v_a height diameter feed temp cut eff M_mol dM x flow_internal : K) : K :=
  let a := diameter / 2
  let r_2 := 99 / 100 * a
  let r_12 := sqrt (r_12_radicand log v_a temp M_mol x)
  let r_1 := r_2 * r_12
  let Z_p := height * (1 - cut) * (1 + flow_internal) / (1 - cut + flow_internal)
  let C1 := 2 * pi * D_rho / (log (r_2 / r_1))
  let A_p := C1 * (1 / feed) * (cut / ((1 + flow_internal) * (1 - cut + flow_internal)))
  let A_w := C1 * (1 / feed) * ((1 - cut) / (flow_internal * (1 - cut + flow_internal)))
  let C_therm := CalcCTherm v_a temp dM
  let r12_sq := r_12 ^ 2
  let C_scale := ((r_2 / a) ^ 4) * ((1 - r12_sq) ^ 2)
  let bracket1 := (1 + flow_internal) / cut
  let exp1 := exp (-1 * A_p * Z_p)
  let bracket2 := flow_internal / (1 - cut)
  let exp2 := exp (-1 * A_w * (height - Z_p))
  let major_term := 1 / 2 * cut * (1 - cut) * (C_therm ^ 2) * C_scale *
    ((bracket1 * (1 - exp1)) + (bracket2 * (1 - exp2))) ^ 2
  let del_U := feed * major_term * eff
  del_U

/-- The function `CalcV` (enrich_functions.cc:76-78). -/
def CalcV {K : Type} [Field K] (log : K → K) (assay : K) : K :=
  (2 * assay - 1) * log (assay / (1 - assay))

/-- The function `AlphaBySwu` (enrich_functions.cc:80-83). -/
def AlphaBySwu {K : Type} [Field K] (sqrt : K → K) (del_U feed cut M : K) : K :=
  let alpha := 1 + sqrt (2 * (del_U / M) * (1 - cut) / (cut * feed))
  alpha

/-- The function `ProductAssayFromNStages` (enrich_functions.cc:162-168). -/
def ProductAssayFromNStages {K : Type} [Field K] (exp : K → K)
    (alpha feed_assay enrich_stages : K) : K :=
  let A := (feed_assay / (1 - feed_assay)) * exp (enrich_stages * (alpha - 1))
  let product_assay := A / (1 + A)
  product_assay

/-! ## Closed forms of the stage assays -/

theorem ProductAssayByAlpha_eq (alpha a : ℚ) (ha1 : a < 1) :
    ProductAssayByAlpha alpha a = alpha * a / (alpha * a + (1 - a)) := by
  have h1 : (1 - a) ≠ 0 := by linarith
  have key : 1 + alpha * a / (1 - a) = (alpha * a + (1 - a)) / (1 - a) := by
    field_simp
    ring
  unfold ProductAssayByAlpha
  simp only []
  rw [key, div_div_div_cancel_right₀ h1]

theorem WasteAssayByAlpha_eq (alpha a : ℚ) (hal : 0 < alpha) (ha1 : a < 1) :
    WasteAssayByAlpha alpha a = a / (a + alpha * (1 - a)) := by
  have h1 : (1 - a) ≠ 0 := by linarith
  have h0 : alpha ≠ 0 := by linarith
  have h2 : (1 - a) * alpha ≠ 0 := mul_ne_zero h1 h0
  have key : 1 + a / ((1 - a) * alpha) = (a + alpha * (1 - a)) / ((1 - a) * alpha) := by
    field_simp
    ring
  unfold WasteAssayByAlpha
  simp only []
  rw [div_div a (1 - a) alpha, key, div_div_div_cancel_right₀ h2]

theorem ProductAssayByAlpha_pos (alpha a : ℚ) (hal : 0 < alpha) (ha0 : 0 < a) (ha1 : a < 1) :
    0 < ProductAssayByAlpha alpha a := by
  rw [ProductAssayByAlpha_eq alpha a ha1]
  have : 0 < alpha * a := mul_pos hal ha0
  apply div_pos this
  linarith

theorem ProductAssayByAlpha_lt_one (alpha a : ℚ) (hal : 0 < alpha) (ha0 : 0 < a)
    (ha1 : a < 1) : ProductAssayByAlpha alpha a < 1 := by
  rw [ProductAssayByAlpha_eq alpha a ha1]
  have : 0 < alpha * a := mul_pos hal ha0
  rw [div_lt_one (by linarith)]
  linarith

theorem WasteAssayByAlpha_pos (alpha a : ℚ) (hal : 0 < alpha) (ha0 : 0 < a) (ha1 : a < 1) :
    0 < WasteAssayByAlpha alpha a := by
  rw [WasteAssayByAlpha_eq alpha a hal ha1]
  have : 0 < alpha * (1 - a) := mul_pos hal (by linarith)
  apply div_pos ha0
  linarith

theorem WasteAssayByAlpha_lt_one (alpha a : ℚ) (hal : 0 < alpha) (ha0 : 0 < a)
    (ha1 : a < 1) : WasteAssayByAlpha alpha a < 1 := by
  rw [WasteAssayByAlpha_eq alpha a hal ha1]
  have : 0 < alpha * (1 - a) := mul_pos hal (by linarith)
  rw [div_lt_one (by linarith)]
  linarith


/-! ## The arrays of `CalcFeedFlows` -/

theorem getD_set_eq (l : List ℚ) (k k' : Nat) (v : ℚ) :
    (l.set k v).getD k' 0 = if k = k' ∧ k < l.length then v else l.getD k' 0 := by
  simp only [List.getD_eq_getElem?_getD, List.getElem?_set]
  by_cases h : k = k'
  · subst h
    by_cases hk : k < l.length
    · simp [hk]
    · have hnone : l[k]? = none := List.getElem?_eq_none (not_lt.mp hk)
      simp [hk, hnone]
  · simp [h]

theorem eqnAt_setEqn (s : FlowVars) (hs : ArraysSized s) (j i j' i' : Nat) (v : ℚ)
    (hj : j < max_stages) (hi : i < max_stages) (hi' : i' < max_stages) :
    eqnAt (setEqn s j i v) j' i' = if j = j' ∧ i = i' then v else eqnAt s j' i' := by
  unfold eqnAt setEqn
  simp only [getD_set_eq]
  have hlen : j * max_stages + i < s.flow_eqns.length := by
    rw [hs.1]
    unfold max_stages at *
    nlinarith
  have hiff : (j * max_stages + i = j' * max_stages + i') ↔ (j = j' ∧ i = i') := by
    unfold max_stages at *
    omega
  by_cases h : j = j' ∧ i = i'
  · rw [if_pos ⟨hiff.mpr h, hlen⟩, if_pos h]
  · rw [if_neg (fun hh => h (hiff.mp hh.1)), if_neg h]

theorem flowAt_setFlow (s : FlowVars) (hs : ArraysSized s) (i i' : Nat) (v : ℚ)
    (hi : i < max_stages) :
    flowAt (setFlow s i v) i' = if i = i' then v else flowAt s i' := by
  unfold flowAt setFlow
  simp only [getD_set_eq]
  have hlen : i < s.flows.length := by
    rw [hs.2]
    exact hi
  by_cases h : i = i'
  · rw [if_pos ⟨h, hlen⟩, if_pos h]
  · rw [if_neg (fun hh => h hh.1), if_neg h]

theorem arraysSized_setEqn (s : FlowVars) (hs : ArraysSized s) (j i : Nat) (v : ℚ) :
    ArraysSized (setEqn s j i v) := by
  unfold ArraysSized setEqn
  simpa using hs

theorem arraysSized_setFlow (s : FlowVars) (hs : ArraysSized s) (i : Nat) (v : ℚ) :
    ArraysSized (setFlow s i v) := by
  unfold ArraysSized setFlow
  simpa using hs

/-- The loop over `fill_idx` (enrich_functions.cc:293-295) run for the first `K`
indices: it zeroes `flow_eqns[j][row_idx]` for `j < K` and touches nothing else. -/
theorem fill_loop (row : Nat) (hrow : row < max_stages) :
    ∀ (K : Nat), K ≤ max_stages → ∀ (s : FlowVars), ArraysSized s →
      ArraysSized ((List.range K).foldl (fun t fill_idx => setEqn t fill_idx row 0) s) ∧
      ((List.range K).foldl (fun t fill_idx => setEqn t fill_idx row 0) s).n_strip = s.n_strip ∧
      ((List.range K).foldl (fun t fill_idx => setEqn t fill_idx row 0) s).n_stages = s.n_stages ∧
      ((List.range K).foldl (fun t fill_idx => setEqn t fill_idx row 0) s).n_enrich = s.n_enrich ∧
      ((List.range K).foldl (fun t fill_idx => setEqn t fill_idx row 0) s).flows = s.flows ∧
      ∀ j i, i < max_stages →
        eqnAt ((List.range K).foldl (fun t fill_idx => setEqn t fill_idx row 0) s) j i
          = if i = row ∧ j < K then 0 else eqnAt s j i := by
  intro K
  induction K with
  | zero =>
    intro _ s hs
    simp [hs]
  | succ k ih =>
    intro hk s hs
    obtain ⟨h1, h2, h3, h4, h5, h6⟩ := ih (by omega) s hs
    rw [List.range_succ, List.foldl_append]
    simp only [List.foldl_cons, List.foldl_nil]
    refine ⟨arraysSized_setEqn _ h1 _ _ _, h2, h3, h4, h5, ?_⟩
    intro j i hi
    rw [eqnAt_setEqn _ h1 k row j i 0 (by omega) hrow hi, h6 j i hi]
    by_cases hir : i = row
    · by_cases hjk : j = k
      · subst hjk
        simp [hir]
      · have : ¬ (k = j ∧ row = i) := fun hh => hjk hh.1.symm
        rw [if_neg this]
        by_cases hlt : j < k
        · rw [if_pos ⟨hir, hlt⟩, if_pos ⟨hir, by omega⟩]
        · rw [if_neg (fun hh => hlt hh.2), if_neg (fun hh => hlt (by omega))]
    · have : ¬ (k = j ∧ row = i) := fun hh => hir hh.2.symm
      rw [if_neg this, if_neg (fun hh => hir hh.1), if_neg (fun hh => hir hh.1)]

theorem writeEqn_nat (s : FlowVars) (k i : Nat) (v : ℚ) (hk : k < max_stages)
    (hi : i < max_stages) : writeEqn s (k : Int) i v = some (setEqn s k i v) := by
  unfold writeEqn
  rw [if_pos ⟨by omega, by exact_mod_cast hk, hi⟩]
  simp

theorem writeEqn_if (c : Prop) [Decidable c] (s : FlowVars) (k : Int) (k' i : Nat) (v : ℚ)
    (hk : c → k = (k' : Int) ∧ k' < max_stages) (hi : i < max_stages) :
    (if c then writeEqn s k i v else some s) = some (if c then setEqn s k' i v else s) := by
  by_cases hc : c
  · rw [if_pos hc, if_pos hc, (hk hc).1, writeEqn_nat s k' i v (hk hc).2 hi]
  · rw [if_neg hc, if_neg hc]

theorem eqnAt_if_setEqn (c : Prop) [Decidable c] (s : FlowVars) (hs : ArraysSized s)
    (j i j' i' : Nat) (v : ℚ) (hj : c → j < max_stages) (hi : i < max_stages)
    (hi' : i' < max_stages) :
    eqnAt (if c then setEqn s j i v else s) j' i'
      = if c ∧ j = j' ∧ i = i' then v else eqnAt s j' i' := by
  by_cases hc : c
  · rw [if_pos hc, eqnAt_setEqn s hs j i j' i' v (hj hc) hi hi']
    simp [hc]
  · rw [if_neg hc]
    simp [hc]

theorem arraysSized_if_setEqn (c : Prop) [Decidable c] (s : FlowVars) (hs : ArraysSized s)
    (j i : Nat) (v : ℚ) : ArraysSized (if c then setEqn s j i v else s) := by
  by_cases hc : c
  · rw [if_pos hc]
    exact arraysSized_setEqn s hs j i v
  · rw [if_neg hc]
    exact hs

/-- One pass of the loop over `row_idx`: it rewrites equation `row_idx` (the cells
`flow_eqns[j][row_idx]` and `flows[0][row_idx]`) and nothing else, provided the write
to column `row_idx + 1` stays inside the array. -/
theorem assembleRow_spec (feed cut : ℚ) (s : FlowVars) (hs : ArraysSized s) (row : Nat)
    (hrow : row < max_stages)
    (hfit : (row : Int) < s.n_stages → row + 1 < max_stages ∨ (row : Int) = s.n_stages - 1) :
    ∃ s', assembleRow feed cut s row = some s' ∧ ArraysSized s' ∧ s'.n_strip = s.n_strip ∧
      s'.n_stages = s.n_stages ∧ s'.n_enrich = s.n_enrich ∧
      (∀ j i, j < max_stages → i < max_stages →
        eqnAt s' j i =
          if i = row then
            (if (row : Int) < s.n_stages then
              (if j = row then -1 else if j + 1 = row then cut
                else if j = row + 1 ∧ (row : Int) ≠ s.n_stages - 1 then 1 - cut else 0)
             else 0)
          else eqnAt s j i) ∧
      (∀ i, i < max_stages →
        flowAt s' i =
          if i = row then
            (if (row : Int) < s.n_stages ∧ (row : Int) - s.n_strip = 0 then -1 * feed else 0)
          else flowAt s i) := by
  obtain ⟨f1, f2, f3, f4, f5, f6⟩ :=
    fill_loop row hrow max_stages le_rfl (setFlow s row 0) (arraysSized_setFlow s hs row 0)
  unfold assembleRow
  simp only []
  generalize hs2 : (List.range max_stages).foldl (fun t fill_idx => setEqn t fill_idx row 0)
    (setFlow s row 0) = s2 at f1 f2 f3 f4 f5 f6
  have g3 : s2.n_stages = s.n_stages := f3
  have g2 : s2.n_strip = s.n_strip := f2
  have g4 : s2.n_enrich = s.n_enrich := f4
  have hflow : ∀ i, i < max_stages → flowAt s2 i = if i = row then 0 else flowAt s i := by
    intro i hi
    have := flowAt_setFlow s hs row i 0 hrow
    unfold flowAt at this ⊢
    rw [f5]
    rw [this]
    by_cases h : i = row
    · simp [h]
    · simp [h, Ne.symm h]
  have heqn : ∀ j i, j < max_stages → i < max_stages →
      eqnAt s2 j i = if i = row then 0 else eqnAt s j i := by
    intro j i hj hi
    rw [f6 j i hi]
    by_cases h : i = row
    · simp [h, hj]
    · simp [h]
      rfl
  by_cases hlt : (row : Int) < s.n_stages
  · rw [if_pos (by rw [g3]; exact hlt)]
    have hcol : s2.n_strip + ((row : Int) - s2.n_strip) = (row : Int) := by ring
    simp only [hcol]
    rw [writeEqn_nat s2 row row (-1) hrow hrow]
    simp only []
    have s3sized := arraysSized_setEqn s2 f1 row row (-1)
    rw [writeEqn_if ((row : Int) ≠ 0) (setEqn s2 row row (-1)) ((row : Int) - 1) (row - 1) row cut
      (fun h => ⟨by omega, by omega⟩) hrow]
    simp only []
    have s4sized := arraysSized_if_setEqn ((row : Int) ≠ 0) _ s3sized (row - 1) row cut
    generalize hs4 : (if (row : Int) ≠ 0 then setEqn (setEqn s2 row row (-1)) (row - 1) row cut
      else setEqn s2 row row (-1)) = s4 at s4sized
    have n4 : s4.n_stages = s.n_stages := by
      rw [← hs4, ← g3]
      split <;> rfl
    have p4 : s4.n_strip = s.n_strip := by
      rw [← hs4, ← g2]
      split <;> rfl
    have e4 : s4.n_enrich = s.n_enrich := by
      rw [← hs4, ← g4]
      split <;> rfl
    have fl4 : s4.flows = s2.flows := by
      rw [← hs4]
      split <;> rfl
    have q4 : ∀ j i, j < max_stages → i < max_stages → eqnAt s4 j i =
        if (row : Int) ≠ 0 ∧ row - 1 = j ∧ row = i then cut
        else if row = j ∧ row = i then -1 else if i = row then 0 else eqnAt s j i := by
      intro j i hj hi
      rw [← hs4, eqnAt_if_setEqn _ _ s3sized (row - 1) row j i cut (fun _ => by omega) hrow hi,
        eqnAt_setEqn s2 f1 row row j i (-1) hrow hrow hi, heqn j i hj hi]
    rw [n4, writeEqn_if ((row : Int) ≠ s.n_stages - 1) s4 ((row : Int) + 1) (row + 1) row (1 - cut)
      (fun h => ⟨by push_cast; ring, by
        rcases hfit hlt with h1 | h1
        · exact h1
        · exact absurd h1 h⟩) hrow]
    simp only []
    have s5sized := arraysSized_if_setEqn ((row : Int) ≠ s.n_stages - 1) _ s4sized (row + 1) row
      (1 - cut)
    generalize hs5 : (if (row : Int) ≠ s.n_stages - 1 then setEqn s4 (row + 1) row (1 - cut)
      else s4) = s5 at s5sized
    have n5 : s5.n_stages = s.n_stages := by
      rw [← hs5, ← n4]
      split <;> rfl
    have p5 : s5.n_strip = s.n_strip := by
      rw [← hs5, ← p4]
      split <;> rfl
    have e5 : s5.n_enrich = s.n_enrich := by
      rw [← hs5, ← e4]
      split <;> rfl
    have fl5 : s5.flows = s2.flows := by
      rw [← hs5, ← fl4]
      split <;> rfl
    have q5 : ∀ j i, j < max_stages → i < max_stages → eqnAt s5 j i =
        if (row : Int) ≠ s.n_stages - 1 ∧ row + 1 = j ∧ row = i then 1 - cut
        else if (row : Int) ≠ 0 ∧ row - 1 = j ∧ row = i then cut
        else if row = j ∧ row = i then -1 else if i = row then 0 else eqnAt s j i := by
      intro j i hj hi
      rw [← hs5, eqnAt_if_setEqn _ _ s4sized (row + 1) row j i (1 - cut)
        (fun h => by
          rcases hfit hlt with h1 | h1
          · exact h1
          · exact absurd h1 h) hrow hi, q4 j i hj hi]
    refine ⟨_, rfl, ?_, ?_, ?_, ?_, ?_, ?_⟩
    · split
      · exact arraysSized_setFlow s5 s5sized row _
      · exact s5sized
    · rw [← p5]
      split <;> rfl
    · rw [← n5]
      split <;> rfl
    · rw [← e5]
      split <;> rfl
    · intro j i hj hi
      have : eqnAt (if (row : Int) - s.n_strip = 0 then setFlow s5 row (-1 * feed) else s5) j i
          = eqnAt s5 j i := by
        split <;> rfl
      rw [g2, this, q5 j i hj hi]
      by_cases hir : i = row
      · subst hir
        simp only [eq_self_iff_true, and_true, if_true, if_pos hlt]
        split_ifs <;> first | rfl | (exfalso; omega)
      · rw [if_neg (fun hh => hir hh.2.2.symm), if_neg (fun hh => hir hh.2.2.symm),
          if_neg (fun hh => hir hh.2.symm), if_neg hir, if_neg hir]
    · intro i hi
      rw [g2]
      by_cases h0 : (row : Int) - s.n_strip = 0
      · rw [if_pos h0, flowAt_setFlow s5 s5sized row i _ hrow]
        by_cases hir : i = row
        · rw [if_pos hir.symm, if_pos hir, if_pos ⟨hlt, h0⟩]
        · rw [if_neg (Ne.symm hir), if_neg hir]
          have := hflow i hi
          unfold flowAt at this ⊢
          rw [fl5, this, if_neg hir]
      · rw [if_neg h0]
        have := hflow i hi
        unfold flowAt at this ⊢
        rw [fl5, this]
        by_cases hir : i = row
        · rw [if_pos hir, if_pos hir, if_neg (fun hh => h0 hh.2)]
        · rw [if_neg hir, if_neg hir]
  · rw [if_neg (by rw [g3]; exact hlt)]
    refine ⟨s2, rfl, f1, g2, g3, g4, ?_, ?_⟩
    · intro j i hj hi
      rw [heqn j i hj hi, if_neg hlt]
    · intro i hi
      rw [hflow i hi]
      simp [hlt]

/-- The loop over `row_idx` (enrich_functions.cc:290-320) run for the first `K` rows:
equations `i < K` hold the pattern of the comment at enrich_functions.cc:281-286, the
other cells are untouched. -/
theorem assembleRows_spec (feed cut : ℚ) (s0 : FlowVars) (hs0 : ArraysSized s0) :
    ∀ (K : Nat), K ≤ max_stages →
      (∀ row, row < K → (row : Int) < s0.n_stages →
        row + 1 < max_stages ∨ (row : Int) = s0.n_stages - 1) →
      ∃ s, (List.range K).foldlM (assembleRow feed cut) s0 = some s ∧ ArraysSized s ∧
        s.n_strip = s0.n_strip ∧ s.n_stages = s0.n_stages ∧ s.n_enrich = s0.n_enrich ∧
        (∀ j i, j < max_stages → i < max_stages →
          eqnAt s j i =
            if i < K then
              (if (i : Int) < s0.n_stages then
                (if j = i then -1 else if j + 1 = i then cut
                  else if j = i + 1 ∧ (i : Int) ≠ s0.n_stages - 1 then 1 - cut else 0)
               else 0)
            else eqnAt s0 j i) ∧
        (∀ i, i < max_stages →
          flowAt s i =
            if i < K then
              (if (i : Int) < s0.n_stages ∧ (i : Int) - s0.n_strip = 0 then -1 * feed else 0)
            else flowAt s0 i) := by
  intro K
  induction K with
  | zero =>
    intro _ _
    exact ⟨s0, rfl, hs0, rfl, rfl, rfl, by simp, by simp⟩
  | succ k ih =>
    intro hk hfit
    obtain ⟨s, h1, h2, h3, h4, h5, h6, h7⟩ :=
      ih (by omega) (fun row hrow => hfit row (by omega))
    obtain ⟨s', r1, r2, r3, r4, r5, r6, r7⟩ :=
      assembleRow_spec feed cut s h2 k (by omega) (by
        rw [h4]
        exact hfit k (by omega))
    refine ⟨s', ?_, r2, r3.trans h3, r4.trans h4, r5.trans h5, ?_, ?_⟩
    · rw [List.range_succ, List.foldlM_append, h1]
      simp only [Option.bind_eq_bind, Option.some_bind, List.foldlM_cons, List.foldlM_nil]
      rw [r1]
      rfl
    · intro j i hj hi
      rw [r6 j i hj hi, h4]
      by_cases hik : i = k
      · rw [if_pos hik, if_pos (by omega : i < k + 1), hik]
      · rw [if_neg hik, h6 j i hj hi]
        by_cases hlt : i < k
        · rw [if_pos hlt, if_pos (by omega : i < k + 1)]
        · rw [if_neg hlt, if_neg (by omega : ¬ i < k + 1)]
    · intro i hi
      rw [r7 i hi, h4, h3]
      by_cases hik : i = k
      · rw [if_pos hik, if_pos (by omega : i < k + 1), hik]
      · rw [if_neg hik, h7 i hi]
        by_cases hlt : i < k
        · rw [if_pos hlt, if_pos (by omega : i < k + 1)]
        · rw [if_neg hlt, if_neg (by omega : ¬ i < k + 1)]

theorem toInt_natCast (n : Nat) : toInt (n : ℚ) = (n : Int) := by
  unfold toInt
  rw [if_pos (Nat.cast_nonneg n)]
  exact Int.floor_natCast n

theorem toInt_natCast_add (a b : Nat) : toInt ((a : ℚ) + (b : ℚ)) = ((a + b : Nat) : Int) := by
  rw [← Nat.cast_add, toInt_natCast]

/-- The system assembled for a pair of whole stage counts with at most `max_stages`
stages in all: `n_stages = n_enrich + n_strip` equations with `-1` on the diagonal,
`cut` on the unknown just below, `1 - cut` on the unknown just above, and the negated
cascade feed on the right-hand side of equation `n_strip`. -/
theorem assembleSystem_spec (eqns0 flows0 : Nat → ℚ) (n_enrich n_strip : Nat)
    (feed cut : ℚ) (hn : n_enrich + n_strip ≤ max_stages) :
    ∃ s, assembleSystem eqns0 flows0 ((n_enrich : ℚ), (n_strip : ℚ)) feed cut = some s ∧
      ArraysSized s ∧ s.n_enrich = n_enrich ∧ s.n_strip = n_strip ∧
      s.n_stages = ((n_enrich + n_strip : Nat) : Int) ∧
      (∀ j i, j < max_stages → i < max_stages →
        eqnAt s j i =
          if i < n_enrich + n_strip then
            (if j = i then -1 else if j + 1 = i then cut
              else if j = i + 1 ∧ i + 1 ≠ n_enrich + n_strip then 1 - cut else 0)
          else 0) ∧
      (∀ i, i < max_stages →
        flowAt s i = if i < n_enrich + n_strip ∧ i = n_strip then -1 * feed else 0) := by
  have hsized : ArraysSized
      { n_enrich := toInt (n_enrich : ℚ)
        n_strip := toInt (n_strip : ℚ)
        n_stages := toInt ((n_enrich : ℚ) + (n_strip : ℚ))
        flow_eqns := (List.range (max_stages * max_stages)).map eqns0
        flows := (List.range max_stages).map flows0 } := by
    unfold ArraysSized
    simp
  obtain ⟨s, h1, h2, h3, h4, h5, h6, h7⟩ :=
    assembleRows_spec feed cut _ hsized max_stages le_rfl (by
      intro row hrow hlt
      simp only [toInt_natCast_add] at hlt ⊢
      unfold max_stages at *
      omega)
  simp only [toInt_natCast, toInt_natCast_add] at h3 h4 h5 h6 h7
  refine ⟨s, h1, h2, h5, h3, h4, ?_, ?_⟩
  · intro j i hj hi
    rw [h6 j i hj hi, if_pos hi]
    by_cases hlt : i < n_enrich + n_strip
    · rw [if_pos hlt, if_pos (by exact_mod_cast hlt)]
      by_cases hj1 : j = i
      · rw [if_pos hj1, if_pos hj1]
      · rw [if_neg hj1, if_neg hj1]
        by_cases hj2 : j + 1 = i
        · rw [if_pos hj2, if_pos hj2]
        · rw [if_neg hj2, if_neg hj2]
          by_cases hj3 : j = i + 1 ∧ i + 1 ≠ n_enrich + n_strip
          · rw [if_pos hj3, if_pos ⟨hj3.1, by omega⟩]
          · rw [if_neg hj3, if_neg (fun hh => hj3 ⟨hh.1, by omega⟩)]
    · rw [if_neg hlt, if_neg (by exact_mod_cast hlt)]
  · intro i hi
    rw [h7 i hi, if_pos hi]
    by_cases hc : i < n_enrich + n_strip ∧ i = n_strip
    · rw [if_pos hc, if_pos ⟨by exact_mod_cast hc.1, by omega⟩]
    · rw [if_neg hc, if_neg (fun hh => hc ⟨by exact_mod_cast hh.1, by omega⟩)]

/-- With more than `max_stages` stages the pass for the last row of the array writes
`flow_eqns[max_stages][max_stages - 1]`, which is outside the array. -/
theorem assembleRow_none (feed cut : ℚ) (s : FlowVars) (hs : ArraysSized s) (row : Nat)
    (hrow : row + 1 = max_stages) (hlt : (row : Int) + 1 < s.n_stages) :
    assembleRow feed cut s row = none := by
  have hrow' : row < max_stages := by omega
  obtain ⟨f1, f2, f3, f4, f5, f6⟩ :=
    fill_loop row hrow' max_stages le_rfl (setFlow s row 0) (arraysSized_setFlow s hs row 0)
  unfold assembleRow
  simp only []
  generalize hs2 : (List.range max_stages).foldl (fun t fill_idx => setEqn t fill_idx row 0)
    (setFlow s row 0) = s2 at f1 f2 f3 f4 f5 f6
  have g3 : s2.n_stages = s.n_stages := f3
  rw [if_pos (by rw [g3]; omega)]
  have hcol : s2.n_strip + ((row : Int) - s2.n_strip) = (row : Int) := by ring
  simp only [hcol]
  rw [writeEqn_nat s2 row row (-1) hrow' hrow']
  simp only []
  rw [writeEqn_if ((row : Int) ≠ 0) (setEqn s2 row row (-1)) ((row : Int) - 1) (row - 1) row cut
    (fun h => ⟨by omega, by omega⟩) hrow']
  simp only []
  generalize hs4 : (if (row : Int) ≠ 0 then setEqn (setEqn s2 row row (-1)) (row - 1) row cut
    else setEqn s2 row row (-1)) = s4
  have n4 : s4.n_stages = s.n_stages := by
    rw [← hs4, ← g3]
    split <;> rfl
  rw [n4, if_pos (by omega)]
  have : writeEqn s4 ((row : Int) + 1) row (1 - cut) = none := by
    unfold writeEqn
    rw [if_neg]
    intro hh
    have := hh.2.1
    omega
  rw [this]

theorem assembleRows_none (feed cut : ℚ) (s0 : FlowVars) (hs0 : ArraysSized s0)
    (hn : (max_stages : Int) < s0.n_stages) :
    (List.range max_stages).foldlM (assembleRow feed cut) s0 = none := by
  obtain ⟨s, h1, h2, h3, h4, h5, h6, h7⟩ :=
    assembleRows_spec feed cut s0 hs0 (max_stages - 1) (by omega) (by
      intro row hrow hlt
      left
      omega)
  have hlast := assembleRow_none feed cut s h2 (max_stages - 1) (by unfold max_stages; rfl) (by
    rw [h4]
    unfold max_stages at *
    omega)
  have hr : List.range max_stages = List.range (max_stages - 1) ++ [max_stages - 1] := by
    unfold max_stages
    exact List.range_succ 99
  rw [hr, List.foldlM_append, h1]
  simp only [Option.bind_eq_bind, Option.some_bind, List.foldlM_cons, List.foldlM_nil]
  rw [hlast]
  rfl

/-- With more than `max_stages` stages the assembly of the system leaves the arrays. -/
theorem assembleSystem_none (eqns0 flows0 : Nat → ℚ) (n_enrich n_strip : Nat)
    (feed cut : ℚ) (hn : max_stages < n_enrich + n_strip) :
    assembleSystem eqns0 flows0 ((n_enrich : ℚ), (n_strip : ℚ)) feed cut = none := by
  unfold assembleSystem
  apply assembleRows_none
  · unfold ArraysSized
    simp
  · simp only [toInt_natCast_add]
    exact_mod_cast hn

/-! ## The equations of the flow system -/

theorem sum_ite_succ_eq (g : Nat → ℚ) (n i : Nat) (hi : i < n) :
    ∑ j in Finset.range n, (if j + 1 = i then g j else 0) = if 0 < i then g (i - 1) else 0 := by
  cases i with
  | zero =>
    rw [if_neg (lt_irrefl 0)]
    apply Finset.sum_eq_zero
    intro j _
    rw [if_neg (by omega)]
  | succ k =>
    simp only [add_left_inj, Nat.add_sub_cancel]
    rw [Finset.sum_ite_eq', if_pos (Finset.mem_range.mpr (by omega)), if_pos (by omega)]

/-- Left-hand side of equation `i` of the tridiagonal system. -/
theorem tridiag_row_sum (cut : ℚ) (F : Nat → ℚ) (n i : Nat) (hi : i < n) :
    ∑ j in Finset.range n,
        (if j = i then -1 else if j + 1 = i then cut
          else if j = i + 1 ∧ i + 1 ≠ n then 1 - cut else 0) * F j
      = (if 0 < i then cut * F (i - 1) else 0) - F i
        + (if i + 1 < n then (1 - cut) * F (i + 1) else 0) := by
  have hpt : ∀ j ∈ Finset.range n,
      (if j = i then -1 else if j + 1 = i then cut
          else if j = i + 1 ∧ i + 1 ≠ n then 1 - cut else 0) * F j
        = (if j = i then -F j else 0) + (if j + 1 = i then cut * F j else 0)
          + (if j = i + 1 then (1 - cut) * F j else 0) := by
    intro j hj
    have hjn : j < n := Finset.mem_range.mp hj
    by_cases h1 : j = i
    · rw [if_pos h1, if_pos h1, if_neg (by omega), if_neg (by omega)]
      ring
    · rw [if_neg h1, if_neg h1]
      by_cases h2 : j + 1 = i
      · rw [if_pos h2, if_pos h2, if_neg (by omega)]
        ring
      · rw [if_neg h2, if_neg h2]
        by_cases h3 : j = i + 1
        · rw [if_pos ⟨h3, by omega⟩, if_pos h3]
          ring
        · rw [if_neg (fun hh => h3 hh.1), if_neg h3]
          ring
  rw [Finset.sum_congr rfl hpt, Finset.sum_add_distrib, Finset.sum_add_distrib,
    Finset.sum_ite_eq', sum_ite_succ_eq (fun j => cut * F j) n i hi, Finset.sum_ite_eq']
  rw [if_pos (Finset.mem_range.mpr hi)]
  by_cases hlast : i + 1 < n
  · rw [if_pos (Finset.mem_range.mpr hlast), if_pos hlast]
    ring
  · rw [if_neg (fun h => hlast (Finset.mem_range.mp h)), if_neg hlast]
    ring

/-- Sum of the left-hand sides of all the equations: the inner stages cancel. -/
theorem tridiag_total (cut : ℚ) (F : Nat → ℚ) (m : Nat) :
    ∑ i in Finset.range (m + 1),
        ((if 0 < i then cut * F (i - 1) else 0) - F i
          + (if i + 1 < m + 1 then (1 - cut) * F (i + 1) else 0))
      = -(cut * F m) - (1 - cut) * F 0 := by
  rw [Finset.sum_add_distrib, Finset.sum_sub_distrib]
  have hA : ∑ i in Finset.range (m + 1), (if 0 < i then cut * F (i - 1) else 0)
      = cut * ∑ i in Finset.range m, F i := by
    rw [Finset.sum_range_succ', Finset.mul_sum]
    simp
  have hB : ∑ i in Finset.range (m + 1), (if i + 1 < m + 1 then (1 - cut) * F (i + 1) else 0)
      = (1 - cut) * ∑ i in Finset.range m, F (i + 1) := by
    rw [Finset.sum_range_succ, Finset.mul_sum]
    simp only [lt_self_iff_false, if_false, add_zero]
    apply Finset.sum_congr rfl
    intro i hi
    rw [if_pos (by have := Finset.mem_range.mp hi; omega)]
  have hC : ∑ i in Finset.range (m + 1), F i = ∑ i in Finset.range m, F i + F m :=
    Finset.sum_range_succ _ _
  have hD : ∑ i in Finset.range (m + 1), F i = ∑ i in Finset.range m, F (i + 1) + F 0 :=
    Finset.sum_range_succ' _ _
  rw [hA, hB]
  linear_combination (-cut) * hC + (-(1 - cut)) * hD

/-- Every system that `assembleSystem` returns for whole stage counts is the
tridiagonal one, and it has at most `max_stages` equations. -/
theorem assembleSystem_some (eqns0 flows0 : Nat → ℚ) (n_enrich n_strip : Nat)
    (feed cut : ℚ) (s : FlowVars)
    (h : assembleSystem eqns0 flows0 ((n_enrich : ℚ), (n_strip : ℚ)) feed cut = some s) :
    n_enrich + n_strip ≤ max_stages ∧ s.n_stages = ((n_enrich + n_strip : Nat) : Int) ∧
      (∀ j i, j < max_stages → i < max_stages →
        eqnAt s j i =
          if i < n_enrich + n_strip then
            (if j = i then -1 else if j + 1 = i then cut
              else if j = i + 1 ∧ i + 1 ≠ n_enrich + n_strip then 1 - cut else 0)
          else 0) ∧
      (∀ i, i < max_stages →
        flowAt s i = if i < n_enrich + n_strip ∧ i = n_strip then -1 * feed else 0) := by
  by_cases hn : n_enrich + n_strip ≤ max_stages
  · obtain ⟨s', h1, _, _, _, h5, h6, h7⟩ :=
      assembleSystem_spec eqns0 flows0 n_enrich n_strip feed cut hn
    have hss : s' = s := Option.some.inj (h1.symm.trans h)
    subst hss
    exact ⟨hn, h5, h6, h7⟩
  · rw [assembleSystem_none eqns0 flows0 n_enrich n_strip feed cut (by omega)] at h
    cases h

/-- A vector solves the assembled system exactly when it balances every stage. -/
theorem solves_iff (eqns0 flows0 : Nat → ℚ) (n_enrich n_strip : Nat)
    (feed cut : ℚ) (s : FlowVars)
    (h : assembleSystem eqns0 flows0 ((n_enrich : ℚ), (n_strip : ℚ)) feed cut = some s)
    (F : Nat → ℚ) :
    Solves s F ↔ ∀ i, i < n_enrich + n_strip →
      (if 0 < i then cut * F (i - 1) else 0) - F i
        + (if i + 1 < n_enrich + n_strip then (1 - cut) * F (i + 1) else 0)
      = if i = n_strip then -1 * feed else 0 := by
  obtain ⟨hn, h5, h6, h7⟩ := assembleSystem_some eqns0 flows0 n_enrich n_strip feed cut s h
  have hrow : ∀ i, i < n_enrich + n_strip →
      ∑ j in Finset.range (n_enrich + n_strip), eqnAt s j i * F j
        = (if 0 < i then cut * F (i - 1) else 0) - F i
          + (if i + 1 < n_enrich + n_strip then (1 - cut) * F (i + 1) else 0) := by
    intro i hi
    rw [← tridiag_row_sum cut F (n_enrich + n_strip) i hi]
    apply Finset.sum_congr rfl
    intro j hj
    have hj' := Finset.mem_range.mp hj
    rw [h6 j i (by omega) (by omega), if_pos hi]
  have hrhs : ∀ i, i < n_enrich + n_strip →
      flowAt s i = if i = n_strip then -1 * feed else 0 := by
    intro i hi
    rw [h7 i (by omega)]
    by_cases hc : i = n_strip
    · rw [if_pos ⟨hi, hc⟩, if_pos hc]
    · rw [if_neg (fun hh => hc hh.2), if_neg hc]
  unfold Solves
  rw [h5, Int.toNat_natCast]
  constructor
  · intro hs i hi
    rw [← hrow i hi, ← hrhs i hi]
    exact hs i (Finset.mem_range.mpr hi)
  · intro hs i hi
    have hi' := Finset.mem_range.mp hi
    rw [hrow i hi', hrhs i hi']
    exact hs i hi'

theorem getD_map_range (g : Nat → ℚ) (n i : Nat) (hi : i < n) :
    ((List.range n).map g).getD i 0 = g i := by
  simp [List.getD_eq_getElem?_getD, List.getElem?_map, List.getElem?_range hi]

/-- What `CalcFeedFlows` returns for whole stage counts with at most `max_stages`
stages in all. -/
theorem CalcFeedFlows_eq (dgesv : Int → Int → List ℚ → Int → List ℚ → Int → Int × List ℚ)
    (eqns0 flows0 : Nat → ℚ) (n_enrich n_strip : Nat) (feed cut : ℚ)
    (hn : n_enrich + n_strip ≤ max_stages) :
    ∃ s, assembleSystem eqns0 flows0 ((n_enrich : ℚ), (n_strip : ℚ)) feed cut = some s ∧
      CalcFeedFlows dgesv eqns0 flows0 ((n_enrich : ℚ), (n_strip : ℚ)) feed cut =
        some
          { info := (dgesv s.n_stages 1 s.flow_eqns max_stages s.flows max_stages).1
            cerr :=
              if (dgesv s.n_stages 1 s.flow_eqns max_stages s.flows max_stages).1 = 0 then none
              else some (dgesv s.n_stages 1 s.flow_eqns max_stages s.flows max_stages).1
            final_flows :=
              (List.range (n_enrich + n_strip)).map
                (fun i =>
                  (dgesv s.n_stages 1 s.flow_eqns max_stages s.flows max_stages).2.getD i 0) } := by
  obtain ⟨s, h1, _, _, _, h5, _, _⟩ :=
    assembleSystem_spec eqns0 flows0 n_enrich n_strip feed cut hn
  refine ⟨s, h1, ?_⟩
  unfold CalcFeedFlows
  rw [h1]
  simp only []
  rw [if_pos (by rw [h5]; exact_mod_cast hn), h5, Int.toNat_natCast]

/-! ## The chains of product and waste assays -/

theorem iterate_product_mem (alpha a : ℚ) (hal : 0 < alpha) (ha0 : 0 < a) (ha1 : a < 1)
    (n : Nat) : 0 < (ProductAssayByAlpha alpha)^[n] a ∧ (ProductAssayByAlpha alpha)^[n] a < 1 := by
  induction n with
  | zero => exact ⟨ha0, ha1⟩
  | succ k ih =>
    rw [Function.iterate_succ_apply']
    exact ⟨ProductAssayByAlpha_pos alpha _ hal ih.1 ih.2,
      ProductAssayByAlpha_lt_one alpha _ hal ih.1 ih.2⟩

theorem iterate_waste_mem (alpha a : ℚ) (hal : 0 < alpha) (ha0 : 0 < a) (ha1 : a < 1)
    (n : Nat) : 0 < (WasteAssayByAlpha alpha)^[n] a ∧ (WasteAssayByAlpha alpha)^[n] a < 1 := by
  induction n with
  | zero => exact ⟨ha0, ha1⟩
  | succ k ih =>
    rw [Function.iterate_succ_apply']
    exact ⟨WasteAssayByAlpha_pos alpha _ hal ih.1 ih.2,
      WasteAssayByAlpha_lt_one alpha _ hal ih.1 ih.2⟩

/-- After `n` enriching stages the odds of the assay are multiplied by `alpha ^ n`. -/
theorem iterate_product_eq (alpha a : ℚ) (hal : 0 < alpha) (ha0 : 0 < a) (ha1 : a < 1)
    (n : Nat) :
    (ProductAssayByAlpha alpha)^[n] a = alpha ^ n * a / (alpha ^ n * a + (1 - a)) := by
  induction n with
  | zero => simp
  | succ k ih =>
    have hm := iterate_product_mem alpha a hal ha0 ha1 k
    rw [Function.iterate_succ_apply', ProductAssayByAlpha_eq alpha _ hm.2, ih]
    have hD : alpha ^ k * a + (1 - a) ≠ 0 := by
      have := mul_pos (pow_pos hal k) ha0
      linarith
    have e1 : alpha * (alpha ^ k * a / (alpha ^ k * a + (1 - a)))
        = alpha ^ (k + 1) * a / (alpha ^ k * a + (1 - a)) := by
      rw [pow_succ]
      ring
    have e2 : alpha ^ (k + 1) * a / (alpha ^ k * a + (1 - a))
          + (1 - alpha ^ k * a / (alpha ^ k * a + (1 - a)))
        = (alpha ^ (k + 1) * a + (1 - a)) / (alpha ^ k * a + (1 - a)) := by
      field_simp
    rw [e1, e2, div_div_div_cancel_right₀ hD]

/-- After `n` stripping stages the odds of the assay are divided by `alpha ^ n`. -/
theorem iterate_waste_eq (alpha a : ℚ) (hal : 0 < alpha) (ha0 : 0 < a) (ha1 : a < 1)
    (n : Nat) :
    (WasteAssayByAlpha alpha)^[n] a = a / (a + alpha ^ n * (1 - a)) := by
  induction n with
  | zero => simp
  | succ k ih =>
    have hm := iterate_waste_mem alpha a hal ha0 ha1 k
    rw [Function.iterate_succ_apply', WasteAssayByAlpha_eq alpha _ hal hm.2, ih]
    have hD : a + alpha ^ k * (1 - a) ≠ 0 := by
      have := mul_pos (pow_pos hal k) (sub_pos.mpr ha1)
      linarith
    have e2 : a / (a + alpha ^ k * (1 - a))
          + alpha * (1 - a / (a + alpha ^ k * (1 - a)))
        = (a + alpha ^ (k + 1) * (1 - a)) / (a + alpha ^ k * (1 - a)) := by
      rw [pow_succ]
      field_simp
      ring
    rw [e2, div_div_div_cancel_right₀ hD]

/-- The product target is reached by the chain of enriching stages. -/
theorem exists_product_reached (alpha f p : ℚ) (hal : 1 < alpha) (hf0 : 0 < f) (hf1 : f < 1)
    (hp1 : p < 1) : ∃ n, p ≤ (ProductAssayByAlpha alpha)^[n] f := by
  have hal0 : 0 < alpha := by linarith
  obtain ⟨n, hn⟩ := pow_unbounded_of_one_lt (p * (1 - f) / (f * (1 - p))) hal
  refine ⟨n, ?_⟩
  rw [iterate_product_eq alpha f hal0 hf0 hf1 n]
  have hk : 0 < alpha ^ n := pow_pos hal0 n
  have h1p : 0 < 1 - p := by linarith
  have hfp : 0 < f * (1 - p) := mul_pos hf0 h1p
  have hd : 0 < alpha ^ n * f + (1 - f) := by
    have := mul_pos hk hf0
    linarith
  rw [div_lt_iff₀ hfp] at hn
  rw [le_div_iff₀ hd]
  nlinarith

/-- The waste target is reached by the chain of stripping stages. -/
theorem exists_waste_reached (alpha x w : ℚ) (hal : 1 < alpha) (hx0 : 0 < x) (hx1 : x < 1)
    (hw0 : 0 < w) : ∃ n, (WasteAssayByAlpha alpha)^[n] x ≤ w := by
  have hal0 : 0 < alpha := by linarith
  obtain ⟨n, hn⟩ := pow_unbounded_of_one_lt (x / (w * (1 - x))) hal
  refine ⟨n, ?_⟩
  rw [iterate_waste_eq alpha x hal0 hx0 hx1 n]
  have hk : 0 < alpha ^ n := pow_pos hal0 n
  have h1x : 0 < 1 - x := by linarith
  have hwx : 0 < w * (1 - x) := mul_pos hw0 h1x
  have hd : 0 < x + alpha ^ n * (1 - x) := by
    have := mul_pos hk h1x
    linarith
  rw [div_lt_iff₀ hwx] at hn
  rw [div_le_iff₀ hd]
  nlinarith

/-! ## The arithmetic `binary64` -/

theorem bitLenBelow_spec : ∀ (k a : Nat), a < 2 ^ 2 ^ k →
    a < 2 ^ bitLenBelow k a ∧ (a ≠ 0 → 2 ^ (bitLenBelow k a - 1) ≤ a) := by
  intro k
  induction k with
  | zero =>
    intro a ha
    have ha2 : a < 2 := by simpa using ha
    rw [bitLenBelow]
    by_cases h0 : a = 0
    · subst h0
      simp
    · rw [if_neg h0]
      have : a = 1 := by omega
      subst this
      simp
  | succ k ih =>
    intro a ha
    rw [bitLenBelow]
    by_cases hlt : a < 2 ^ 2 ^ k
    · rw [if_pos hlt]
      exact ih a hlt
    · rw [if_neg hlt]
      have hpos : 0 < 2 ^ 2 ^ k := pow_pos (by norm_num) _
      have hsq : 2 ^ 2 ^ (k + 1) = 2 ^ 2 ^ k * 2 ^ 2 ^ k := by
        rw [pow_succ, pow_mul, pow_two]
      have hb : a / 2 ^ 2 ^ k < 2 ^ 2 ^ k := by
        rw [Nat.div_lt_iff_lt_mul hpos]
        rw [hsq] at ha
        exact ha
      have hb0 : a / 2 ^ 2 ^ k ≠ 0 := by
        have : 0 < a / 2 ^ 2 ^ k := Nat.div_pos (not_lt.mp hlt) hpos
        omega
      obtain ⟨h1, h2⟩ := ih _ hb
      have h2 := h2 hb0
      have hL : 1 ≤ bitLenBelow k (a / 2 ^ 2 ^ k) := by
        by_contra hc
        have h0 : bitLenBelow k (a / 2 ^ 2 ^ k) = 0 := by omega
        rw [h0] at h1
        simp at h1
        exact hb0 h1
      constructor
      · rw [pow_add]
        have := Nat.lt_mul_div_succ a hpos
        calc a < 2 ^ 2 ^ k * (a / 2 ^ 2 ^ k + 1) := this
          _ ≤ 2 ^ 2 ^ k * 2 ^ bitLenBelow k (a / 2 ^ 2 ^ k) := Nat.mul_le_mul_left _ h1
      · intro _
        have e : 2 ^ k + bitLenBelow k (a / 2 ^ 2 ^ k) - 1
            = 2 ^ k + (bitLenBelow k (a / 2 ^ 2 ^ k) - 1) := Nat.add_sub_assoc hL _
        rw [e, pow_add]
        calc 2 ^ 2 ^ k * 2 ^ (bitLenBelow k (a / 2 ^ 2 ^ k) - 1)
            ≤ 2 ^ 2 ^ k * (a / 2 ^ 2 ^ k) := Nat.mul_le_mul_left _ h2
          _ ≤ a := Nat.mul_div_le a _

theorem bitLenLevel_spec : ∀ (fuel k a : Nat), a < 2 ^ 2 ^ (k + fuel) →
    a < 2 ^ 2 ^ bitLenLevel fuel k a := by
  intro fuel
  induction fuel with
  | zero =>
    intro k a ha
    simpa [bitLenLevel] using ha
  | succ n ih =>
    intro k a ha
    rw [bitLenLevel]
    by_cases hlt : a < 2 ^ 2 ^ k
    · rw [if_pos hlt]
      exact hlt
    · rw [if_neg hlt]
      apply ih
      have : k + 1 + n = k + (n + 1) := by omega
      rw [this]
      exact ha

/-- The function `bitLen` gives the number of binary digits: `a` is below
`2 ^ bitLen a`, and at least `2 ^ (bitLen a - 1)` when it is not `0`. -/
theorem bitLen_spec (a : Nat) : a < 2 ^ bitLen a ∧ (a ≠ 0 → 2 ^ (bitLen a - 1) ≤ a) := by
  unfold bitLen
  apply bitLenBelow_spec
  apply bitLenLevel_spec
  rw [Nat.zero_add]
  calc a < 2 ^ a := Nat.lt_two_pow a
    _ ≤ 2 ^ 2 ^ a := Nat.pow_le_pow_right (by norm_num) (Nat.lt_two_pow a).le

/-- Some values of the arithmetic `binary64`: the doubles `0.1` and `1/3`, the sum
`0.1 + 0.2 = 0.30000000000000004`, the product `0.1 * 0.1 = 0.010000000000000002`, the
overflow of `2^1023 + 2^1023` to infinity and `0/0 = NaN`. -/
theorem binary64_values :
    Dbl.ofRatio 1 10 = Dbl.finite false 7205759403792794 (-56) ∧
    Dbl.ofRatio 1 3 = Dbl.finite false 6004799503160661 (-54) ∧
    Dbl.add (Dbl.ofRatio 1 10) (Dbl.ofRatio 2 10) = Dbl.finite false 5404319552844596 (-54) ∧
    Dbl.mul (Dbl.ofRatio 1 10) (Dbl.ofRatio 1 10) = Dbl.finite false 5764607523034236 (-59) ∧
    Dbl.add (Dbl.finite false (2 ^ 52) 971) (Dbl.finite false (2 ^ 52) 971) = Dbl.inf false ∧
    Dbl.div (Dbl.ofInt 0) (Dbl.ofInt 0) = Dbl.nan := by
  refine ⟨by decide!, by decide!, by decide!, by decide!, by decide!, by decide!⟩

/-! ## The two loops of `FindNStages` -/

theorem ProductAssayByAlphaIn_rational (alpha a : ℚ) :
    ProductAssayByAlphaIn rational alpha a = ProductAssayByAlpha alpha a := rfl

theorem WasteAssayByAlphaIn_rational (alpha a : ℚ) :
    WasteAssayByAlphaIn rational alpha a = WasteAssayByAlpha alpha a := rfl

theorem iterate_product_rational (alpha a : ℚ) (n : Nat) :
    (ProductAssayByAlphaIn rational alpha)^[n] a = (ProductAssayByAlpha alpha)^[n] a := by
  have h : ProductAssayByAlphaIn rational alpha = ProductAssayByAlpha alpha := by
    funext x
    rfl
  rw [h]

theorem iterate_waste_rational (alpha a : ℚ) (n : Nat) :
    (WasteAssayByAlphaIn rational alpha)^[n] a = (WasteAssayByAlpha alpha)^[n] a := by
  have h : WasteAssayByAlphaIn rational alpha = WasteAssayByAlpha alpha := by
    funext x
    rfl
  rw [h]

theorem rational_lt_eq_true (x y : ℚ) : rational.lt x y = true ↔ x < y := by
  simp [rational]

theorem rational_lt_eq_false (x y : ℚ) : rational.lt x y = false ↔ y ≤ x := by
  simp [rational]

/-- No double is below itself. -/
theorem Dbl.lt_irrefl (x : Dbl) : Dbl.lt x x = false := by
  cases x with
  | finite s m e => simp [Dbl.lt]
  | inf s => cases s <;> rfl
  | nan => rfl

/-- The index at which a test first fails is the least index at which it fails. -/
theorem firstFalse_iff_isLeast (t : Nat → Bool) (n : Nat) :
    FirstFalse t n ↔ IsLeast {j | t j = false} n := by
  constructor
  · rintro ⟨h1, h2⟩
    refine ⟨h1, ?_⟩
    intro j hj
    by_contra hlt
    have := h2 j (not_le.mp hlt)
    rw [Set.mem_setOf_eq.mp hj] at this
    cases this
  · rintro ⟨h1, h2⟩
    refine ⟨h1, ?_⟩
    intro j hj
    cases h : t j
    · have := h2 h
      omega
    · rfl

theorem firstFalse_unique {t : Nat → Bool} {m n : Nat} (hm : FirstFalse t m)
    (hn : FirstFalse t n) : m = n := by
  rcases Nat.lt_trichotomy m n with h | h | h
  · have := hn.2 m h
    rw [hm.1] at this
    cases this
  · exact h
  · have := hm.2 n h
    rw [hn.1] at this
    cases this

/-- A test that fails somewhere fails for the first time somewhere. -/
theorem exists_firstFalse {t : Nat → Bool} {m : Nat} (hm : t m = false) :
    ∃ n, n ≤ m ∧ FirstFalse t n := by
  classical
  have hex : ∃ n, t n = false := ⟨m, hm⟩
  refine ⟨Nat.find hex, Nat.find_min' hex hm, Nat.find_spec hex, ?_⟩
  intro j hj
  have := Nat.find_min hex hj
  cases h : t j
  · exact absurd h this
  · rfl

/-- What the enriching loop has done when it exits. -/
theorem enrichLoop_sound {D : Type} (A : Arith D) (alpha p : D) :
    ∀ (fuel : Nat) (s s' : StageVars D), s.stage_product_assay = s.stage_feed_assay →
      0 ≤ s.ideal_enrich_stage →
      enrichLoop A alpha p fuel s = Outcome.done s' →
      ∃ m, FirstFalse (fun j => A.lt ((ProductAssayByAlphaIn A alpha)^[j] s.stage_feed_assay) p) m ∧
        m < fuel ∧
        s'.ideal_enrich_stage = s.ideal_enrich_stage + m ∧
        (s.ideal_enrich_stage ≤ INT_MAX → s'.ideal_enrich_stage ≤ INT_MAX) ∧
        s'.ideal_strip_stage = s.ideal_strip_stage ∧
        s'.stage_waste_assay =
          (if m = 0 then s.stage_waste_assay
           else if s.ideal_enrich_stage = 0 then WasteAssayByAlphaIn A alpha s.stage_feed_assay
           else s.stage_waste_assay) := by
  intro fuel
  induction fuel with
  | zero =>
    intro s s' _ _ h
    simp [enrichLoop] at h
  | succ k ih =>
    intro s s' hs h0 h
    rw [enrichLoop] at h
    by_cases hc : A.lt s.stage_product_assay p = true
    · rw [if_pos hc] at h
      simp only [] at h
      by_cases hov : s.ideal_enrich_stage = INT_MAX
      · rw [if_pos hov] at h
        cases h
      · rw [if_neg hov] at h
        obtain ⟨m, h1, h2, h3, h4, h5, h6⟩ := ih _ s' rfl (by simp only []; omega) h
        simp only [] at h1 h2 h3 h4 h5 h6
        refine ⟨m + 1, ⟨?_, ?_⟩, by omega, ?_, ?_, h5, ?_⟩
        · simp only [Function.iterate_succ_apply]
          exact h1.1
        · intro j hj
          cases j with
          | zero =>
            simp only [Function.iterate_zero_apply]
            rw [← hs]
            exact hc
          | succ i =>
            simp only [Function.iterate_succ_apply]
            exact h1.2 i (by omega)
        · rw [h3]
          push_cast
          ring
        · intro hle
          apply h4
          omega
        · rw [h6, if_neg (by omega : ¬ (m + 1 = 0)),
            if_neg (by omega : ¬ (s.ideal_enrich_stage + 1 = 0))]
          simp
    · rw [if_neg hc] at h
      cases h
      refine ⟨0, ⟨?_, ?_⟩, by omega, by simp, fun h => h, rfl, by simp⟩
      · simp only [Function.iterate_zero_apply]
        rw [← hs]
        simpa using hc
      · intro j hj
        omega

/-- The enriching loop exits at the first index at which its test fails, when the
counter stays within `int` and the fuel suffices. -/
theorem enrichLoop_exit {D : Type} (A : Arith D) (alpha p : D) :
    ∀ (m fuel : Nat) (s : StageVars D), s.stage_product_assay = s.stage_feed_assay →
      A.lt ((ProductAssayByAlphaIn A alpha)^[m] s.stage_feed_assay) p = false →
      s.ideal_enrich_stage + m ≤ INT_MAX → m < fuel →
      ∃ s', enrichLoop A alpha p fuel s = Outcome.done s' := by
  intro m
  induction m with
  | zero =>
    intro fuel s hs hp _ hfuel
    obtain ⟨k, rfl⟩ : ∃ k, fuel = k + 1 := ⟨fuel - 1, by omega⟩
    rw [Function.iterate_zero_apply, ← hs] at hp
    refine ⟨s, ?_⟩
    rw [enrichLoop, if_neg (by simp [hp])]
  | succ i ih =>
    intro fuel s hs hp hb hfuel
    obtain ⟨k, rfl⟩ : ∃ k, fuel = k + 1 := ⟨fuel - 1, by omega⟩
    rw [enrichLoop]
    by_cases hc : A.lt s.stage_product_assay p = true
    · rw [if_pos hc]
      simp only []
      rw [if_neg (by push_cast at hb; omega)]
      apply ih
      · rfl
      · rw [Function.iterate_succ_apply] at hp
        exact hp
      · simp only []
        push_cast at hb
        omega
      · omega
    · rw [if_neg hc]
      exact ⟨s, rfl⟩

/-- What the stripping loop has done when it exits. -/
theorem stripLoop_sound {D : Type} (A : Arith D) (alpha w : D) :
    ∀ (fuel : Nat) (s s' : StageVars D), s.stage_waste_assay = s.stage_feed_assay →
      stripLoop A alpha w fuel s = Outcome.done s' →
      ∃ m, FirstFalse (fun j => A.lt w ((WasteAssayByAlphaIn A alpha)^[j] s.stage_feed_assay)) m ∧
        m < fuel ∧
        s'.ideal_strip_stage = s.ideal_strip_stage + m ∧
        (s.ideal_strip_stage ≤ INT_MAX → s'.ideal_strip_stage ≤ INT_MAX) ∧
        s'.ideal_enrich_stage = s.ideal_enrich_stage := by
  intro fuel
  induction fuel with
  | zero =>
    intro s s' _ h
    simp [stripLoop] at h
  | succ k ih =>
    intro s s' hs h
    rw [stripLoop] at h
    by_cases hc : A.lt w s.stage_waste_assay = true
    · rw [if_pos hc] at h
      simp only [] at h
      by_cases hov : s.ideal_strip_stage = INT_MAX
      · rw [if_pos hov] at h
        cases h
      · rw [if_neg hov] at h
        obtain ⟨m, h1, h2, h3, h4, h5⟩ := ih _ s' rfl h
        simp only [] at h1 h2 h3 h4 h5
        refine ⟨m + 1, ⟨?_, ?_⟩, by omega, ?_, ?_, h5⟩
        · simp only [Function.iterate_succ_apply]
          exact h1.1
        · intro j hj
          cases j with
          | zero =>
            simp only [Function.iterate_zero_apply]
            rw [← hs]
            exact hc
          | succ i =>
            simp only [Function.iterate_succ_apply]
            exact h1.2 i (by omega)
        · rw [h3]
          push_cast
          ring
        · intro hle
          apply h4
          omega
    · rw [if_neg hc] at h
      cases h
      refine ⟨0, ⟨?_, ?_⟩, by omega, by simp, fun h => h, rfl⟩
      · simp only [Function.iterate_zero_apply]
        rw [← hs]
        simpa using hc
      · intro j hj
        omega

/-- The stripping loop exits at the first index at which its test fails, when the
counter stays within `int` and the fuel suffices. -/
theorem stripLoop_exit {D : Type} (A : Arith D) (alpha w : D) :
    ∀ (m fuel : Nat) (s : StageVars D), s.stage_waste_assay = s.stage_feed_assay →
      A.lt w ((WasteAssayByAlphaIn A alpha)^[m] s.stage_feed_assay) = false →
      s.ideal_strip_stage + m ≤ INT_MAX → m < fuel →
      ∃ s', stripLoop A alpha w fuel s = Outcome.done s' := by
  intro m
  induction m with
  | zero =>
    intro fuel s hs hp _ hfuel
    obtain ⟨k, rfl⟩ : ∃ k, fuel = k + 1 := ⟨fuel - 1, by omega⟩
    rw [Function.iterate_zero_apply, ← hs] at hp
    refine ⟨s, ?_⟩
    rw [stripLoop, if_neg (by simp [hp])]
  | succ i ih =>
    intro fuel s hs hp hb hfuel
    obtain ⟨k, rfl⟩ : ∃ k, fuel = k + 1 := ⟨fuel - 1, by omega⟩
    rw [stripLoop]
    by_cases hc : A.lt w s.stage_waste_assay = true
    · rw [if_pos hc]
      simp only []
      rw [if_neg (by push_cast at hb; omega)]
      apply ih
      · rfl
      · rw [Function.iterate_succ_apply] at hp
        exact hp
      · simp only []
        push_cast at hb
        omega
      · omega
    · rw [if_neg hc]
      exact ⟨s, rfl⟩

/-- The results of `FindNStages`: the pair of the first indices at which the two loop
tests fail, the stripping chain starting at the feed assay itself when no enriching stage
is built and at the waste assay of the feed stage otherwise. -/
theorem FindNStages_done_iff {D : Type} (A : Arith D) (fuel : Nat) (alpha f p w : D)
    (r : Int × Int) :
    FindNStages A fuel alpha f p w = Outcome.done r ↔
      ∃ n k : Nat, r = ((n : Int), (k : Int)) ∧
        FirstFalse (fun j => A.lt ((ProductAssayByAlphaIn A alpha)^[j] f) p) n ∧
        FirstFalse (fun j => A.lt w ((WasteAssayByAlphaIn A alpha)^[j]
          (if A.lt f p then WasteAssayByAlphaIn A alpha f else f))) k ∧
        (n : Int) ≤ INT_MAX ∧ (k : Int) ≤ INT_MAX ∧ n < fuel ∧ k < fuel := by
  have hstart : ∀ (s1 : StageVars D) (m : Nat),
      FirstFalse (fun j => A.lt ((ProductAssayByAlphaIn A alpha)^[j] f) p) m →
      s1.stage_waste_assay = (if m = 0 then f
        else if (0 : Int) = 0 then WasteAssayByAlphaIn A alpha f else f) →
      s1.stage_waste_assay = if A.lt f p then WasteAssayByAlphaIn A alpha f else f := by
    intro s1 m hm e
    rw [e]
    by_cases hm0 : m = 0
    · subst hm0
      have := hm.1
      simp only [Function.iterate_zero_apply] at this
      rw [if_pos rfl, this]
      simp
    · have := hm.2 0 (Nat.pos_of_ne_zero hm0)
      simp only [Function.iterate_zero_apply] at this
      rw [if_neg hm0, if_pos rfl, this]
      simp
  constructor
  · intro h
    unfold FindNStages at h
    simp only [] at h
    split at h
    · cases h
    · cases h
    · rename_i s1 h1
      split at h
      · cases h
      · cases h
      · rename_i s2 h2
        cases h
        obtain ⟨m, e1, e2, e3, e4, e5, e6⟩ := enrichLoop_sound A alpha p fuel _ s1 rfl le_rfl h1
        obtain ⟨k, g1, g2, g3, g4, g5⟩ := stripLoop_sound A alpha w fuel _ s2 rfl h2
        simp only [] at e1 e2 e3 e4 e5 e6 g1 g2 g3 g4 g5
        have hx := hstart s1 m e1 e6
        rw [hx] at g1
        refine ⟨m, k, ?_, e1, g1, ?_, ?_, e2, g2⟩
        · rw [g5, e3, g3, e5]
          simp
        · have := e4 (by unfold INT_MAX; norm_num)
          rw [e3] at this
          simpa using this
        · have := g4 (by rw [e5]; unfold INT_MAX; norm_num)
          rw [g3, e5] at this
          simpa using this
  · rintro ⟨n, k, rfl, hn, hk, hnb, hkb, hnf, hkf⟩
    obtain ⟨s1, h1⟩ := enrichLoop_exit A alpha p n fuel
      { ideal_enrich_stage := 0
        ideal_strip_stage := 0
        stage_feed_assay := f
        stage_product_assay := f
        stage_waste_assay := f } rfl hn.1 (by simpa using hnb) hnf
    obtain ⟨m, e1, e2, e3, e4, e5, e6⟩ := enrichLoop_sound A alpha p fuel _ s1 rfl le_rfl h1
    simp only [] at e1 e2 e3 e4 e5 e6
    have hmn : m = n := firstFalse_unique e1 hn
    subst hmn
    have hx := hstart s1 m e1 e6
    obtain ⟨s2, h2⟩ := stripLoop_exit A alpha w k fuel
      { s1 with stage_feed_assay := s1.stage_waste_assay } rfl
      (by simp only []; rw [hx]; exact hk.1) (by simp only []; rw [e5]; simpa using hkb) hkf
    obtain ⟨k', g1, g2, g3, g4, g5⟩ := stripLoop_sound A alpha w fuel _ s2 rfl h2
    simp only [] at g1 g2 g3 g4 g5
    rw [hx] at g1
    have hkk : k' = k := firstFalse_unique g1 hk
    subst hkk
    unfold FindNStages
    simp only []
    rw [h1]
    simp only []
    rw [h2]
    simp only []
    rw [g5, e3, g3, e5]
    simp

/-- When the test of the enriching loop never fails, `FindNStages` returns for no fuel. -/
theorem FindNStages_not_done_of_enrich {D : Type} (A : Arith D) (alpha f p w : D)
    (h : ∀ n, A.lt ((ProductAssayByAlphaIn A alpha)^[n] f) p = true) (fuel : Nat)
    (r : Int × Int) : FindNStages A fuel alpha f p w ≠ Outcome.done r := by
  intro hd
  obtain ⟨n, k, _, hn, _⟩ := (FindNStages_done_iff A fuel alpha f p w r).mp hd
  have := hn.1
  simp only [] at this
  rw [h n] at this
  cases this

/-- When the test of the stripping loop never fails, `FindNStages` returns for no fuel. -/
theorem FindNStages_not_done_of_strip {D : Type} (A : Arith D) (alpha f p w : D)
    (h : ∀ n, A.lt w ((WasteAssayByAlphaIn A alpha)^[n]
      (if A.lt f p then WasteAssayByAlphaIn A alpha f else f)) = true) (fuel : Nat)
    (r : Int × Int) : FindNStages A fuel alpha f p w ≠ Outcome.done r := by
  intro hd
  obtain ⟨n, k, _, _, hk, _⟩ := (FindNStages_done_iff A fuel alpha f p w r).mp hd
  have := hk.1
  simp only [] at this
  rw [h k] at this
  cases this

/-- A chain that has come to a value which its stage function leaves unchanged stays
there. -/
theorem iterate_of_fixed {D : Type} (g : D → D) (x : D) (m : Nat) (h : g (g^[m] x) = g^[m] x)
    (n : Nat) (hn : m ≤ n) : g^[n] x = g^[m] x := by
  induction n with
  | zero =>
    have : m = 0 := by omega
    subst this
    rfl
  | succ i ih =>
    by_cases hmi : m = i + 1
    · rw [hmi]
    · rw [Function.iterate_succ_apply', ih (by omega), h]

/-- While the enriching loop is still running, its test has not failed yet. -/
theorem enrichLoop_running {D : Type} (A : Arith D) (alpha p : D) (fuel : Nat)
    (s : StageVars D) (hs : s.stage_product_assay = s.stage_feed_assay)
    (hb : s.ideal_enrich_stage + fuel ≤ INT_MAX)
    (h : enrichLoop A alpha p fuel s = Outcome.running) (j : Nat) (hj : j < fuel) :
    A.lt ((ProductAssayByAlphaIn A alpha)^[j] s.stage_feed_assay) p = true := by
  cases ht : A.lt ((ProductAssayByAlphaIn A alpha)^[j] s.stage_feed_assay) p
  · obtain ⟨s', hs'⟩ := enrichLoop_exit A alpha p j fuel s hs ht (by omega) hj
    rw [h] at hs'
    cases hs'
  · rfl

/-- While the stripping loop is still running, its test has not failed yet. -/
theorem stripLoop_running {D : Type} (A : Arith D) (alpha w : D) (fuel : Nat)
    (s : StageVars D) (hs : s.stage_waste_assay = s.stage_feed_assay)
    (hb : s.ideal_strip_stage + fuel ≤ INT_MAX)
    (h : stripLoop A alpha w fuel s = Outcome.running) (j : Nat) (hj : j < fuel) :
    A.lt w ((WasteAssayByAlphaIn A alpha)^[j] s.stage_feed_assay) = true := by
  cases ht : A.lt w ((WasteAssayByAlphaIn A alpha)^[j] s.stage_feed_assay)
  · obtain ⟨s', hs'⟩ := stripLoop_exit A alpha w j fuel s hs ht (by omega) hj
    rw [h] at hs'
    cases hs'
  · rfl

/-- A chain that stays on one side of its target up to an index at which the stage
function leaves it unchanged stays there for ever. -/
theorem test_of_fixed {D : Type} (g : D → D) (t : D → Bool) (x : D) (m : Nat)
    (hfix : g (g^[m] x) = g^[m] x) (hlt : ∀ j, j ≤ m → t (g^[j] x) = true) (n : Nat) :
    t (g^[n] x) = true := by
  by_cases h : n ≤ m
  · exact hlt n h
  · rw [iterate_of_fixed g x m hfix n (by omega)]
    exact hlt m le_rfl

/-- Stripping with a factor above `1` lowers the assay. -/
theorem WasteAssayByAlpha_lt_self (alpha a : ℚ) (halpha : 1 < alpha) (ha0 : 0 < a)
    (ha1 : a < 1) : WasteAssayByAlpha alpha a < a := by
  rw [WasteAssayByAlpha_eq alpha a (by linarith) ha1]
  have h : 0 < alpha * (1 - a) := mul_pos (by linarith) (by linarith)
  rw [div_lt_iff₀ (by linarith)]
  nlinarith [mul_pos ha0 (sub_pos.mpr ha1), mul_pos (sub_pos.mpr halpha) ha0,
    mul_pos (mul_pos (sub_pos.mpr halpha) ha0) (sub_pos.mpr ha1)]

/-- Odds of the product and of the waste assay of one stage: the odds `a / (1 - a)` of
the feed assay multiplied, respectively divided, by `alpha`. -/
theorem stage_odds (alpha a : ℚ) (hal : 0 < alpha) (ha0 : 0 < a) (ha1 : a < 1) :
    ProductAssayByAlpha alpha a / (1 - ProductAssayByAlpha alpha a) = alpha * (a / (1 - a)) ∧
    WasteAssayByAlpha alpha a / (1 - WasteAssayByAlpha alpha a) = a / (1 - a) / alpha := by
  have h1a : 0 < 1 - a := by linarith
  have hxa : 0 < alpha * a := mul_pos hal ha0
  have hx1 : 0 < alpha * (1 - a) := mul_pos hal h1a
  constructor
  · rw [ProductAssayByAlpha_eq alpha a ha1]
    have hd : alpha * a + (1 - a) ≠ 0 := by linarith
    have e : 1 - alpha * a / (alpha * a + (1 - a)) = (1 - a) / (alpha * a + (1 - a)) := by
      field_simp
    rw [e, div_div_div_cancel_right₀ hd]
    ring
  · rw [WasteAssayByAlpha_eq alpha a hal ha1]
    have hd : a + alpha * (1 - a) ≠ 0 := by linarith
    have e : 1 - a / (a + alpha * (1 - a)) = alpha * (1 - a) / (a + alpha * (1 - a)) := by
      field_simp
    rw [e, div_div_div_cancel_right₀ hd, div_div]
    ring


/-! ## The centrifuge model over the real numbers -/

theorem gas_const_pos : (0 : ℝ) < gas_const := by
  unfold gas_const
  norm_num

/-- The quantity under the square root of `CalcDelU`, with the denominators joined. -/
theorem r_12_radicand_eq (v_a temp M_mol x : ℝ) :
    r_12_radicand Real.log v_a temp M_mol x
      = 1 - 2 * gas_const * temp * Real.log x / (M_mol * v_a ^ 2) := by
  unfold r_12_radicand
  rw [div_div]

/-- The value function is symmetric about `1/2`. -/
theorem CalcV_symm (a : ℝ) :
    CalcV Real.log (1 - a) = CalcV Real.log a := by
  unfold CalcV
  have h1 : (1 - a) / (1 - (1 - a)) = (a / (1 - a))⁻¹ := by
    rw [inv_div]
    congr 1
    ring
  rw [h1, Real.log_inv]
  ring

/-- The value function increases on `[1/2, 1)`. -/
theorem CalcV_mono_upper (a b : ℝ) (ha : 1 / 2 ≤ a) (hab : a < b) (hb1 : b < 1) :
    CalcV Real.log a ≤ CalcV Real.log b := by
  unfold CalcV
  have h1a : 0 < 1 - a := by linarith
  have h1b : 0 < 1 - b := by linarith
  have hra : 1 ≤ a / (1 - a) := by
    rw [le_div_iff₀ h1a]
    linarith
  have hrab : a / (1 - a) ≤ b / (1 - b) := by
    rw [div_le_div_iff₀ h1a h1b]
    nlinarith
  have hla : 0 ≤ Real.log (a / (1 - a)) := Real.log_nonneg hra
  have hlab : Real.log (a / (1 - a)) ≤ Real.log (b / (1 - b)) :=
    Real.log_le_log (by linarith) hrab
  apply mul_le_mul (by linarith) hlab hla (by linarith)


/-- Sign of the Raetz expression once the sign of each of its factors is known. -/
theorem raetz_pos (feed eff cut Ct Cs b1 b2 e1 e2 : ℝ) (hfeed : 0 < feed) (heff : 0 < eff)
    (hc0 : 0 < cut) (hc1 : cut < 1) (hCt : 0 < Ct) (hCs : 0 < Cs) (hb1 : 0 < b1) (hb2 : 0 < b2)
    (he1 : e1 < 1) (he2 : e2 < 1) :
    0 < feed * (1 / 2 * cut * (1 - cut) * (Ct ^ 2) * Cs *
      ((b1 * (1 - e1)) + (b2 * (1 - e2))) ^ 2) * eff := by
  have h1 : 0 < 1 - cut := by linarith
  have h2 : 0 < b1 * (1 - e1) + b2 * (1 - e2) :=
    add_pos (mul_pos hb1 (by linarith)) (mul_pos hb2 (by linarith))
  positivity

/-- The separative power is strictly positive when the quantity under the square root
is positive. -/
theorem CalcDelU_pos (v_a height diameter feed temp cut eff M_mol dM x flow_internal : ℝ)
    (hv : 0 < v_a) (hh : 0 < height) (hd : 0 < diameter) (hfeed : 0 < feed) (ht : 0 < temp)
    (hc0 : 0 < cut) (hc1 : cut < 1) (heff : 0 < eff) (hM : 0 < M_mol) (hdM : 0 < dM)
    (hx : 1 < x) (hfi : 0 < flow_internal)
    (hrad : 2 * gas_const * temp * Real.log x < M_mol * v_a ^ 2) :
    0 < CalcDelU Real.sqrt Real.log Real.exp Real.pi v_a height diameter feed temp cut eff
      M_mol dM x flow_internal := by
  have hg := gas_const_pos
  have hden : 0 < M_mol * v_a ^ 2 := mul_pos hM (pow_pos hv 2)
  have hlog : 0 < Real.log x := Real.log_pos hx
  have hnum : 0 < 2 * gas_const * temp * Real.log x := by positivity
  have hR0 : 0 < r_12_radicand Real.log v_a temp M_mol x := by
    rw [r_12_radicand_eq, sub_pos, div_lt_one hden]
    exact hrad
  have hR1 : r_12_radicand Real.log v_a temp M_mol x < 1 := by
    rw [r_12_radicand_eq]
    have := div_pos hnum hden
    linarith
  have hs0 : 0 < Real.sqrt (r_12_radicand Real.log v_a temp M_mol x) := Real.sqrt_pos.mpr hR0
  have hs1 : Real.sqrt (r_12_radicand Real.log v_a temp M_mol x) < 1 := by
    rw [Real.sqrt_lt' (by norm_num)]
    simpa using hR1
  have hsq : Real.sqrt (r_12_radicand Real.log v_a temp M_mol x) ^ 2
      = r_12_radicand Real.log v_a temp M_mol x := Real.sq_sqrt hR0.le
  have ha : 0 < diameter / 2 := by positivity
  have hr2 : 0 < 99 / 100 * (diameter / 2) := by positivity
  have hr1 : 0 < 99 / 100 * (diameter / 2)
      * Real.sqrt (r_12_radicand Real.log v_a temp M_mol x) := mul_pos hr2 hs0
  have hratio : 1 < 99 / 100 * (diameter / 2) / (99 / 100 * (diameter / 2)
      * Real.sqrt (r_12_radicand Real.log v_a temp M_mol x)) := by
    rw [lt_div_iff₀ hr1, one_mul]
    nlinarith
  have hL : 0 < Real.log (99 / 100 * (diameter / 2) / (99 / 100 * (diameter / 2)
      * Real.sqrt (r_12_radicand Real.log v_a temp M_mol x))) := Real.log_pos hratio
  have hD : (0 : ℝ) < D_rho := by
    unfold D_rho
    norm_num
  have hC1 : 0 < 2 * Real.pi * D_rho / Real.log (99 / 100 * (diameter / 2)
      / (99 / 100 * (diameter / 2)
        * Real.sqrt (r_12_radicand Real.log v_a temp M_mol x))) :=
    div_pos (by have := Real.pi_pos; positivity) hL
  have h1c : 0 < 1 - cut := by linarith
  have hcf : 0 < 1 - cut + flow_internal := by linarith
  have hZ : 0 < height * (1 - cut) * (1 + flow_internal) / (1 - cut + flow_internal) := by
    positivity
  have hHZ : 0 < height
      - height * (1 - cut) * (1 + flow_internal) / (1 - cut + flow_internal) := by
    have e : height - height * (1 - cut) * (1 + flow_internal) / (1 - cut + flow_internal)
        = height * cut * flow_internal / (1 - cut + flow_internal) := by
      field_simp
      ring
    rw [e]
    positivity
  unfold CalcDelU
  simp only []
  apply raetz_pos _ _ _ _ _ _ _ _ _ hfeed heff hc0 hc1
  · unfold CalcCTherm
    simp only []
    positivity
  · rw [hsq]
    have h1R : 0 < 1 - r_12_radicand Real.log v_a temp M_mol x := by linarith
    have hq : 0 < 99 / 100 * (diameter / 2) / (diameter / 2) := div_pos hr2 ha
    positivity
  · positivity
  · positivity
  · rw [Real.exp_lt_one_iff]
    have hAp : 0 < 2 * Real.pi * D_rho / Real.log (99 / 100 * (diameter / 2)
        / (99 / 100 * (diameter / 2)
          * Real.sqrt (r_12_radicand Real.log v_a temp M_mol x)))
        * (1 / feed) * (cut / ((1 + flow_internal) * (1 - cut + flow_internal))) := by
      positivity
    have hprod := mul_pos hAp hZ
    linarith
  · rw [Real.exp_lt_one_iff]
    have hAw : 0 < 2 * Real.pi * D_rho / Real.log (99 / 100 * (diameter / 2)
        / (99 / 100 * (diameter / 2)
          * Real.sqrt (r_12_radicand Real.log v_a temp M_mol x)))
        * (1 / feed) * ((1 - cut) / (flow_internal * (1 - cut + flow_internal))) := by
      positivity
    have hprod := mul_pos hAw hHZ
    linarith


/-- The closed form of `ProductAssayFromNStages`: the odds of the feed assay are
multiplied by `exp (enrich_stages * (alpha - 1))`. -/
theorem ProductAssayFromNStages_eq (alpha a t : ℝ) (ha1 : a < 1) :
    ProductAssayFromNStages Real.exp alpha a t
      = Real.exp (t * (alpha - 1)) * a / (Real.exp (t * (alpha - 1)) * a + (1 - a)) := by
  have h1 : (1 - a) ≠ 0 := by linarith
  have key : 1 + a / (1 - a) * Real.exp (t * (alpha - 1))
      = (Real.exp (t * (alpha - 1)) * a + (1 - a)) / (1 - a) := by
    field_simp
    ring
  have key2 : a / (1 - a) * Real.exp (t * (alpha - 1))
      = Real.exp (t * (alpha - 1)) * a / (1 - a) := by
    ring
  unfold ProductAssayFromNStages
  simp only []
  rw [key, key2, div_div_div_cancel_right₀ h1]

/-- For `alpha > 1` and at least one stage, `ProductAssayFromNStages` is strictly above
the assay reached by the chain of `ProductAssayByAlpha`. -/
theorem chain_lt_ProductAssayFromNStages (alpha a : ℚ) (n : Nat) (halpha : 1 < alpha)
    (ha0 : 0 < a) (ha1 : a < 1) (hn : 1 ≤ n) :
    (((ProductAssayByAlpha alpha)^[n] a : ℚ) : ℝ)
      < ProductAssayFromNStages Real.exp (alpha : ℝ) (a : ℝ) (n : ℝ) := by
  have hal0 : (0 : ℚ) < alpha := by linarith
  have hA : (1 : ℝ) < (alpha : ℝ) := by exact_mod_cast halpha
  have hA0 : (0 : ℝ) < (a : ℝ) := by exact_mod_cast ha0
  have hA1 : (a : ℝ) < 1 := by exact_mod_cast ha1
  rw [iterate_product_eq alpha a hal0 ha0 ha1 n, ProductAssayFromNStages_eq _ _ _ hA1]
  push_cast
  have hstep : (alpha : ℝ) < Real.exp ((alpha : ℝ) - 1) := by
    have := Real.add_one_lt_exp (x := (alpha : ℝ) - 1) (by linarith)
    linarith
  have hpow : (alpha : ℝ) ^ n < Real.exp ((n : ℝ) * ((alpha : ℝ) - 1)) := by
    rw [Real.exp_nat_mul]
    exact pow_lt_pow_left₀ hstep (by linarith) (by omega)
  have hp0 : (0 : ℝ) < (alpha : ℝ) ^ n := pow_pos (by linarith) n
  have hE0 : (0 : ℝ) < Real.exp ((n : ℝ) * ((alpha : ℝ) - 1)) := Real.exp_pos _
  have h1a : (0 : ℝ) < 1 - (a : ℝ) := by linarith
  rw [div_lt_div_iff₀ (by positivity) (by positivity)]
  nlinarith [mul_pos hA0 h1a, mul_pos (mul_pos hA0 h1a) (sub_pos.mpr hpow)]


/-! ## Unique solvability of the flow system -/

/-- The homogeneous tridiagonal system with `0 < cut < 1` has the zero solution only. -/
theorem tridiag_kernel_trivial (cut : ℚ) (hc0 : 0 < cut) (hc1 : cut < 1) (n : Nat)
    (v : Nat → ℚ)
    (hv : ∀ i, i < n →
      (if 0 < i then cut * v (i - 1) else 0) - v i
        + (if i + 1 < n then (1 - cut) * v (i + 1) else 0) = 0) :
    ∀ i, i < n → v i = 0 := by
  have h1c : 0 < 1 - cut := by linarith
  -- the net flow between two neighbouring stages is the same everywhere
  have hK : ∀ k, k + 1 < n → cut * v k - (1 - cut) * v (k + 1) = -(1 - cut) * v 0 := by
    intro k
    induction k with
    | zero =>
      intro hk
      have e := hv 0 (by omega)
      rw [if_neg (lt_irrefl 0), if_pos hk] at e
      simp only [zero_add] at e ⊢
      linarith
    | succ j ih =>
      intro hk
      have e := hv (j + 1) (by omega)
      rw [if_pos (by omega), if_pos hk, Nat.add_sub_cancel] at e
      have := ih (by omega)
      linarith
  -- every flow has the sign of the first one
  have hU : ∀ k, k < n → v 0 ^ 2 ≤ v k * v 0 := by
    intro k
    induction k with
    | zero =>
      intro _
      exact le_of_eq (sq (v 0))
    | succ j ih =>
      intro hk
      have hj := ih (by omega)
      have e := hK j hk
      have hsq : 0 ≤ v 0 ^ 2 := sq_nonneg _
      have key : (1 - cut) * (v (j + 1) * v 0) = cut * (v j * v 0) + (1 - cut) * v 0 ^ 2 := by
        have : (1 - cut) * v (j + 1) = cut * v j + (1 - cut) * v 0 := by linarith
        calc (1 - cut) * (v (j + 1) * v 0) = ((1 - cut) * v (j + 1)) * v 0 := by ring
          _ = (cut * v j + (1 - cut) * v 0) * v 0 := by rw [this]
          _ = cut * (v j * v 0) + (1 - cut) * v 0 ^ 2 := by ring
      have hge : (1 - cut) * v 0 ^ 2 ≤ (1 - cut) * (v (j + 1) * v 0) := by
        rw [key]
        have : 0 ≤ cut * (v j * v 0) := mul_nonneg hc0.le (le_trans hsq hj)
        linarith
      exact le_of_mul_le_mul_left hge h1c
  -- the last equation forces the first flow to vanish
  have h0 : n ≠ 0 → v 0 = 0 := by
    intro hn
    obtain ⟨m, rfl⟩ : ∃ m, n = m + 1 := ⟨n - 1, by omega⟩
    have e := hv m (by omega)
    rw [if_neg (lt_irrefl _)] at e
    cases m with
    | zero =>
      rw [if_neg (lt_irrefl 0)] at e
      linarith
    | succ j =>
      rw [if_pos (by omega), Nat.add_sub_cancel] at e
      have hk := hK j (by omega)
      have hu := hU (j + 1) (by omega)
      have hlast : cut * v (j + 1) = -(1 - cut) * v 0 := by linarith
      have hsq : 0 ≤ v 0 ^ 2 := sq_nonneg _
      have h3 : cut * (v (j + 1) * v 0) = -(1 - cut) * v 0 ^ 2 := by
        calc cut * (v (j + 1) * v 0) = (cut * v (j + 1)) * v 0 := by ring
          _ = (-(1 - cut) * v 0) * v 0 := by rw [hlast]
          _ = -(1 - cut) * v 0 ^ 2 := by ring
      have h4 : cut * v 0 ^ 2 ≤ cut * (v (j + 1) * v 0) := mul_le_mul_of_nonneg_left hu hc0.le
      have h5 : v 0 ^ 2 ≤ 0 := by nlinarith
      have h6 : v 0 ^ 2 = 0 := le_antisymm h5 hsq
      exact pow_eq_zero_iff (two_ne_zero) |>.mp h6
  intro i
  induction i with
  | zero =>
    intro hi
    exact h0 (by omega)
  | succ j ih =>
    intro hi
    have e := hK j hi
    rw [ih (by omega), h0 (by omega)] at e
    have : (1 - cut) * v (j + 1) = 0 := by linarith
    rcases mul_eq_zero.mp this with h | h
    · linarith
    · exact h


/-- Left-hand side of equation `i` of an assembled system. -/
theorem assembled_row_sum (eqns0 flows0 : Nat → ℚ) (n_enrich n_strip : Nat)
    (feed cut : ℚ) (s : FlowVars)
    (h : assembleSystem eqns0 flows0 ((n_enrich : ℚ), (n_strip : ℚ)) feed cut = some s)
    (F : Nat → ℚ) (i : Nat) (hi : i < n_enrich + n_strip) :
    ∑ j in Finset.range (n_enrich + n_strip), eqnAt s j i * F j
      = (if 0 < i then cut * F (i - 1) else 0) - F i
        + (if i + 1 < n_enrich + n_strip then (1 - cut) * F (i + 1) else 0) := by
  obtain ⟨hn, _, h6, _⟩ := assembleSystem_some eqns0 flows0 n_enrich n_strip feed cut s h
  rw [← tridiag_row_sum cut F (n_enrich + n_strip) i hi]
  apply Finset.sum_congr rfl
  intro j hj
  have hj' := Finset.mem_range.mp hj
  rw [h6 j i (by omega) (by omega), if_pos hi]

/-- A vector indexed by the stages, read as a sequence that is `0` beyond them. -/
theorem mulVec_eq_sum_range (n : Nat) (A : Nat → Nat → ℚ) (w : Fin n → ℚ) (i : Fin n) :
    (Matrix.of (fun (r c : Fin n) => A c.1 r.1)).mulVec w i
      = ∑ j in Finset.range n, A j i.1 * (if hj : j < n then w ⟨j, hj⟩ else 0) := by
  rw [Finset.sum_range]
  simp [Matrix.mulVec, Matrix.dotProduct]

/-- The matrix of an assembled system with `0 < cut < 1` is not singular. -/
theorem assembled_det_ne_zero (eqns0 flows0 : Nat → ℚ) (n_enrich n_strip : Nat)
    (feed cut : ℚ) (hc0 : 0 < cut) (hc1 : cut < 1) (s : FlowVars)
    (h : assembleSystem eqns0 flows0 ((n_enrich : ℚ), (n_strip : ℚ)) feed cut = some s) :
    (Matrix.of (fun (r c : Fin (n_enrich + n_strip)) => eqnAt s c.1 r.1)).det ≠ 0 := by
  intro hdet
  obtain ⟨w, hw, hMw⟩ := Matrix.exists_mulVec_eq_zero_iff.mpr hdet
  have hzero := tridiag_kernel_trivial cut hc0 hc1 (n_enrich + n_strip)
    (fun j => if hj : j < n_enrich + n_strip then w ⟨j, hj⟩ else 0) (by
      intro i hi
      have hrow := assembled_row_sum eqns0 flows0 n_enrich n_strip feed cut s h
        (fun j => if hj : j < n_enrich + n_strip then w ⟨j, hj⟩ else 0) i hi
      have hmv := mulVec_eq_sum_range (n_enrich + n_strip) (eqnAt s) w ⟨i, hi⟩
      rw [hMw, Pi.zero_apply] at hmv
      exact hrow.symm.trans hmv.symm)
  apply hw
  funext j
  have := hzero j.1 j.2
  simpa [j.2] using this


/-- The assembled system with `0 < cut < 1` has a solution. -/
theorem assembled_solution_exists (eqns0 flows0 : Nat → ℚ) (n_enrich n_strip : Nat)
    (feed cut : ℚ) (hc0 : 0 < cut) (hc1 : cut < 1) (s : FlowVars)
    (h : assembleSystem eqns0 flows0 ((n_enrich : ℚ), (n_strip : ℚ)) feed cut = some s) :
    ∃ F, Solves s F := by
  obtain ⟨_, h5, _, _⟩ := assembleSystem_some eqns0 flows0 n_enrich n_strip feed cut s h
  have hunit : IsUnit (Matrix.of
      (fun (r c : Fin (n_enrich + n_strip)) => eqnAt s c.1 r.1)).det :=
    isUnit_iff_ne_zero.mpr
      (assembled_det_ne_zero eqns0 flows0 n_enrich n_strip feed cut hc0 hc1 s h)
  have hx : (Matrix.of (fun (r c : Fin (n_enrich + n_strip)) => eqnAt s c.1 r.1)).mulVec
      ((Matrix.of (fun (r c : Fin (n_enrich + n_strip)) => eqnAt s c.1 r.1))⁻¹.mulVec
        (fun i => flowAt s i.1)) = fun i => flowAt s i.1 := by
    rw [Matrix.mulVec_mulVec, Matrix.mul_nonsing_inv _ hunit, Matrix.one_mulVec]
  refine ⟨fun j => if hj : j < n_enrich + n_strip then
    ((Matrix.of (fun (r c : Fin (n_enrich + n_strip)) => eqnAt s c.1 r.1))⁻¹.mulVec
      (fun i => flowAt s i.1)) ⟨j, hj⟩ else 0, ?_⟩
  unfold Solves
  rw [h5, Int.toNat_natCast]
  intro i hi
  have hmv := mulVec_eq_sum_range (n_enrich + n_strip) (eqnAt s)
    ((Matrix.of (fun (r c : Fin (n_enrich + n_strip)) => eqnAt s c.1 r.1))⁻¹.mulVec
      (fun i => flowAt s i.1)) ⟨i, Finset.mem_range.mp hi⟩
  rw [hx] at hmv
  exact hmv.symm

/-- Two solutions of an assembled system with `0 < cut < 1` agree on every stage. -/
theorem assembled_solution_unique (eqns0 flows0 : Nat → ℚ) (n_enrich n_strip : Nat)
    (feed cut : ℚ) (hc0 : 0 < cut) (hc1 : cut < 1) (s : FlowVars)
    (h : assembleSystem eqns0 flows0 ((n_enrich : ℚ), (n_strip : ℚ)) feed cut = some s)
    (F G : Nat → ℚ) (hF : Solves s F) (hG : Solves s G) :
    ∀ i, i < n_enrich + n_strip → F i = G i := by
  rw [solves_iff eqns0 flows0 n_enrich n_strip feed cut s h] at hF hG
  have hzero := tridiag_kernel_trivial cut hc0 hc1 (n_enrich + n_strip)
    (fun j => F j - G j) (by
      intro i hi
      have eF := hF i hi
      have eG := hG i hi
      simp only []
      split_ifs at eF eG ⊢ <;> linarith)
  intro i hi
  have := hzero i hi
  simp only [] at this
  linarith

/-! ## Claims -/

/-- C2 fails as stated, in double arithmetic, at inputs inside its hypotheses. At
`alpha = 9`, `f = 0.0625`, `p = 0.375` (and `w = 0.0625`) one application of
`ProductAssayByAlpha` gives exactly `p` in exact arithmetic, so the least number of
applications is `1`, but the doubles round the product assay below `p` and `FindNStages`
returns `2` enriching stages. At `alpha = 1.25`, `f = 1 - 2^-52`, `p = 1 - 2^-53` (and
`w = 0.25`) one enriching stage gives the assay `f` again, so no number of applications
of `ProductAssayByAlpha` to `f` gives an assay `>= p`, there is no least such number, and
`FindNStages` returns no count, whatever the fuel. -/
theorem C2_counterexample :
    (3 / 8 : ℚ) ≤ ProductAssayByAlpha 9 (1 / 16) ∧
    Dbl.lt (ProductAssayByAlphaIn binary64 (Dbl.ofInt 9) (Dbl.ofRatio 1 16)) (Dbl.ofRatio 3 8)
      = true ∧
    FindNStages binary64 3 (Dbl.ofInt 9) (Dbl.ofRatio 1 16) (Dbl.ofRatio 3 8) (Dbl.ofRatio 1 16)
      = Outcome.done (2, 0) ∧
    Dbl.lt (Dbl.ofInt 1) (Dbl.ofRatio 5 4) = true ∧
    Dbl.lt (Dbl.ofInt 0) (Dbl.finite false (2 ^ 53 - 2) (-53)) = true ∧
    Dbl.lt (Dbl.finite false (2 ^ 53 - 2) (-53)) (Dbl.ofInt 1) = true ∧
    Dbl.lt (Dbl.ofInt 0) (Dbl.finite false (2 ^ 53 - 1) (-53)) = true ∧
    Dbl.lt (Dbl.finite false (2 ^ 53 - 1) (-53)) (Dbl.ofInt 1) = true ∧
    ProductAssayByAlphaIn binary64 (Dbl.ofRatio 5 4) (Dbl.finite false (2 ^ 53 - 2) (-53))
      = Dbl.finite false (2 ^ 53 - 2) (-53) ∧
    (∀ n, binary64.lt ((ProductAssayByAlphaIn binary64 (Dbl.ofRatio 5 4))^[n]
      (Dbl.finite false (2 ^ 53 - 2) (-53))) (Dbl.finite false (2 ^ 53 - 1) (-53)) = true) ∧
    (∀ fuel r, FindNStages binary64 fuel (Dbl.ofRatio 5 4) (Dbl.finite false (2 ^ 53 - 2) (-53))
      (Dbl.finite false (2 ^ 53 - 1) (-53)) (Dbl.ofRatio 1 4) ≠ Outcome.done r) := by
  have hfix : ProductAssayByAlphaIn binary64 (Dbl.ofRatio 5 4)
      (Dbl.finite false (2 ^ 53 - 2) (-53)) = Dbl.finite false (2 ^ 53 - 2) (-53) := by
    decide!
  have hall : ∀ n, binary64.lt ((ProductAssayByAlphaIn binary64 (Dbl.ofRatio 5 4))^[n]
      (Dbl.finite false (2 ^ 53 - 2) (-53))) (Dbl.finite false (2 ^ 53 - 1) (-53)) = true := by
    intro n
    apply test_of_fixed (ProductAssayByAlphaIn binary64 (Dbl.ofRatio 5 4))
      (fun x => binary64.lt x (Dbl.finite false (2 ^ 53 - 1) (-53))) _ 0 hfix
    intro j hj
    obtain rfl : j = 0 := by omega
    decide!
  have hexact : (3 / 8 : ℚ) ≤ ProductAssayByAlpha 9 (1 / 16) := by
    unfold ProductAssayByAlpha
    norm_num
  refine ⟨hexact, by decide!, by decide!, by decide!, by decide!, by decide!, by decide!,
    by decide!, hfix, hall, ?_⟩
  intro fuel r
  exact FindNStages_not_done_of_enrich binary64 _ _ _ _ hall fuel r

/-- C2, amended: in every arithmetic and for every input, the enriching-stage count of
a result of `FindNStages` is the least `n` such that `n` applications of
`ProductAssayByAlpha` to the feed assay give an assay that is not below the product
target (with one stage fewer it is below). The enriching loop exits with this count
once such an `n` exists and fits in an `int`, and `FindNStages` returns it once the
stripping loop has its least index too. -/
theorem C2_enrich_count_is_least {D : Type} (A : Arith D) (alpha f p w : D) :
    (∀ fuel r, FindNStages A fuel alpha f p w = Outcome.done r →
      ∃ n : Nat, r.1 = (n : Int) ∧
        IsLeast {j | A.lt ((ProductAssayByAlphaIn A alpha)^[j] f) p = false} n) ∧
    (∀ n : Nat, IsLeast {j | A.lt ((ProductAssayByAlphaIn A alpha)^[j] f) p = false} n →
      (n : Int) ≤ INT_MAX → ∀ fuel, n < fuel →
        ∃ s, enrichLoop A alpha p fuel
          { ideal_enrich_stage := 0
            ideal_strip_stage := 0
            stage_feed_assay := f
            stage_product_assay := f
            stage_waste_assay := f } = Outcome.done s ∧ s.ideal_enrich_stage = (n : Int)) ∧
    (∀ n k : Nat, IsLeast {j | A.lt ((ProductAssayByAlphaIn A alpha)^[j] f) p = false} n →
      IsLeast {j | A.lt w ((WasteAssayByAlphaIn A alpha)^[j]
        (if A.lt f p then WasteAssayByAlphaIn A alpha f else f)) = false} k →
      (n : Int) ≤ INT_MAX → (k : Int) ≤ INT_MAX → ∀ fuel, n < fuel → k < fuel →
        FindNStages A fuel alpha f p w = Outcome.done ((n : Int), (k : Int))) := by
  refine ⟨?_, ?_, ?_⟩
  · intro fuel r hr
    obtain ⟨n, k, rfl, hn, _⟩ := (FindNStages_done_iff A fuel alpha f p w r).mp hr
    exact ⟨n, rfl, (firstFalse_iff_isLeast _ n).mp hn⟩
  · intro n hn hb fuel hfuel
    have hn' := (firstFalse_iff_isLeast _ n).mpr hn
    obtain ⟨s, hs⟩ := enrichLoop_exit A alpha p n fuel
      { ideal_enrich_stage := 0
        ideal_strip_stage := 0
        stage_feed_assay := f
        stage_product_assay := f
        stage_waste_assay := f } rfl hn'.1 (by simpa using hb) hfuel
    obtain ⟨m, e1, _, e3, _⟩ := enrichLoop_sound A alpha p fuel _ s rfl le_rfl hs
    have hmn : m = n := firstFalse_unique e1 hn'
    refine ⟨s, hs, ?_⟩
    rw [e3, hmn]
    simp
  · intro n k hn hk hnb hkb fuel hnf hkf
    exact (FindNStages_done_iff A fuel alpha f p w _).mpr
      ⟨n, k, rfl, (firstFalse_iff_isLeast _ n).mpr hn, (firstFalse_iff_isLeast _ k).mpr hk,
        hnb, hkb, hnf, hkf⟩

/-- The amended C2 in double arithmetic at `alpha = 1.2`, feed `0.0071`, product target
`0.05`, waste target `0.0025`, where `FindNStages` returns `11` enriching and `5`
stripping stages. -/
theorem C2_enrich_count_is_least_witness :
    FindNStages binary64 12 (Dbl.ofRatio 12 10) (Dbl.ofRatio 71 10000) (Dbl.ofRatio 5 100)
      (Dbl.ofRatio 25 10000) = Outcome.done (11, 5) ∧
    ∃ n : Nat, (11 : Int) = (n : Int) ∧
      IsLeast {j | binary64.lt ((ProductAssayByAlphaIn binary64 (Dbl.ofRatio 12 10))^[j]
        (Dbl.ofRatio 71 10000)) (Dbl.ofRatio 5 100) = false} n :=
  have h : FindNStages binary64 12 (Dbl.ofRatio 12 10) (Dbl.ofRatio 71 10000)
      (Dbl.ofRatio 5 100) (Dbl.ofRatio 25 10000) = Outcome.done (11, 5) := by decide!
  ⟨h, (C2_enrich_count_is_least binary64 (Dbl.ofRatio 12 10) (Dbl.ofRatio 71 10000)
    (Dbl.ofRatio 5 100) (Dbl.ofRatio 25 10000)).1 12 (11, 5) h⟩

/-- C3 fails as stated, in double arithmetic, at inputs inside its hypotheses. At
`alpha = 9`, `f = 0.5625`, `p = 0.75`, `w = 0.125` the tail assay of the feed stage is
exactly `w` in exact arithmetic, so the least number of further applications is `0`, but
the doubles round the tail assay above `w` and `FindNStages` returns `1` stripping stage.
At `alpha = 1 + 2^-52`, `f = 0.5`, `p = 0.5 + 2^-53` and `w = 0.25` one enriching stage
reaches `p`, the tail assay of the feed stage is `0.5 - 2^-54`, and a stripping stage gives
this assay again, so the stripping chain never comes down to `w`, there is no least
number of applications, and `FindNStages` returns no count, whatever the fuel. -/
theorem C3_counterexample :
    WasteAssayByAlpha 9 (9 / 16) ≤ (1 / 8 : ℚ) ∧
    Dbl.lt (Dbl.ofRatio 1 8) (WasteAssayByAlphaIn binary64 (Dbl.ofInt 9) (Dbl.ofRatio 9 16))
      = true ∧
    FindNStages binary64 3 (Dbl.ofInt 9) (Dbl.ofRatio 9 16) (Dbl.ofRatio 3 4) (Dbl.ofRatio 1 8)
      = Outcome.done (1, 1) ∧
    Dbl.lt (Dbl.ofInt 1) (Dbl.finite false (2 ^ 52 + 1) (-52)) = true ∧
    Dbl.lt (Dbl.ofInt 0) (Dbl.ofRatio 1 4) = true ∧
    Dbl.lt (Dbl.ofRatio 1 4) (Dbl.ofInt 1) = true ∧
    Dbl.lt (Dbl.ofInt 0) (Dbl.ofRatio 1 2) = true ∧
    Dbl.lt (Dbl.ofRatio 1 2) (Dbl.finite false (2 ^ 52 + 1) (-53)) = true ∧
    Dbl.lt (Dbl.finite false (2 ^ 52 + 1) (-53)) (Dbl.ofInt 1) = true ∧
    Dbl.lt (ProductAssayByAlphaIn binary64 (Dbl.finite false (2 ^ 52 + 1) (-52)) (Dbl.ofRatio 1 2))
      (Dbl.finite false (2 ^ 52 + 1) (-53)) = false ∧
    WasteAssayByAlphaIn binary64 (Dbl.finite false (2 ^ 52 + 1) (-52)) (Dbl.ofRatio 1 2)
      = Dbl.finite false (2 ^ 53 - 1) (-54) ∧
    WasteAssayByAlphaIn binary64 (Dbl.finite false (2 ^ 52 + 1) (-52))
      (Dbl.finite false (2 ^ 53 - 1) (-54)) = Dbl.finite false (2 ^ 53 - 1) (-54) ∧
    (∀ n, binary64.lt (Dbl.ofRatio 1 4)
      ((WasteAssayByAlphaIn binary64 (Dbl.finite false (2 ^ 52 + 1) (-52)))^[n]
        (WasteAssayByAlphaIn binary64 (Dbl.finite false (2 ^ 52 + 1) (-52)) (Dbl.ofRatio 1 2)))
      = true) ∧
    (∀ fuel r, FindNStages binary64 fuel (Dbl.finite false (2 ^ 52 + 1) (-52)) (Dbl.ofRatio 1 2)
      (Dbl.finite false (2 ^ 52 + 1) (-53)) (Dbl.ofRatio 1 4) ≠ Outcome.done r) := by
  have hx : WasteAssayByAlphaIn binary64 (Dbl.finite false (2 ^ 52 + 1) (-52)) (Dbl.ofRatio 1 2)
      = Dbl.finite false (2 ^ 53 - 1) (-54) := by decide!
  have hfix : WasteAssayByAlphaIn binary64 (Dbl.finite false (2 ^ 52 + 1) (-52))
      (Dbl.finite false (2 ^ 53 - 1) (-54)) = Dbl.finite false (2 ^ 53 - 1) (-54) := by decide!
  have hfp : binary64.lt (Dbl.ofRatio 1 2) (Dbl.finite false (2 ^ 52 + 1) (-53)) = true := by
    decide!
  have hall : ∀ n, binary64.lt (Dbl.ofRatio 1 4)
      ((WasteAssayByAlphaIn binary64 (Dbl.finite false (2 ^ 52 + 1) (-52)))^[n]
        (WasteAssayByAlphaIn binary64 (Dbl.finite false (2 ^ 52 + 1) (-52)) (Dbl.ofRatio 1 2)))
      = true := by
    intro n
    rw [hx]
    apply test_of_fixed (WasteAssayByAlphaIn binary64 (Dbl.finite false (2 ^ 52 + 1) (-52)))
      (fun x => binary64.lt (Dbl.ofRatio 1 4) x) _ 0 hfix
    intro j hj
    obtain rfl : j = 0 := by omega
    decide!
  have hexact : WasteAssayByAlpha 9 (9 / 16) ≤ (1 / 8 : ℚ) := by
    unfold WasteAssayByAlpha
    norm_num
  refine ⟨hexact, by decide!, by decide!, by decide!, by decide!, by decide!, by decide!, hfp,
    by decide!, by decide!, hx, hfix, hall, ?_⟩
  intro fuel r
  apply FindNStages_not_done_of_strip
  intro n
  rw [if_pos hfp]
  exact hall n

/-- C3, amended: in every arithmetic, for a feed assay below the product target (so that
at least one enriching stage is built), the stripping-stage count of a result of
`FindNStages` is the least `n` such that `n` further applications of `WasteAssayByAlpha`
to the tail assay of the feed stage give an assay that is not above the waste target.
`FindNStages` returns this count once both loops have such a least index that fits in
an `int`. -/
theorem C3_strip_count_is_least {D : Type} (A : Arith D) (alpha f p w : D)
    (hfp : A.lt f p = true) :
    (∀ fuel r, FindNStages A fuel alpha f p w = Outcome.done r →
      ∃ k : Nat, r.2 = (k : Int) ∧
        IsLeast {j | A.lt w ((WasteAssayByAlphaIn A alpha)^[j]
          (WasteAssayByAlphaIn A alpha f)) = false} k) ∧
    (∀ n k : Nat, IsLeast {j | A.lt ((ProductAssayByAlphaIn A alpha)^[j] f) p = false} n →
      IsLeast {j | A.lt w ((WasteAssayByAlphaIn A alpha)^[j]
        (WasteAssayByAlphaIn A alpha f)) = false} k →
      (n : Int) ≤ INT_MAX → (k : Int) ≤ INT_MAX → ∀ fuel, n < fuel → k < fuel →
        FindNStages A fuel alpha f p w = Outcome.done ((n : Int), (k : Int))) := by
  have hx : (if A.lt f p = true then WasteAssayByAlphaIn A alpha f else f)
      = WasteAssayByAlphaIn A alpha f := if_pos hfp
  refine ⟨?_, ?_⟩
  · intro fuel r hr
    obtain ⟨n, k, rfl, _, hk, _⟩ := (FindNStages_done_iff A fuel alpha f p w r).mp hr
    rw [hx] at hk
    exact ⟨k, rfl, (firstFalse_iff_isLeast _ k).mp hk⟩
  · intro n k hn hk hnb hkb fuel hnf hkf
    refine (FindNStages_done_iff A fuel alpha f p w _).mpr
      ⟨n, k, rfl, (firstFalse_iff_isLeast _ n).mpr hn, ?_, hnb, hkb, hnf, hkf⟩
    rw [hx]
    exact (firstFalse_iff_isLeast _ k).mpr hk

/-- The amended C3 in double arithmetic at `alpha = 1.2`, feed `0.0071`, product target
`0.05`, waste target `0.0025`, where `FindNStages` returns `11` enriching and `5`
stripping stages. -/
theorem C3_strip_count_is_least_witness :
    binary64.lt (Dbl.ofRatio 71 10000) (Dbl.ofRatio 5 100) = true ∧
    FindNStages binary64 12 (Dbl.ofRatio 12 10) (Dbl.ofRatio 71 10000) (Dbl.ofRatio 5 100)
      (Dbl.ofRatio 25 10000) = Outcome.done (11, 5) ∧
    ∃ k : Nat, (5 : Int) = (k : Int) ∧
      IsLeast {j | binary64.lt (Dbl.ofRatio 25 10000)
        ((WasteAssayByAlphaIn binary64 (Dbl.ofRatio 12 10))^[j]
          (WasteAssayByAlphaIn binary64 (Dbl.ofRatio 12 10) (Dbl.ofRatio 71 10000))) = false} k :=
  have h : FindNStages binary64 12 (Dbl.ofRatio 12 10) (Dbl.ofRatio 71 10000)
      (Dbl.ofRatio 5 100) (Dbl.ofRatio 25 10000) = Outcome.done (11, 5) := by decide!
  ⟨by decide!, h, (C3_strip_count_is_least binary64 (Dbl.ofRatio 12 10) (Dbl.ofRatio 71 10000)
    (Dbl.ofRatio 5 100) (Dbl.ofRatio 25 10000) (by decide!)).1 12 (11, 5) h⟩

/-- C4: mass balance of the flow system. For `n_enrich >= 1`, every vector `F` that
solves the system assembled by `CalcFeedFlows` satisfies
`cut * F[top] + (1 - cut) * F[bottom] = cascade_feed`, the top stage being the last
equation and the bottom stage the first one; such a system is assembled whenever the
cascade has at most `max_stages` stages. -/
theorem C4_mass_balance (eqns0 flows0 : Nat → ℚ) (n_enrich n_strip : Nat)
    (cut cascade_feed : ℚ) (hne : 1 ≤ n_enrich) :
    (∀ s, assembleSystem eqns0 flows0 ((n_enrich : ℚ), (n_strip : ℚ)) cascade_feed cut = some s →
      ∀ F, Solves s F →
        cut * F (n_enrich + n_strip - 1) + (1 - cut) * F 0 = cascade_feed) ∧
    (n_enrich + n_strip ≤ max_stages →
      ∃ s, assembleSystem eqns0 flows0 ((n_enrich : ℚ), (n_strip : ℚ)) cascade_feed cut
        = some s) := by
  constructor
  · intro s h F hF
    rw [solves_iff eqns0 flows0 n_enrich n_strip cascade_feed cut s h] at hF
    obtain ⟨m, hm⟩ : ∃ m, n_enrich + n_strip = m + 1 := ⟨n_enrich + n_strip - 1, by omega⟩
    rw [hm] at hF
    have hsum := Finset.sum_congr (rfl : Finset.range (m + 1) = Finset.range (m + 1))
      (fun i hi => hF i (Finset.mem_range.mp hi))
    rw [tridiag_total cut F m, Finset.sum_ite_eq',
      if_pos (Finset.mem_range.mpr (by omega))] at hsum
    rw [hm, Nat.add_sub_cancel]
    linarith
  · intro hn
    obtain ⟨s, h1, _⟩ := assembleSystem_spec eqns0 flows0 n_enrich n_strip cascade_feed cut hn
    exact ⟨s, h1⟩

/-- Witness of C4 at `n_enrich = 1`, `n_strip = 1`, `cut = 1/2`, `cascade_feed = 3`. -/
theorem C4_mass_balance_witness :
    (∀ s, assembleSystem (fun _ => 0) (fun _ => 0) (((1 : Nat) : ℚ), ((1 : Nat) : ℚ)) 3 (1 / 2)
        = some s →
      ∀ F, Solves s F → (1 / 2 : ℚ) * F (1 + 1 - 1) + (1 - 1 / 2) * F 0 = 3) ∧
    (1 + 1 ≤ max_stages →
      ∃ s, assembleSystem (fun _ => 0) (fun _ => 0) (((1 : Nat) : ℚ), ((1 : Nat) : ℚ)) 3 (1 / 2)
        = some s) :=
  C4_mass_balance (fun _ => 0) (fun _ => 0) 1 1 (1 / 2) 3 (le_refl 1)

/-- C5 fails as stated, at `n_enrich = 1`, `n_strip = 1`, `cut = 1/4`: in the equation
of the stripping stage (equation 0) the coefficient of the flow of the stage above
(unknown 1) is `3/4 = 1 - cut`, not `cut`, and in the equation of the feed stage
(equation 1) the coefficient of the flow of the stage below (unknown 0) is `1/4 = cut`,
not `1 - cut`. -/
theorem C5_counterexample :
    ∃ s, assembleSystem (fun _ => 0) (fun _ => 0) (((1 : Nat) : ℚ), ((1 : Nat) : ℚ)) 1 (1 / 4)
        = some s ∧
      eqnAt s 1 0 = 3 / 4 ∧ eqnAt s 1 0 ≠ 1 / 4 ∧
      eqnAt s 0 1 = 1 / 4 ∧ eqnAt s 0 1 ≠ 1 - 1 / 4 := by
  obtain ⟨s, h1, _, _, _, _, h6, _⟩ :=
    assembleSystem_spec (fun _ => 0) (fun _ => 0) 1 1 1 (1 / 4) (by unfold max_stages; omega)
  have e10 : eqnAt s 1 0 = 3 / 4 := by
    rw [h6 1 0 (by unfold max_stages; omega) (by unfold max_stages; omega)]
    norm_num
  have e01 : eqnAt s 0 1 = 1 / 4 := by
    rw [h6 0 1 (by unfold max_stages; omega) (by unfold max_stages; omega)]
    norm_num
  refine ⟨s, h1, e10, ?_, e01, ?_⟩
  · rw [e10]
    norm_num
  · rw [e01]
    norm_num

/-- C5, amended: in every system assembled by `CalcFeedFlows`, equation `i` has
coefficient `-1` on the stage's own flow (unknown `i`), `cut` on the flow of the stage
below (unknown `i - 1`) and `1 - cut` on the flow of the stage above (unknown `i + 1`,
present only if it is one of the `n_enrich + n_strip` stages); every other coefficient
of the equation, in all `max_stages` columns, is `0`. Such a system is assembled
whenever the cascade has at most `max_stages` stages. -/
theorem C5_coefficients (eqns0 flows0 : Nat → ℚ) (n_enrich n_strip : Nat)
    (cut cascade_feed : ℚ) :
    (∀ s, assembleSystem eqns0 flows0 ((n_enrich : ℚ), (n_strip : ℚ)) cascade_feed cut = some s →
      ∀ i j, i < n_enrich + n_strip → j < max_stages →
        eqnAt s j i =
          if j = i then -1 else if j + 1 = i then cut
          else if j = i + 1 ∧ j < n_enrich + n_strip then 1 - cut else 0) ∧
    (n_enrich + n_strip ≤ max_stages →
      ∃ s, assembleSystem eqns0 flows0 ((n_enrich : ℚ), (n_strip : ℚ)) cascade_feed cut
        = some s) := by
  constructor
  · intro s h i j hi hj
    obtain ⟨hn, _, h6, _⟩ :=
      assembleSystem_some eqns0 flows0 n_enrich n_strip cascade_feed cut s h
    rw [h6 j i hj (by omega), if_pos hi]
    by_cases h1 : j = i
    · rw [if_pos h1, if_pos h1]
    · rw [if_neg h1, if_neg h1]
      by_cases h2 : j + 1 = i
      · rw [if_pos h2, if_pos h2]
      · rw [if_neg h2, if_neg h2]
        by_cases h3 : j = i + 1 ∧ i + 1 ≠ n_enrich + n_strip
        · rw [if_pos h3, if_pos ⟨h3.1, by omega⟩]
        · rw [if_neg h3, if_neg (fun hh => h3 ⟨hh.1, by omega⟩)]
  · intro hn
    obtain ⟨s, h1, _⟩ := assembleSystem_spec eqns0 flows0 n_enrich n_strip cascade_feed cut hn
    exact ⟨s, h1⟩

/-- Witness of the amended C5 at `n_enrich = 2`, `n_strip = 1`, `cut = 1/4`. -/
theorem C5_coefficients_witness :
    (∀ s, assembleSystem (fun _ => 0) (fun _ => 0) (((2 : Nat) : ℚ), ((1 : Nat) : ℚ)) 5 (1 / 4)
        = some s →
      ∀ i j, i < 2 + 1 → j < max_stages →
        eqnAt s j i =
          if j = i then -1 else if j + 1 = i then 1 / 4
          else if j = i + 1 ∧ j < 2 + 1 then 1 - 1 / 4 else 0) ∧
    (2 + 1 ≤ max_stages →
      ∃ s, assembleSystem (fun _ => 0) (fun _ => 0) (((2 : Nat) : ℚ), ((1 : Nat) : ℚ)) 5 (1 / 4)
        = some s) :=
  C5_coefficients (fun _ => 0) (fun _ => 0) 2 1 (1 / 4) 5

/-- C6 fails as stated, at `n_enrich = 0`, `n_strip = 1`, `cascade_feed = 1`: the system
has one equation and the right-hand side is `0` in every cell of the array, so no
equation carries `-cascade_feed = -1`. -/
theorem C6_counterexample :
    ∃ s, assembleSystem (fun _ => 0) (fun _ => 0) (((0 : Nat) : ℚ), ((1 : Nat) : ℚ)) 1 (1 / 2)
        = some s ∧
      s.n_stages = 1 ∧ (∀ i, i < max_stages → flowAt s i = 0) ∧ flowAt s 1 ≠ -1 := by
  obtain ⟨s, h1, _, _, _, h5, _, h7⟩ :=
    assembleSystem_spec (fun _ => 0) (fun _ => 0) 0 1 1 (1 / 2) (by unfold max_stages; omega)
  have hz : ∀ i, i < max_stages → flowAt s i = 0 := by
    intro i hi
    rw [h7 i hi, if_neg (by omega)]
  refine ⟨s, h1, by simpa using h5, hz, ?_⟩
  rw [hz 1 (by unfold max_stages; omega)]
  norm_num

/-- C6, amended: in every system assembled by `CalcFeedFlows`, if `n_enrich >= 1` then
equation `n_strip` is one of the equations, its right-hand side is `-cascade_feed` and
the right-hand side of every other equation is `0`; if `n_enrich = 0` the right-hand
side of every equation is `0`. Such a system is assembled whenever the cascade has at
most `max_stages` stages. -/
theorem C6_right_hand_side (eqns0 flows0 : Nat → ℚ) (n_enrich n_strip : Nat)
    (cut cascade_feed : ℚ) :
    (∀ s, assembleSystem eqns0 flows0 ((n_enrich : ℚ), (n_strip : ℚ)) cascade_feed cut = some s →
      (1 ≤ n_enrich →
        n_strip < n_enrich + n_strip ∧ flowAt s n_strip = -1 * cascade_feed ∧
        ∀ i, i < n_enrich + n_strip → i ≠ n_strip → flowAt s i = 0) ∧
      (n_enrich = 0 → ∀ i, i < n_enrich + n_strip → flowAt s i = 0)) ∧
    (n_enrich + n_strip ≤ max_stages →
      ∃ s, assembleSystem eqns0 flows0 ((n_enrich : ℚ), (n_strip : ℚ)) cascade_feed cut
        = some s) := by
  constructor
  · intro s h
    obtain ⟨hn, _, _, h7⟩ :=
      assembleSystem_some eqns0 flows0 n_enrich n_strip cascade_feed cut s h
    constructor
    · intro hne
      refine ⟨by omega, ?_, ?_⟩
      · rw [h7 n_strip (by omega), if_pos ⟨by omega, rfl⟩]
      · intro i hi hne'
        rw [h7 i (by omega), if_neg (fun hh => hne' hh.2)]
    · intro h0 i hi
      rw [h7 i (by omega), if_neg (by omega)]
  · intro hn
    obtain ⟨s, h1, _⟩ := assembleSystem_spec eqns0 flows0 n_enrich n_strip cascade_feed cut hn
    exact ⟨s, h1⟩

/-- Witness of the amended C6 at `n_enrich = 2`, `n_strip = 1`, `cascade_feed = 5`. -/
theorem C6_right_hand_side_witness :
    (∀ s, assembleSystem (fun _ => 0) (fun _ => 0) (((2 : Nat) : ℚ), ((1 : Nat) : ℚ)) 5 (1 / 4)
        = some s →
      (1 ≤ 2 →
        1 < 2 + 1 ∧ flowAt s 1 = -1 * 5 ∧
        ∀ i, i < 2 + 1 → i ≠ 1 → flowAt s i = 0) ∧
      (2 = 0 → ∀ i, i < 2 + 1 → flowAt s i = 0)) ∧
    (2 + 1 ≤ max_stages →
      ∃ s, assembleSystem (fun _ => 0) (fun _ => 0) (((2 : Nat) : ℚ), ((1 : Nat) : ℚ)) 5 (1 / 4)
        = some s) :=
  C6_right_hand_side (fun _ => 0) (fun _ => 0) 2 1 (1 / 4) 5

/-- C7 fails as stated, at `n_enrich = 1`, `n_strip = 0`: whatever the solver does, the
system has size `1` and the returned vector has `1` entry, not `1 + 0 + 1 = 2`. -/
theorem C7_counterexample :
    ∃ s, assembleSystem (fun _ => 0) (fun _ => 0) (((1 : Nat) : ℚ), ((0 : Nat) : ℚ)) 1 (1 / 2)
        = some s ∧
      s.n_stages = 1 ∧
      ∀ dgesv : Int → Int → List ℚ → Int → List ℚ → Int → Int × List ℚ,
        ∃ o, CalcFeedFlows dgesv (fun _ => 0) (fun _ => 0) (((1 : Nat) : ℚ), ((0 : Nat) : ℚ)) 1
            (1 / 2) = some o ∧
          o.final_flows.length = 1 ∧ o.final_flows.length ≠ 1 + 0 + 1 := by
  obtain ⟨s, h1, _⟩ :=
    assembleSystem_spec (fun _ => 0) (fun _ => 0) 1 0 1 (1 / 2) (by unfold max_stages; omega)
  obtain ⟨_, h5, _⟩ := assembleSystem_some _ _ 1 0 1 (1 / 2) s h1
  refine ⟨s, h1, by simpa using h5, ?_⟩
  intro dgesv
  obtain ⟨s', _, h2⟩ :=
    CalcFeedFlows_eq dgesv (fun _ => 0) (fun _ => 0) 1 0 1 (1 / 2) (by unfold max_stages; omega)
  refine ⟨_, h2, ?_, ?_⟩ <;> simp

/-- C7, amended: `CalcFeedFlows` builds one equation per stage of the index range
`[-n_strip, n_enrich - 1]` and returns one flow per stage: for whole stage counts with
`n_enrich + n_strip <= max_stages` the system has size `n_enrich + n_strip` and the
returned vector has exactly `n_enrich + n_strip` entries, whatever the solver does; with
more than `max_stages` stages the assembly leaves the arrays and nothing is returned. -/
theorem C7_one_flow_per_stage
    (dgesv : Int → Int → List ℚ → Int → List ℚ → Int → Int × List ℚ)
    (eqns0 flows0 : Nat → ℚ) (n_enrich n_strip : Nat) (cut cascade_feed : ℚ) :
    (n_enrich + n_strip ≤ max_stages →
      ∃ s o, assembleSystem eqns0 flows0 ((n_enrich : ℚ), (n_strip : ℚ)) cascade_feed cut
          = some s ∧
        CalcFeedFlows dgesv eqns0 flows0 ((n_enrich : ℚ), (n_strip : ℚ)) cascade_feed cut
          = some o ∧
        s.n_stages = ((n_enrich + n_strip : Nat) : Int) ∧
        o.final_flows.length = n_enrich + n_strip) ∧
    (max_stages < n_enrich + n_strip →
      CalcFeedFlows dgesv eqns0 flows0 ((n_enrich : ℚ), (n_strip : ℚ)) cascade_feed cut
        = none) := by
  constructor
  · intro hn
    obtain ⟨s, h1, h2⟩ :=
      CalcFeedFlows_eq dgesv eqns0 flows0 n_enrich n_strip cascade_feed cut hn
    obtain ⟨_, h5, _⟩ := assembleSystem_some _ _ n_enrich n_strip cascade_feed cut s h1
    refine ⟨s, _, h1, h2, h5, ?_⟩
    simp
  · intro hn
    unfold CalcFeedFlows
    rw [assembleSystem_none eqns0 flows0 n_enrich n_strip cascade_feed cut hn]

/-- Witness of the amended C7 at `n_enrich = 2`, `n_strip = 1` with a solver that
reports `info = 0` and leaves the right-hand side as it is. -/
theorem C7_one_flow_per_stage_witness :
    (2 + 1 ≤ max_stages →
      ∃ s o, assembleSystem (fun _ => 0) (fun _ => 0) (((2 : Nat) : ℚ), ((1 : Nat) : ℚ)) 5 (1 / 4)
          = some s ∧
        CalcFeedFlows (fun _ _ _ _ b _ => (0, b)) (fun _ => 0) (fun _ => 0)
          (((2 : Nat) : ℚ), ((1 : Nat) : ℚ)) 5 (1 / 4) = some o ∧
        s.n_stages = ((2 + 1 : Nat) : Int) ∧
        o.final_flows.length = 2 + 1) ∧
    (max_stages < 2 + 1 →
      CalcFeedFlows (fun _ _ _ _ b _ => (0, b)) (fun _ => 0) (fun _ => 0)
        (((2 : Nat) : ℚ), ((1 : Nat) : ℚ)) 5 (1 / 4) = none) :=
  C7_one_flow_per_stage (fun _ _ _ _ b _ => (0, b)) (fun _ => 0) (fun _ => 0) 2 1 (1 / 4) 5

/-- C8 fails as stated, at `n_enrich = 1`, `n_strip = 1`, `cut = 1/2`,
`cascade_feed = 3`: the flow of the feed stage (row `n_strip = 1`) is `4` in every
solution of the assembled system, and with a solver that reports `info = 0` and
delivers the solution `[2, 4]` the vector returned by `CalcFeedFlows` has `4`, not `3`,
at the feed stage. -/
theorem C8_counterexample :
    ∃ s o, assembleSystem (fun _ => 0) (fun _ => 0) (((1 : Nat) : ℚ), ((1 : Nat) : ℚ)) 3 (1 / 2)
        = some s ∧
      (∀ F, Solves s F → F 1 = 4) ∧
      Solves s (fun i => [(2 : ℚ), 4].getD i 0) ∧
      CalcFeedFlows (fun _ _ _ _ _ _ => (0, [2, 4])) (fun _ => 0) (fun _ => 0)
        (((1 : Nat) : ℚ), ((1 : Nat) : ℚ)) 3 (1 / 2) = some o ∧
      o.info = 0 ∧ o.final_flows = [2, 4] ∧ o.final_flows.getD 1 0 ≠ 3 := by
  obtain ⟨s, h1, h2⟩ :=
    CalcFeedFlows_eq (fun _ _ _ _ _ _ => (0, [2, 4])) (fun _ => 0) (fun _ => 0) 1 1 3 (1 / 2)
      (by unfold max_stages; omega)
  refine ⟨s, _, h1, ?_, ?_, h2, rfl, ?_, ?_⟩
  · intro F hF
    rw [solves_iff _ _ 1 1 3 (1 / 2) s h1] at hF
    have e0 := hF 0 (by omega)
    have e1 := hF 1 (by omega)
    norm_num at e0 e1
    linarith
  · rw [solves_iff _ _ 1 1 3 (1 / 2) s h1]
    intro i hi
    have : i = 0 ∨ i = 1 := by omega
    rcases this with rfl | rfl <;> norm_num
  · simp [List.range_succ]
  · simp [List.range_succ]

/-- C8, amended: for `n_enrich >= 1`, at most `max_stages` stages and `0 < cut < 1`,
`CalcFeedFlows` returns a vector; when that vector solves the assembled system (which is
what the solver delivers with `info = 0`), the flow it holds for the feed stage (row
`n_strip`) is the cascade feed plus the recycled flows `cut * F[n_strip - 1]` from the
stage below and `(1 - cut) * F[n_strip + 1]` from the stage above (each taken when that
stage exists). It equals the cascade feed in the cascade made of the feed stage alone
(`n_enrich = 1`, `n_strip = 0`). -/
theorem C8_feed_stage_flow
    (dgesv : Int → Int → List ℚ → Int → List ℚ → Int → Int × List ℚ)
    (eqns0 flows0 : Nat → ℚ) (n_enrich n_strip : Nat) (cut cascade_feed : ℚ)
    (hne : 1 ≤ n_enrich) (hn : n_enrich + n_strip ≤ max_stages) (_hcut0 : 0 < cut)
    (_hcut1 : cut < 1) :
    ∃ s o, assembleSystem eqns0 flows0 ((n_enrich : ℚ), (n_strip : ℚ)) cascade_feed cut
        = some s ∧
      CalcFeedFlows dgesv eqns0 flows0 ((n_enrich : ℚ), (n_strip : ℚ)) cascade_feed cut
        = some o ∧
      (Solves s (fun i => o.final_flows.getD i 0) →
        o.final_flows.getD n_strip 0
          = cascade_feed
            + (if 0 < n_strip then cut * o.final_flows.getD (n_strip - 1) 0 else 0)
            + (if n_strip + 1 < n_enrich + n_strip
                then (1 - cut) * o.final_flows.getD (n_strip + 1) 0 else 0) ∧
        (n_enrich = 1 → n_strip = 0 → o.final_flows.getD 0 0 = cascade_feed)) := by
  obtain ⟨s, h1, h2⟩ :=
    CalcFeedFlows_eq dgesv eqns0 flows0 n_enrich n_strip cascade_feed cut hn
  refine ⟨s, _, h1, h2, ?_⟩
  intro hF
  rw [solves_iff eqns0 flows0 n_enrich n_strip cascade_feed cut s h1] at hF
  have e := hF n_strip (by omega)
  rw [if_pos rfl] at e
  have key : ∀ (x a b : ℚ), a - x + b = -1 * cascade_feed → x = cascade_feed + a + b := by
    intro x a b hx
    linarith
  have e' := key _ _ _ e
  refine ⟨e', ?_⟩
  intro h1e h0
  subst h0
  subst h1e
  simpa using e'

/-- Witness of the amended C8 at `n_enrich = 1`, `n_strip = 1`, `cut = 1/2`,
`cascade_feed = 3`, with a solver that delivers the solution `[2, 4]`: the returned
vector solves the system and `4 = 3 + 1/2 * 2`. -/
theorem C8_feed_stage_flow_witness :
    ∃ s o, assembleSystem (fun _ => 0) (fun _ => 0) (((1 : Nat) : ℚ), ((1 : Nat) : ℚ)) 3 (1 / 2)
        = some s ∧
      CalcFeedFlows (fun _ _ _ _ _ _ => (0, [2, 4])) (fun _ => 0) (fun _ => 0)
        (((1 : Nat) : ℚ), ((1 : Nat) : ℚ)) 3 (1 / 2) = some o ∧
      o.final_flows = [2, 4] ∧
      Solves s (fun i => o.final_flows.getD i 0) ∧
      o.final_flows.getD 1 0
        = 3 + (if 0 < 1 then (1 / 2 : ℚ) * o.final_flows.getD (1 - 1) 0 else 0)
          + (if 1 + 1 < 1 + 1 then (1 - 1 / 2 : ℚ) * o.final_flows.getD (1 + 1) 0 else 0) := by
  obtain ⟨s, o, h1, h2, h3⟩ :=
    C8_feed_stage_flow (fun _ _ _ _ _ _ => (0, [2, 4])) (fun _ => 0) (fun _ => 0) 1 1 (1 / 2) 3
      (le_refl 1) (by unfold max_stages; omega) (by norm_num) (by norm_num)
  obtain ⟨s', h1', h2'⟩ :=
    CalcFeedFlows_eq (fun _ _ _ _ _ _ => (0, [2, 4])) (fun _ => 0) (fun _ => 0) 1 1 3 (1 / 2)
      (by unfold max_stages; omega)
  have ho : o.final_flows = [2, 4] := by
    have := Option.some.inj (h2.symm.trans h2')
    rw [this]
    simp [List.range_succ]
  have hsolves : Solves s (fun i => o.final_flows.getD i 0) := by
    rw [ho, solves_iff _ _ 1 1 3 (1 / 2) s h1]
    intro i hi
    have : i = 0 ∨ i = 1 := by omega
    rcases this with rfl | rfl <;> norm_num
  exact ⟨s, o, h1, h2, ho, hsolves, (h3 hsolves).1⟩

/-- C9 fails as stated, at `n_enrich = 1`, `n_strip = 0`, `cascade_feed = 5` with a
solver that reports `info = 1` (singular system) and leaves the right-hand side as it
is: `CalcFeedFlows` writes the error message and still returns a vector, `[-5]`. -/
theorem C9_counterexample :
    ∃ o, CalcFeedFlows (fun _ _ _ _ b _ => (1, b)) (fun _ => 0) (fun _ => 0)
        (((1 : Nat) : ℚ), ((0 : Nat) : ℚ)) 5 (1 / 4) = some o ∧
      o.info = 1 ∧ o.info ≠ 0 ∧ o.cerr = some 1 ∧ o.final_flows = [-5] := by
  obtain ⟨s, h1, h2⟩ :=
    CalcFeedFlows_eq (fun _ _ _ _ b _ => (1, b)) (fun _ => 0) (fun _ => 0) 1 0 5 (1 / 4)
      (by unfold max_stages; omega)
  obtain ⟨_, _, _, h7⟩ := assembleSystem_some _ _ 1 0 5 (1 / 4) s h1
  have h70 : s.flows.getD 0 0 = -5 := by
    have := h7 0 (by unfold max_stages; omega)
    unfold flowAt at this
    rw [this]
    norm_num
  refine ⟨_, h2, rfl, by simp, by simp, ?_⟩
  show List.map (fun i => s.flows.getD i 0) (List.range (1 + 0)) = [-5]
  rw [show List.range (1 + 0) = [0] from rfl, List.map_cons, List.map_nil, h70]

/-- C9, amended: for whole stage counts with at most `max_stages` stages, whatever
`info` the solver reports, `CalcFeedFlows` returns a vector of `n_enrich + n_strip`
entries, read from the right-hand-side array as the solver left it; the error message
with the value of `info` is written exactly when `info` is not `0`, and the vector is
returned after it all the same. -/
theorem C9_solver_failure
    (dgesv : Int → Int → List ℚ → Int → List ℚ → Int → Int × List ℚ)
    (eqns0 flows0 : Nat → ℚ) (n_enrich n_strip : Nat) (cut cascade_feed : ℚ)
    (hn : n_enrich + n_strip ≤ max_stages) :
    ∃ s o, assembleSystem eqns0 flows0 ((n_enrich : ℚ), (n_strip : ℚ)) cascade_feed cut
        = some s ∧
      CalcFeedFlows dgesv eqns0 flows0 ((n_enrich : ℚ), (n_strip : ℚ)) cascade_feed cut
        = some o ∧
      o.info = (dgesv s.n_stages 1 s.flow_eqns max_stages s.flows max_stages).1 ∧
      (o.info ≠ 0 → o.cerr = some o.info) ∧ (o.info = 0 → o.cerr = none) ∧
      o.final_flows =
        (List.range (n_enrich + n_strip)).map
          (fun i => (dgesv s.n_stages 1 s.flow_eqns max_stages s.flows max_stages).2.getD i 0) ∧
      o.final_flows.length = n_enrich + n_strip := by
  obtain ⟨s, h1, h2⟩ :=
    CalcFeedFlows_eq dgesv eqns0 flows0 n_enrich n_strip cascade_feed cut hn
  refine ⟨s, _, h1, h2, rfl, ?_, ?_, rfl, ?_⟩
  · intro h
    exact if_neg h
  · intro h
    exact if_pos h
  · simp

/-- Witness of the amended C9 at `n_enrich = 1`, `n_strip = 0` with a solver that
reports `info = 1`. -/
theorem C9_solver_failure_witness :
    ∃ s o, assembleSystem (fun _ => 0) (fun _ => 0) (((1 : Nat) : ℚ), ((0 : Nat) : ℚ)) 5 (1 / 4)
        = some s ∧
      CalcFeedFlows (fun _ _ _ _ b _ => (1, b)) (fun _ => 0) (fun _ => 0)
        (((1 : Nat) : ℚ), ((0 : Nat) : ℚ)) 5 (1 / 4) = some o ∧
      o.info = ((fun _ _ _ _ b _ => (1, b) :
        Int → Int → List ℚ → Int → List ℚ → Int → Int × List ℚ)
          s.n_stages 1 s.flow_eqns max_stages s.flows max_stages).1 ∧
      (o.info ≠ 0 → o.cerr = some o.info) ∧ (o.info = 0 → o.cerr = none) ∧
      o.final_flows =
        (List.range (1 + 0)).map
          (fun i => ((fun _ _ _ _ b _ => (1, b) :
            Int → Int → List ℚ → Int → List ℚ → Int → Int × List ℚ)
              s.n_stages 1 s.flow_eqns max_stages s.flows max_stages).2.getD i 0) ∧
      o.final_flows.length = 1 + 0 :=
  C9_solver_failure (fun _ _ _ _ b _ => (1, b)) (fun _ => 0) (fun _ => 0) 1 0 (1 / 4) 5
    (by unfold max_stages; omega)

set_option maxRecDepth 100000 in
/-- C10 fails as stated, in double arithmetic. With `alpha = 1`, feed assay `0.5`, product
target `0.75` and waste target `0.25` an enriching stage gives the assay `0.5` again, the
product target is never reached and `FindNStages` returns nothing, whatever the fuel:
there is no cap and no error outcome. With `alpha = 1.01`, feed assay `0.01`, product
target `0.5` and waste target `0.01` it returns `462` enriching stages, above the bound
`100` of the flow solver. -/
theorem C10_counterexample :
    ProductAssayByAlphaIn binary64 (Dbl.ofInt 1) (Dbl.ofRatio 1 2) = Dbl.ofRatio 1 2 ∧
    (∀ fuel r, FindNStages binary64 fuel (Dbl.ofInt 1) (Dbl.ofRatio 1 2) (Dbl.ofRatio 3 4)
      (Dbl.ofRatio 1 4) ≠ Outcome.done r) ∧
    FindNStages binary64 463 (Dbl.ofRatio 101 100) (Dbl.ofRatio 1 100) (Dbl.ofRatio 1 2)
      (Dbl.ofRatio 1 100) = Outcome.done (462, 0) ∧ (100 : Int) < 462 := by
  have hfix : ProductAssayByAlphaIn binary64 (Dbl.ofInt 1) (Dbl.ofRatio 1 2)
      = Dbl.ofRatio 1 2 := by decide!
  refine ⟨hfix, ?_, by decide!, by norm_num⟩
  intro fuel r
  apply FindNStages_not_done_of_enrich
  intro n
  apply test_of_fixed (ProductAssayByAlphaIn binary64 (Dbl.ofInt 1))
    (fun x => binary64.lt x (Dbl.ofRatio 3 4)) _ 0 hfix
  intro j hj
  obtain rfl : j = 0 := by omega
  decide!

/-- C10, amended: in every arithmetic `FindNStages` has no iteration cap and no error
outcome. It returns exactly when both loop tests have come to fail, and then it returns
the numbers of iterations made, whatever their size within `int`; while the test of the
enriching loop never fails, nothing is returned, whatever the fuel. -/
theorem C10_no_cap_no_error {D : Type} (A : Arith D) (alpha f p w : D) :
    (∀ fuel r, FindNStages A fuel alpha f p w = Outcome.done r ↔
      ∃ n k : Nat, r = ((n : Int), (k : Int)) ∧
        FirstFalse (fun j => A.lt ((ProductAssayByAlphaIn A alpha)^[j] f) p) n ∧
        FirstFalse (fun j => A.lt w ((WasteAssayByAlphaIn A alpha)^[j]
          (if A.lt f p then WasteAssayByAlphaIn A alpha f else f))) k ∧
        (n : Int) ≤ INT_MAX ∧ (k : Int) ≤ INT_MAX ∧ n < fuel ∧ k < fuel) ∧
    ((∀ n, A.lt ((ProductAssayByAlphaIn A alpha)^[n] f) p = true) →
      ∀ fuel r, FindNStages A fuel alpha f p w ≠ Outcome.done r) :=
  ⟨fun fuel r => FindNStages_done_iff A fuel alpha f p w r,
    fun h fuel r => FindNStages_not_done_of_enrich A alpha f p w h fuel r⟩

/-- The amended C10 in double arithmetic at `alpha = 2`, feed `0.5`, product target
`0.75`, waste target `0.25`: the result `(2, 1)` consists of the indices at which the
loop tests first fail. -/
theorem C10_no_cap_no_error_witness :
    FindNStages binary64 3 (Dbl.ofInt 2) (Dbl.ofRatio 1 2) (Dbl.ofRatio 3 4) (Dbl.ofRatio 1 4)
      = Outcome.done (2, 1) ∧
    ∃ n k : Nat, ((2 : Int), (1 : Int)) = ((n : Int), (k : Int)) ∧
      FirstFalse (fun j => binary64.lt ((ProductAssayByAlphaIn binary64 (Dbl.ofInt 2))^[j]
        (Dbl.ofRatio 1 2)) (Dbl.ofRatio 3 4)) n ∧
      FirstFalse (fun j => binary64.lt (Dbl.ofRatio 1 4)
        ((WasteAssayByAlphaIn binary64 (Dbl.ofInt 2))^[j]
          (if binary64.lt (Dbl.ofRatio 1 2) (Dbl.ofRatio 3 4)
            then WasteAssayByAlphaIn binary64 (Dbl.ofInt 2) (Dbl.ofRatio 1 2)
            else Dbl.ofRatio 1 2))) k ∧
      (n : Int) ≤ INT_MAX ∧ (k : Int) ≤ INT_MAX ∧ n < 3 ∧ k < 3 :=
  have h : FindNStages binary64 3 (Dbl.ofInt 2) (Dbl.ofRatio 1 2) (Dbl.ofRatio 3 4)
      (Dbl.ofRatio 1 4) = Outcome.done (2, 1) := by decide!
  ⟨h, ((C10_no_cap_no_error binary64 (Dbl.ofInt 2) (Dbl.ofRatio 1 2) (Dbl.ofRatio 3 4)
    (Dbl.ofRatio 1 4)).1 3 (2, 1)).mp h⟩

/-- C11 fails as stated, in double arithmetic, at `alpha = 1 + 2^-52`, feed assay
`0.888`, product target the next double above `0.888` and waste target `0.888`, which are
inside its hypotheses: the tail assay of the feed stage is rounded to the double above
the feed assay, and `FindNStages` returns the stripping-stage count `1` although the
waste target equals the feed assay. -/
theorem C11_counterexample :
    Dbl.lt (Dbl.ofInt 1) (Dbl.finite false (2 ^ 52 + 1) (-52)) = true ∧
    Dbl.lt (Dbl.ofInt 0) (Dbl.ofRatio 888 1000) = true ∧
    Dbl.lt (Dbl.ofRatio 888 1000) (Dbl.ofInt 1) = true ∧
    Dbl.ofRatio 888 1000 = Dbl.finite false 7998392938210001 (-53) ∧
    Dbl.lt (Dbl.finite false 7998392938210002 (-53)) (Dbl.ofInt 1) = true ∧
    WasteAssayByAlphaIn binary64 (Dbl.finite false (2 ^ 52 + 1) (-52)) (Dbl.ofRatio 888 1000)
      = Dbl.finite false 7998392938210002 (-53) ∧
    FindNStages binary64 3 (Dbl.finite false (2 ^ 52 + 1) (-52)) (Dbl.ofRatio 888 1000)
      (Dbl.finite false 7998392938210002 (-53)) (Dbl.ofRatio 888 1000) = Outcome.done (1, 1) ∧
    (∀ fuel r, FindNStages binary64 fuel (Dbl.finite false (2 ^ 52 + 1) (-52))
      (Dbl.ofRatio 888 1000) (Dbl.finite false 7998392938210002 (-53)) (Dbl.ofRatio 888 1000)
        = Outcome.done r → r.2 = 1) := by
  have h : FindNStages binary64 3 (Dbl.finite false (2 ^ 52 + 1) (-52)) (Dbl.ofRatio 888 1000)
      (Dbl.finite false 7998392938210002 (-53)) (Dbl.ofRatio 888 1000) = Outcome.done (1, 1) := by
    decide!
  refine ⟨by decide!, by decide!, by decide!, by decide!, by decide!, by decide!, h, ?_⟩
  intro fuel r hr
  obtain ⟨n, k, rfl, hn, hk, _⟩ := (FindNStages_done_iff _ _ _ _ _ _ _).mp hr
  obtain ⟨n', k', e, hn', hk', _⟩ := (FindNStages_done_iff _ _ _ _ _ _ _).mp h
  have hkk : k = k' := firstFalse_unique hk hk'
  have e2 : (1 : Int) = (k' : Int) := congrArg Prod.snd e
  simp only []
  rw [hkk]
  exact e2.symm

/-- C11, amended: in every arithmetic in which no number is below itself, when the
product target equals the feed assay every result of `FindNStages` has the
enriching-stage count `0`, and when the waste target equals the feed assay and the tail
assay of the feed stage, `WasteAssayByAlpha(alpha, f)` as computed, is not above the feed
assay, every result has the stripping-stage count `0`; `FindNStages` returns these
results once the loop of the other side has the index at which its test first fails. In
exact arithmetic with `alpha > 1` and `0 < f < 1` the tail assay of the feed stage is not
above the feed assay. -/
theorem C11_boundary_zero_stages {D : Type} (A : Arith D) (alpha f p w : D)
    (hirr : ∀ x, A.lt x x = false) :
    (p = f →
      (∀ fuel r, FindNStages A fuel alpha f p w = Outcome.done r → r.1 = 0) ∧
      (∀ k : Nat, FirstFalse (fun j => A.lt w ((WasteAssayByAlphaIn A alpha)^[j] f)) k →
        (k : Int) ≤ INT_MAX → ∀ fuel, k < fuel →
          FindNStages A fuel alpha f p w = Outcome.done (0, (k : Int)))) ∧
    (w = f → A.lt f (WasteAssayByAlphaIn A alpha f) = false →
      (∀ fuel r, FindNStages A fuel alpha f p w = Outcome.done r → r.2 = 0) ∧
      (∀ n : Nat, FirstFalse (fun j => A.lt ((ProductAssayByAlphaIn A alpha)^[j] f) p) n →
        (n : Int) ≤ INT_MAX → ∀ fuel, n < fuel →
          FindNStages A fuel alpha f p w = Outcome.done ((n : Int), 0))) ∧
    (∀ a x : ℚ, 1 < a → 0 < x → x < 1 →
      rational.lt x (WasteAssayByAlphaIn rational a x) = false) := by
  refine ⟨?_, ?_, ?_⟩
  · rintro rfl
    have h0 : FirstFalse (fun j => A.lt ((ProductAssayByAlphaIn A alpha)^[j] p) p) 0 :=
      ⟨hirr p, fun j hj => absurd hj (Nat.not_lt_zero j)⟩
    have hx : (if A.lt p p = true then WasteAssayByAlphaIn A alpha p else p) = p := by
      rw [hirr p]
      simp
    refine ⟨?_, ?_⟩
    · intro fuel r hr
      obtain ⟨n, k, rfl, hn, _⟩ := (FindNStages_done_iff A fuel alpha p p w r).mp hr
      have : n = 0 := firstFalse_unique hn h0
      subst this
      rfl
    · intro k hk hkb fuel hkf
      refine (FindNStages_done_iff A fuel alpha p p w _).mpr
        ⟨0, k, rfl, h0, ?_, by unfold INT_MAX; norm_num, hkb, by omega, hkf⟩
      rw [hx]
      exact hk
  · rintro rfl htail
    have h0 : FirstFalse (fun j => A.lt w ((WasteAssayByAlphaIn A alpha)^[j]
        (if A.lt w p = true then WasteAssayByAlphaIn A alpha w else w))) 0 := by
      refine ⟨?_, fun j hj => absurd hj (Nat.not_lt_zero j)⟩
      simp only [Function.iterate_zero_apply]
      split
      · exact htail
      · exact hirr w
    refine ⟨?_, ?_⟩
    · intro fuel r hr
      obtain ⟨n, k, rfl, _, hk, _⟩ := (FindNStages_done_iff A fuel alpha w p w r).mp hr
      have : k = 0 := firstFalse_unique hk h0
      subst this
      rfl
    · intro n hn hnb fuel hnf
      exact (FindNStages_done_iff A fuel alpha w p w _).mpr
        ⟨n, 0, rfl, hn, h0, hnb, by unfold INT_MAX; norm_num, hnf, by omega⟩
  · intro a x ha hx0 hx1
    rw [rational_lt_eq_false, WasteAssayByAlphaIn_rational]
    exact (WasteAssayByAlpha_lt_self a x ha hx0 hx1).le

/-- The amended C11 in double arithmetic at `alpha = 2` with feed assay, product target
and waste target all `0.5`, where `FindNStages` returns `(0, 0)`. -/
theorem C11_boundary_zero_stages_witness :
    (∀ x, binary64.lt x x = false) ∧
    FindNStages binary64 1 (Dbl.ofInt 2) (Dbl.ofRatio 1 2) (Dbl.ofRatio 1 2) (Dbl.ofRatio 1 2)
      = Outcome.done (0, 0) ∧
    (∀ fuel r, FindNStages binary64 fuel (Dbl.ofInt 2) (Dbl.ofRatio 1 2) (Dbl.ofRatio 1 2)
      (Dbl.ofRatio 1 2) = Outcome.done r → r.1 = 0) ∧
    (∀ fuel r, FindNStages binary64 fuel (Dbl.ofInt 2) (Dbl.ofRatio 1 2) (Dbl.ofRatio 1 2)
      (Dbl.ofRatio 1 2) = Outcome.done r → r.2 = 0) :=
  ⟨Dbl.lt_irrefl, by decide!,
    ((C11_boundary_zero_stages binary64 (Dbl.ofInt 2) (Dbl.ofRatio 1 2) (Dbl.ofRatio 1 2)
      (Dbl.ofRatio 1 2) Dbl.lt_irrefl).1 rfl).1,
    ((C11_boundary_zero_stages binary64 (Dbl.ofInt 2) (Dbl.ofRatio 1 2) (Dbl.ofRatio 1 2)
      (Dbl.ofRatio 1 2) Dbl.lt_irrefl).2.1 rfl (by decide!)).1⟩

/-- C12 fails as stated, in double arithmetic, at `alpha = 2`, feed assay `0.5`, product
target `0.75` and waste target `0.4`, which are inside its hypotheses: the tail assay of
the feed stage, `1/3` rounded, is already below the waste target, and `FindNStages`
returns `2` enriching stages and `0` stripping stages. -/
theorem C12_counterexample :
    Dbl.lt (Dbl.ofInt 1) (Dbl.ofInt 2) = true ∧
    Dbl.lt (Dbl.ofInt 0) (Dbl.ofRatio 2 5) = true ∧
    Dbl.lt (Dbl.ofRatio 2 5) (Dbl.ofRatio 1 2) = true ∧
    Dbl.lt (Dbl.ofRatio 1 2) (Dbl.ofRatio 3 4) = true ∧
    Dbl.lt (Dbl.ofRatio 3 4) (Dbl.ofInt 1) = true ∧
    Dbl.lt (Dbl.ofRatio 2 5) (WasteAssayByAlphaIn binary64 (Dbl.ofInt 2) (Dbl.ofRatio 1 2))
      = false ∧
    FindNStages binary64 3 (Dbl.ofInt 2) (Dbl.ofRatio 1 2) (Dbl.ofRatio 3 4) (Dbl.ofRatio 2 5)
      = Outcome.done (2, 0) ∧
    (∀ fuel r, FindNStages binary64 fuel (Dbl.ofInt 2) (Dbl.ofRatio 1 2) (Dbl.ofRatio 3 4)
      (Dbl.ofRatio 2 5) = Outcome.done r → r.2 = 0) := by
  have h : FindNStages binary64 3 (Dbl.ofInt 2) (Dbl.ofRatio 1 2) (Dbl.ofRatio 3 4)
      (Dbl.ofRatio 2 5) = Outcome.done (2, 0) := by decide!
  refine ⟨by decide!, by decide!, by decide!, by decide!, by decide!, by decide!, h, ?_⟩
  intro fuel r hr
  obtain ⟨n, k, rfl, hn, hk, _⟩ := (FindNStages_done_iff _ _ _ _ _ _ _).mp hr
  obtain ⟨n', k', e, hn', hk', _⟩ := (FindNStages_done_iff _ _ _ _ _ _ _).mp h
  have hkk : k = k' := firstFalse_unique hk hk'
  have e2 : (0 : Int) = (k' : Int) := congrArg Prod.snd e
  simp only []
  rw [hkk]
  exact e2.symm

/-- C12, amended: in every arithmetic, for a feed assay below the product target, every
result of `FindNStages` has an enriching-stage count `>= 1`, and its stripping-stage
count is `>= 1` exactly when the tail assay of the feed stage,
`WasteAssayByAlpha(alpha, f)` as computed, is above the waste target. `FindNStages`
returns once both loops have an index at which their test first fails that fits in an
`int`. -/
theorem C12_positive_counts {D : Type} (A : Arith D) (alpha f p w : D)
    (hfp : A.lt f p = true) :
    (∀ fuel r, FindNStages A fuel alpha f p w = Outcome.done r →
      1 ≤ r.1 ∧ (1 ≤ r.2 ↔ A.lt w (WasteAssayByAlphaIn A alpha f) = true)) ∧
    (∀ n k : Nat, FirstFalse (fun j => A.lt ((ProductAssayByAlphaIn A alpha)^[j] f) p) n →
      FirstFalse (fun j => A.lt w ((WasteAssayByAlphaIn A alpha)^[j]
        (WasteAssayByAlphaIn A alpha f))) k →
      (n : Int) ≤ INT_MAX → (k : Int) ≤ INT_MAX → ∀ fuel, n < fuel → k < fuel →
        FindNStages A fuel alpha f p w = Outcome.done ((n : Int), (k : Int))) := by
  have hx : (if A.lt f p = true then WasteAssayByAlphaIn A alpha f else f)
      = WasteAssayByAlphaIn A alpha f := if_pos hfp
  refine ⟨?_, ?_⟩
  · intro fuel r hr
    obtain ⟨n, k, rfl, hn, hk, _⟩ := (FindNStages_done_iff A fuel alpha f p w r).mp hr
    rw [hx] at hk
    have hn0 : n ≠ 0 := by
      rintro rfl
      have := hn.1
      simp only [Function.iterate_zero_apply] at this
      rw [hfp] at this
      cases this
    refine ⟨?_, ?_⟩
    · simp only []
      omega
    · simp only []
      constructor
      · intro hk1
        have := hk.2 0 (by omega)
        simpa using this
      · intro ht
        have hk0 : k ≠ 0 := by
          rintro rfl
          have := hk.1
          simp only [Function.iterate_zero_apply] at this
          rw [ht] at this
          cases this
        omega
  · intro n k hn hk hnb hkb fuel hnf hkf
    refine (FindNStages_done_iff A fuel alpha f p w _).mpr
      ⟨n, k, rfl, hn, ?_, hnb, hkb, hnf, hkf⟩
    rw [hx]
    exact hk

/-- The amended C12 in double arithmetic at `alpha = 1.2`, feed `0.0071`, product target
`0.05`, waste target `0.0025`, where `FindNStages` returns `11` enriching and `5`
stripping stages. -/
theorem C12_positive_counts_witness :
    binary64.lt (Dbl.ofRatio 71 10000) (Dbl.ofRatio 5 100) = true ∧
    FindNStages binary64 12 (Dbl.ofRatio 12 10) (Dbl.ofRatio 71 10000) (Dbl.ofRatio 5 100)
      (Dbl.ofRatio 25 10000) = Outcome.done (11, 5) ∧
    (1 : Int) ≤ 11 ∧
    ((1 : Int) ≤ 5 ↔ binary64.lt (Dbl.ofRatio 25 10000)
      (WasteAssayByAlphaIn binary64 (Dbl.ofRatio 12 10) (Dbl.ofRatio 71 10000)) = true) :=
  have h : FindNStages binary64 12 (Dbl.ofRatio 12 10) (Dbl.ofRatio 71 10000)
      (Dbl.ofRatio 5 100) (Dbl.ofRatio 25 10000) = Outcome.done (11, 5) := by decide!
  ⟨by decide!, h, (C12_positive_counts binary64 (Dbl.ofRatio 12 10) (Dbl.ofRatio 71 10000)
    (Dbl.ofRatio 5 100) (Dbl.ofRatio 25 10000) (by decide!)).1 12 (11, 5) h⟩

/-- C14 fails as stated, at the configuration with every parameter equal to `1`,
pressure ratio `x = 2` and `cut = 1/2`: the quantity under the square root is negative,
so `r_12` has no real value (`std::sqrt` gives NaN, `Real.sqrt` gives `0`) and the
separative power is not strictly positive. -/
theorem C14_counterexample :
    r_12_radicand Real.log (1 : ℝ) 1 1 2 < 0 ∧
    CalcDelU Real.sqrt Real.log Real.exp Real.pi (1 : ℝ) 1 1 1 1 (1 / 2) 1 1 1 2 1 = 0 ∧
    ¬ (0 < CalcDelU Real.sqrt Real.log Real.exp Real.pi (1 : ℝ) 1 1 1 1 (1 / 2) 1 1 1 2 1) := by
  have hneg : r_12_radicand Real.log (1 : ℝ) 1 1 2 < 0 := by
    rw [r_12_radicand_eq]
    have h2 := Real.log_two_gt_d9
    unfold gas_const
    norm_num
    linarith
  have hs : Real.sqrt (r_12_radicand Real.log (1 : ℝ) 1 1 2) = 0 :=
    Real.sqrt_eq_zero_of_nonpos hneg.le
  have h0 : CalcDelU Real.sqrt Real.log Real.exp Real.pi (1 : ℝ) 1 1 1 1 (1 / 2) 1 1 1 2 1
      = 0 := by
    unfold CalcDelU
    simp [hs]
  refine ⟨hneg, h0, ?_⟩
  rw [h0]
  exact lt_irrefl 0

/-- C14, amended: for a centrifuge configuration with all parameters strictly positive,
pressure ratio `x > 1`, `0 < cut < 1` and
`2 * gas_const * temp * ln x < M_mol * v_a ^ 2` (the quantity under the square root of
`r_12` is positive), the separative power `CalcDelU` is strictly positive. -/
theorem C14_separative_power_pos
    (v_a height diameter feed temp cut eff M_mol dM x flow_internal : ℝ)
    (hv : 0 < v_a) (hh : 0 < height) (hd : 0 < diameter) (hfeed : 0 < feed) (ht : 0 < temp)
    (hc0 : 0 < cut) (hc1 : cut < 1) (heff : 0 < eff) (hM : 0 < M_mol) (hdM : 0 < dM)
    (hx : 1 < x) (hfi : 0 < flow_internal)
    (hrad : 2 * gas_const * temp * Real.log x < M_mol * v_a ^ 2) :
    0 < r_12_radicand Real.log v_a temp M_mol x ∧
    0 < CalcDelU Real.sqrt Real.log Real.exp Real.pi v_a height diameter feed temp cut eff
      M_mol dM x flow_internal := by
  refine ⟨?_, CalcDelU_pos v_a height diameter feed temp cut eff M_mol dM x flow_internal
    hv hh hd hfeed ht hc0 hc1 heff hM hdM hx hfi hrad⟩
  rw [r_12_radicand_eq, sub_pos, div_lt_one (mul_pos hM (pow_pos hv 2))]
  exact hrad

/-- Witness of the amended C14 at `v_a = 10`, `x = 2`, `cut = 1/2` and every other
parameter equal to `1`. -/
theorem C14_separative_power_pos_witness :
    0 < r_12_radicand Real.log (10 : ℝ) 1 1 2 ∧
    0 < CalcDelU Real.sqrt Real.log Real.exp Real.pi (10 : ℝ) 1 1 1 1 (1 / 2) 1 1 1 2 1 :=
  C14_separative_power_pos 10 1 1 1 1 (1 / 2) 1 1 1 2 1 (by norm_num) (by norm_num)
    (by norm_num) (by norm_num) (by norm_num) (by norm_num) (by norm_num) (by norm_num)
    (by norm_num) (by norm_num) (by norm_num) (by norm_num) (by
      have h2 := Real.log_two_lt_d9
      unfold gas_const
      norm_num
      linarith)

/-- C15 fails as stated, at the assays `1/4 < 1/2`: `CalcV (1/2) = 0` is strictly below
`CalcV (1/4)`, and `CalcV (3/4) = CalcV (1/4)` (the function is symmetric about `1/2`). -/
theorem C15_counterexample :
    (0 : ℝ) < 1 / 4 ∧ (1 / 4 : ℝ) < 1 / 2 ∧ (1 / 2 : ℝ) < 1 ∧
    CalcV Real.log (1 / 2 : ℝ) = 0 ∧
    CalcV Real.log (1 / 2 : ℝ) < CalcV Real.log (1 / 4 : ℝ) ∧
    ¬ (CalcV Real.log (1 / 4 : ℝ) ≤ CalcV Real.log (1 / 2 : ℝ)) ∧
    CalcV Real.log (1 - 1 / 4 : ℝ) = CalcV Real.log (1 / 4 : ℝ) := by
  have h2 : CalcV Real.log (1 / 2 : ℝ) = 0 := by
    unfold CalcV
    norm_num
  have h4 : 0 < CalcV Real.log (1 / 4 : ℝ) := by
    unfold CalcV
    have e : (1 / 4 : ℝ) / (1 - 1 / 4) = 3⁻¹ := by norm_num
    rw [e, Real.log_inv]
    have : 0 < Real.log 3 := Real.log_pos (by norm_num)
    nlinarith
  refine ⟨by norm_num, by norm_num, by norm_num, h2, ?_, ?_, ?_⟩
  · rw [h2]
    exact h4
  · rw [h2]
    exact not_le.mpr h4
  · exact CalcV_symm (1 / 4)

/-- C15, amended: the value function `CalcV` is symmetric about `1/2`
(`CalcV (1 - a) = CalcV a` on `(0, 1)`), monotonically increasing on `[1/2, 1)` and
monotonically decreasing on `(0, 1/2]`. -/
theorem C15_value_function (a b : ℝ) :
    (0 < a → a < 1 → CalcV Real.log (1 - a) = CalcV Real.log a) ∧
    (1 / 2 ≤ a → a < b → b < 1 → CalcV Real.log a ≤ CalcV Real.log b) ∧
    (0 < a → a < b → b ≤ 1 / 2 → CalcV Real.log b ≤ CalcV Real.log a) := by
  refine ⟨fun _ _ => CalcV_symm a, CalcV_mono_upper a b, ?_⟩
  intro ha0 hab hb
  rw [← CalcV_symm a, ← CalcV_symm b]
  exact CalcV_mono_upper (1 - b) (1 - a) (by linarith) (by linarith) (by linarith)

/-- Witness of the amended C15 at `a = 1/2`, `b = 3/4`. -/
theorem C15_value_function_witness :
    CalcV Real.log (1 / 2 : ℝ) ≤ CalcV Real.log (3 / 4 : ℝ) :=
  (C15_value_function (1 / 2) (3 / 4)).2.1 (le_refl _) (by norm_num) (by norm_num)

/-- C17: for `del_U > 0`, `feed > 0`, `M > 0` and `0 < cut < 1`, `AlphaBySwu` returns a
separation factor `alpha > 1` with
`(alpha - 1)^2 * cut * feed * M = 2 * del_U * (1 - cut)`. -/
theorem C17_alpha_by_swu (del_U feed cut M : ℝ) (hU : 0 < del_U) (hf : 0 < feed)
    (hM : 0 < M) (hc0 : 0 < cut) (hc1 : cut < 1) :
    1 < AlphaBySwu Real.sqrt del_U feed cut M ∧
    (AlphaBySwu Real.sqrt del_U feed cut M - 1) ^ 2 * cut * feed * M
      = 2 * del_U * (1 - cut) := by
  have hq : 0 < 2 * (del_U / M) * (1 - cut) / (cut * feed) := by
    have h1 : 0 < 1 - cut := by linarith
    positivity
  unfold AlphaBySwu
  simp only []
  constructor
  · have := Real.sqrt_pos.mpr hq
    linarith
  · rw [add_sub_cancel_left, Real.sq_sqrt hq.le]
    field_simp
    ring

/-- Witness of C17 at `del_U = 1`, `feed = 2`, `cut = 1/2`, `M = 1`. -/
theorem C17_alpha_by_swu_witness :
    1 < AlphaBySwu Real.sqrt (1 : ℝ) 2 (1 / 2) 1 ∧
    (AlphaBySwu Real.sqrt (1 : ℝ) 2 (1 / 2) 1 - 1) ^ 2 * (1 / 2) * 2 * 1
      = 2 * 1 * (1 - 1 / 2) :=
  C17_alpha_by_swu 1 2 (1 / 2) 1 (by norm_num) (by norm_num) (by norm_num) (by norm_num)
    (by norm_num)

/-- C18 at the failing input `alpha = 2`, `a = 1/2`, `n = 1`: one application of
`ProductAssayByAlpha` gives `2/3`, while `ProductAssayFromNStages` gives
`e / (1 + e)`, which is larger. The same holds for every `alpha > 1`, assay in `(0, 1)`
and `n >= 1`: the closed form multiplies the odds by `exp (n * (alpha - 1))`, the chain
by `alpha ^ n`. -/
theorem C18_closed_form_overshoots :
    (ProductAssayByAlpha 2)^[1] (1 / 2) = 2 / 3 ∧
    ProductAssayFromNStages Real.exp (2 : ℝ) (1 / 2) 1 = Real.exp 1 / (1 + Real.exp 1) ∧
    (2 / 3 : ℝ) < ProductAssayFromNStages Real.exp (2 : ℝ) (1 / 2) 1 ∧
    ∀ (alpha a : ℚ) (n : Nat), 1 < alpha → 0 < a → a < 1 → 1 ≤ n →
      (((ProductAssayByAlpha alpha)^[n] a : ℚ) : ℝ)
        < ProductAssayFromNStages Real.exp (alpha : ℝ) (a : ℝ) (n : ℝ) := by
  have h1 : (ProductAssayByAlpha 2)^[1] (1 / 2) = 2 / 3 := by
    rw [Function.iterate_one, ProductAssayByAlpha_eq 2 (1 / 2) (by norm_num)]
    norm_num
  have h2 : ProductAssayFromNStages Real.exp (2 : ℝ) (1 / 2) 1
      = Real.exp 1 / (1 + Real.exp 1) := by
    rw [ProductAssayFromNStages_eq 2 (1 / 2) 1 (by norm_num)]
    have he : (0 : ℝ) < Real.exp 1 := Real.exp_pos 1
    norm_num
    field_simp
    ring
  refine ⟨h1, h2, ?_, ?_⟩
  · rw [h2]
    have he : (1 : ℝ) + 1 < Real.exp 1 := Real.add_one_lt_exp (by norm_num)
    rw [lt_div_iff₀ (by linarith)]
    linarith
  · intro alpha a n halpha ha0 ha1 hn
    exact chain_lt_ProductAssayFromNStages alpha a n halpha ha0 ha1 hn

/-- C19: for `0 < cut < 1` and at least one stage, the matrix of every system assembled
by `CalcFeedFlows` (diagonal `-1`, sub-diagonal `cut`, super-diagonal `1 - cut`) has a
non-zero determinant, and the system has one and only one solution; such a system is
assembled whenever the cascade has at most `max_stages` stages. -/
theorem C19_flow_system_uniquely_solvable (eqns0 flows0 : Nat → ℚ) (n_enrich n_strip : Nat)
    (cut cascade_feed : ℚ) (_hn : 1 ≤ n_enrich + n_strip) (hc0 : 0 < cut) (hc1 : cut < 1) :
    (∀ s, assembleSystem eqns0 flows0 ((n_enrich : ℚ), (n_strip : ℚ)) cascade_feed cut = some s →
      (Matrix.of (fun (r c : Fin (n_enrich + n_strip)) => eqnAt s c.1 r.1)).det ≠ 0 ∧
      (∃ F, Solves s F) ∧
      (∀ F G, Solves s F → Solves s G → ∀ i, i < n_enrich + n_strip → F i = G i)) ∧
    (n_enrich + n_strip ≤ max_stages →
      ∃ s, assembleSystem eqns0 flows0 ((n_enrich : ℚ), (n_strip : ℚ)) cascade_feed cut
        = some s) := by
  constructor
  · intro s h
    exact ⟨assembled_det_ne_zero eqns0 flows0 n_enrich n_strip cascade_feed cut hc0 hc1 s h,
      assembled_solution_exists eqns0 flows0 n_enrich n_strip cascade_feed cut hc0 hc1 s h,
      assembled_solution_unique eqns0 flows0 n_enrich n_strip cascade_feed cut hc0 hc1 s h⟩
  · intro hn
    obtain ⟨s, h1, _⟩ := assembleSystem_spec eqns0 flows0 n_enrich n_strip cascade_feed cut hn
    exact ⟨s, h1⟩

/-- Witness of C19 at `n_enrich = 2`, `n_strip = 1`, `cut = 1/4`, `cascade_feed = 5`. -/
theorem C19_flow_system_uniquely_solvable_witness :
    (∀ s, assembleSystem (fun _ => 0) (fun _ => 0) (((2 : Nat) : ℚ), ((1 : Nat) : ℚ)) 5 (1 / 4)
        = some s →
      (Matrix.of (fun (r c : Fin (2 + 1)) => eqnAt s c.1 r.1)).det ≠ 0 ∧
      (∃ F, Solves s F) ∧
      (∀ F G, Solves s F → Solves s G → ∀ i, i < 2 + 1 → F i = G i)) ∧
    (2 + 1 ≤ max_stages →
      ∃ s, assembleSystem (fun _ => 0) (fun _ => 0) (((2 : Nat) : ℚ), ((1 : Nat) : ℚ)) 5 (1 / 4)
        = some s) :=
  C19_flow_system_uniquely_solvable (fun _ => 0) (fun _ => 0) 2 1 (1 / 4) 5 (by omega)
    (by norm_num) (by norm_num)

set_option maxRecDepth 100000 in
/-- C20 fails as stated, in double arithmetic, at `alpha = 1.2`, feed assay `0.0071`,
product target `0.9999999999999999 = 1 - 2^-53` and waste target `0.0025`, which are
inside its hypotheses: after `223` enriching stages the product assay is
`1 - 3 * 2^-53`, one more stage gives this assay again, so the assay stays below the
target, the enriching loop never exits and `FindNStages` returns nothing, whatever the
fuel. -/
theorem C20_counterexample :
    Dbl.lt (Dbl.ofInt 1) (Dbl.ofRatio 12 10) = true ∧
    Dbl.lt (Dbl.ofInt 0) (Dbl.ofRatio 71 10000) = true ∧
    Dbl.lt (Dbl.ofRatio 71 10000) (Dbl.ofInt 1) = true ∧
    Dbl.lt (Dbl.ofInt 0) (Dbl.finite false (2 ^ 53 - 1) (-53)) = true ∧
    Dbl.lt (Dbl.finite false (2 ^ 53 - 1) (-53)) (Dbl.ofInt 1) = true ∧
    Dbl.lt (Dbl.ofInt 0) (Dbl.ofRatio 25 10000) = true ∧
    Dbl.lt (Dbl.ofRatio 25 10000) (Dbl.ofInt 1) = true ∧
    (ProductAssayByAlphaIn binary64 (Dbl.ofRatio 12 10))^[223] (Dbl.ofRatio 71 10000)
      = Dbl.finite false (2 ^ 53 - 3) (-53) ∧
    ProductAssayByAlphaIn binary64 (Dbl.ofRatio 12 10) (Dbl.finite false (2 ^ 53 - 3) (-53))
      = Dbl.finite false (2 ^ 53 - 3) (-53) ∧
    (∀ n, binary64.lt ((ProductAssayByAlphaIn binary64 (Dbl.ofRatio 12 10))^[n]
      (Dbl.ofRatio 71 10000)) (Dbl.finite false (2 ^ 53 - 1) (-53)) = true) ∧
    (∀ fuel r, FindNStages binary64 fuel (Dbl.ofRatio 12 10) (Dbl.ofRatio 71 10000)
      (Dbl.finite false (2 ^ 53 - 1) (-53)) (Dbl.ofRatio 25 10000) ≠ Outcome.done r) := by
  have hchain : (ProductAssayByAlphaIn binary64 (Dbl.ofRatio 12 10))^[223] (Dbl.ofRatio 71 10000)
      = Dbl.finite false (2 ^ 53 - 3) (-53) := by decide!
  have hfix : ProductAssayByAlphaIn binary64 (Dbl.ofRatio 12 10)
      (Dbl.finite false (2 ^ 53 - 3) (-53)) = Dbl.finite false (2 ^ 53 - 3) (-53) := by decide!
  have hrun : enrichLoop binary64 (Dbl.ofRatio 12 10) (Dbl.finite false (2 ^ 53 - 1) (-53)) 224
      { ideal_enrich_stage := 0
        ideal_strip_stage := 0
        stage_feed_assay := Dbl.ofRatio 71 10000
        stage_product_assay := Dbl.ofRatio 71 10000
        stage_waste_assay := Dbl.ofRatio 71 10000 } = Outcome.running := by decide!
  have hall : ∀ n, binary64.lt ((ProductAssayByAlphaIn binary64 (Dbl.ofRatio 12 10))^[n]
      (Dbl.ofRatio 71 10000)) (Dbl.finite false (2 ^ 53 - 1) (-53)) = true := by
    intro n
    apply test_of_fixed (ProductAssayByAlphaIn binary64 (Dbl.ofRatio 12 10))
      (fun x => binary64.lt x (Dbl.finite false (2 ^ 53 - 1) (-53))) _ 223
    · rw [hchain]
      exact hfix
    · intro j hj
      exact enrichLoop_running binary64 _ _ 224 _ rfl (by unfold INT_MAX; norm_num) hrun j
        (by omega)
  refine ⟨by decide!, by decide!, by decide!, by decide!, by decide!, by decide!, by decide!,
    hchain, hfix, hall, ?_⟩
  intro fuel r
  exact FindNStages_not_done_of_enrich binary64 _ _ _ _ hall fuel r

/-- C20, amended: in every arithmetic `FindNStages` terminates, that is, both loops exit
and it returns for some fuel, exactly when each of the two loop tests comes to fail at an
index that fits in an `int`. In exact arithmetic, for `alpha > 1` and assays strictly
between `0` and `1`, both tests come to fail: the odds of the assay are multiplied,
respectively divided, by `alpha` at every step. -/
theorem C20_terminates_iff_targets_reached {D : Type} (A : Arith D) (alpha f p w : D) :
    ((∃ fuel r, FindNStages A fuel alpha f p w = Outcome.done r) ↔
      ∃ n k : Nat,
        FirstFalse (fun j => A.lt ((ProductAssayByAlphaIn A alpha)^[j] f) p) n ∧
        FirstFalse (fun j => A.lt w ((WasteAssayByAlphaIn A alpha)^[j]
          (if A.lt f p then WasteAssayByAlphaIn A alpha f else f))) k ∧
        (n : Int) ≤ INT_MAX ∧ (k : Int) ≤ INT_MAX) ∧
    (∀ a x y z : ℚ, 1 < a → 0 < x → x < 1 → 0 < y → y < 1 → 0 < z → z < 1 →
      (∃ n, FirstFalse (fun j => rational.lt ((ProductAssayByAlphaIn rational a)^[j] x) y) n) ∧
      (∃ k, FirstFalse (fun j => rational.lt z ((WasteAssayByAlphaIn rational a)^[j]
          (if rational.lt x y then WasteAssayByAlphaIn rational a x else x))) k)) := by
  refine ⟨⟨?_, ?_⟩, ?_⟩
  · rintro ⟨fuel, r, hr⟩
    obtain ⟨n, k, _, hn, hk, hnb, hkb, _⟩ := (FindNStages_done_iff A fuel alpha f p w r).mp hr
    exact ⟨n, k, hn, hk, hnb, hkb⟩
  · rintro ⟨n, k, hn, hk, hnb, hkb⟩
    exact ⟨n + k + 1, _, (FindNStages_done_iff A (n + k + 1) alpha f p w _).mpr
      ⟨n, k, rfl, hn, hk, hnb, hkb, by omega, by omega⟩⟩
  · intro a x y z ha hx0 hx1 _ hy1 hz0 _
    have ha0 : 0 < a := by linarith
    constructor
    · obtain ⟨n, hn⟩ := exists_product_reached a x y ha hx0 hx1 hy1
      have ht : (fun j => rational.lt ((ProductAssayByAlphaIn rational a)^[j] x) y) n = false := by
        simp only []
        rw [rational_lt_eq_false, iterate_product_rational]
        exact hn
      obtain ⟨m, _, hm⟩ := exists_firstFalse
        (t := fun j => rational.lt ((ProductAssayByAlphaIn rational a)^[j] x) y) ht
      exact ⟨m, hm⟩
    · have hx : 0 < (if rational.lt x y = true then WasteAssayByAlphaIn rational a x else x) ∧
          (if rational.lt x y = true then WasteAssayByAlphaIn rational a x else x) < 1 := by
        split
        · rw [WasteAssayByAlphaIn_rational]
          exact ⟨WasteAssayByAlpha_pos a x ha0 hx0 hx1, WasteAssayByAlpha_lt_one a x ha0 hx0 hx1⟩
        · exact ⟨hx0, hx1⟩
      obtain ⟨k, hk⟩ := exists_waste_reached a _ z ha hx.1 hx.2 hz0
      have ht : (fun j => rational.lt z ((WasteAssayByAlphaIn rational a)^[j]
          (if rational.lt x y = true then WasteAssayByAlphaIn rational a x else x))) k = false := by
        simp only []
        rw [rational_lt_eq_false, iterate_waste_rational]
        exact hk
      obtain ⟨m, _, hm⟩ := exists_firstFalse
        (t := fun j => rational.lt z ((WasteAssayByAlphaIn rational a)^[j]
          (if rational.lt x y = true then WasteAssayByAlphaIn rational a x else x))) ht
      exact ⟨m, hm⟩

/-- The amended C20 in double arithmetic at `alpha = 1.2`, feed `0.0071`, product target
`0.05`, waste target `0.0025`, where `FindNStages` returns `(11, 5)`. -/
theorem C20_terminates_iff_targets_reached_witness :
    FindNStages binary64 12 (Dbl.ofRatio 12 10) (Dbl.ofRatio 71 10000) (Dbl.ofRatio 5 100)
      (Dbl.ofRatio 25 10000) = Outcome.done (11, 5) ∧
    ∃ n k : Nat,
      FirstFalse (fun j => binary64.lt ((ProductAssayByAlphaIn binary64 (Dbl.ofRatio 12 10))^[j]
        (Dbl.ofRatio 71 10000)) (Dbl.ofRatio 5 100)) n ∧
      FirstFalse (fun j => binary64.lt (Dbl.ofRatio 25 10000)
        ((WasteAssayByAlphaIn binary64 (Dbl.ofRatio 12 10))^[j]
          (if binary64.lt (Dbl.ofRatio 71 10000) (Dbl.ofRatio 5 100)
            then WasteAssayByAlphaIn binary64 (Dbl.ofRatio 12 10) (Dbl.ofRatio 71 10000)
            else Dbl.ofRatio 71 10000))) k ∧
      (n : Int) ≤ INT_MAX ∧ (k : Int) ≤ INT_MAX :=
  have h : FindNStages binary64 12 (Dbl.ofRatio 12 10) (Dbl.ofRatio 71 10000)
      (Dbl.ofRatio 5 100) (Dbl.ofRatio 25 10000) = Outcome.done (11, 5) := by decide!
  ⟨h, (C20_terminates_iff_targets_reached binary64 (Dbl.ofRatio 12 10) (Dbl.ofRatio 71 10000)
    (Dbl.ofRatio 5 100) (Dbl.ofRatio 25 10000)).1.mp ⟨12, (11, 5), h⟩⟩

end mbmore
